import Mathlib

/-!
# rlm-go: the response parser, the driver loop and its collaborators

A shallow embedding of `internal/utils/parsing.go`, of `RLM.Completion` in
`internal/rlm/rlm.go`, of the sandbox in `pkg/env/repl.go`, of the callback
handler in `pkg/rlm/handler.go` and of the client in
`internal/client/gemini.go`.

Go strings are byte sequences: `len(s)` counts bytes and `s[:n]` slices
bytes.  A string is modelled as the list of its bytes, each byte as its
value (a natural number below 256).
-/

set_option autoImplicit false

namespace RlmGo

/-! ## Strings -/

/-- A Go string: its bytes in order. -/
abbrev GoString := List Nat

/-- The bytes of an ASCII literal of the source. -/
def ascii (s : String) : GoString := s.toList.map Char.toNat

/-- Go slice expression `s[a:b]`. -/
def slice (s : GoString) (a b : Nat) : GoString := (s.drop a).take (b - a)

/-! ## The regular expressions of `parsing.go`

The three patterns of the source are built from literal bytes, one lazy
`.*?` under the flag `(?s)` (so `.` also matches a newline) and one capture
group.  `Item` is that fragment of the regexp syntax.  The literals are
ASCII and an ASCII byte is never inside a multi-byte UTF-8 sequence, so
stepping `.` byte by byte reaches the same match positions as stepping rune
by rune.
-/

/-- One element of a pattern. -/
inductive Item where
  /-- A literal byte. -/
  | byte (b : Nat)
  /-- The lazy repetition `.*?` with `(?s)`. -/
  | lazyDotStar
  /-- A capture-group boundary: records the current position. -/
  | mark
  deriving DecidableEq, Repr

/-- A pattern: the concatenation of its items. -/
abbrev Regex := List Item

/-- The literal items of a byte string. -/
def lits (s : GoString) : Regex := s.map Item.byte

/-- Result of a match attempt: the recorded group boundaries and the end
position of the match. -/
abbrev MatchEnd := List Nat × Nat

/-- Lazy repetition: try the continuation `k` at the current position, and
only when it fails consume one more byte and retry. -/
def lazyScan (k : Nat → GoString → Option MatchEnd) : Nat → GoString → Option MatchEnd
  | pos, [] => k pos []
  | pos, b :: s =>
    match k pos (b :: s) with
    | some r => some r
    | none => lazyScan k (pos + 1) s

/-- Anchored match of a pattern at position `pos`, the input from `pos` on
being `s`; alternatives are explored in priority order (leftmost-first). -/
def matchHere : Regex → Nat → GoString → Option MatchEnd
  | [], pos, _ => some ([], pos)
  | Item.byte _ :: _, _, [] => none
  | Item.byte c :: p, pos, b :: s => if b = c then matchHere p (pos + 1) s else none
  | Item.mark :: p, pos, s =>
    match matchHere p pos s with
    | some (ms, e) => some (pos :: ms, e)
    | none => none
  | Item.lazyDotStar :: p, pos, s => lazyScan (matchHere p) pos s

/-- A match: start position, group boundaries, end position. -/
structure Match where
  start : Nat
  marks : List Nat
  stop : Nat
  deriving DecidableEq, Repr

/-- Unanchored search: the match at the leftmost position at which the
pattern matches, the input from `pos` on being `s`. -/
def search (re : Regex) : Nat → GoString → Option Match
  | pos, [] =>
    match matchHere re pos [] with
    | some (ms, e) => some ⟨pos, ms, e⟩
    | none => none
  | pos, b :: s =>
    match matchHere re pos (b :: s) with
    | some (ms, e) => some ⟨pos, ms, e⟩
    | none => search re (pos + 1) s

/-- The group boundaries taken two by two. -/
def pairs : List Nat → List (Nat × Nat)
  | a :: b :: rest => (a, b) :: pairs rest
  | _ => []

/-- The submatch strings of a match: the whole match, then each group. -/
def submatches (text : GoString) (m : Match) : List GoString :=
  slice text m.start m.stop :: (pairs m.marks).map (fun ab => slice text ab.1 ab.2)

/-- Go `re.FindStringSubmatch(text)`: the leftmost match with its groups,
`none` for Go's nil. -/
def FindStringSubmatch (re : Regex) (text : GoString) : Option (List GoString) :=
  (search re 0 text).map (submatches text)

/-- The loop of Go `allMatches`: successive matches, each search starting
where the previous match ended; after an empty match the position moves on
(by one byte here, by one rune in Go: the patterns of `parsing.go` never
match the empty string), and an empty match right after the previous match is
not delivered.  `fuel` bounds the number of searches. -/
def allMatches (re : Regex) (text : GoString) : Nat → Nat → Option Nat → List Match
  | 0, _, _ => []
  | fuel + 1, pos, prevMatchEnd =>
    if pos ≤ text.length then
      match search re pos (text.drop pos) with
      | none => []
      | some m =>
        if m.stop = pos then
          if some m.start = prevMatchEnd then
            allMatches re text fuel (pos + 1) (some m.stop)
          else
            m :: allMatches re text fuel (pos + 1) (some m.stop)
        else
          m :: allMatches re text fuel m.stop (some m.stop)
    else []

/-- Go `re.FindAllStringSubmatchIndex(text, -1)`: the positions of the
successive matches.  Every search moves the position on by at least one byte,
so `text.length + 2` searches are enough. -/
def FindAllStringSubmatchIndex (re : Regex) (text : GoString) : List Match :=
  allMatches re text (text.length + 2) 0 none

/-- Go `re.FindAllStringSubmatch(text, -1)`: the submatch strings of the
successive matches. -/
def FindAllStringSubmatch (re : Regex) (text : GoString) : List (List GoString) :=
  (FindAllStringSubmatchIndex re text).map (submatches text)

/-- Pattern `"(?s)` + three backticks + `repl\n(.*?)\n` + three backticks. -/
def replRegex : Regex :=
  lits (ascii "```repl\n") ++ [Item.mark, Item.lazyDotStar, Item.mark] ++ lits (ascii "\n```")

/-- Pattern `(?s)FINAL\((.*?)\)`. -/
def finalRegex : Regex :=
  lits (ascii "FINAL(") ++ [Item.mark, Item.lazyDotStar, Item.mark] ++ lits (ascii ")")

/-- Pattern `(?s)FINAL_VAR\((.*?)\)`. -/
def finalVarRegex : Regex :=
  lits (ascii "FINAL_VAR(") ++ [Item.mark, Item.lazyDotStar, Item.mark] ++ lits (ascii ")")

/-! ## `strings.TrimSpace` -/

/-- Width in bytes of the white-space rune that `s` starts with, 0 when `s`
does not start with one.  White space is `unicode.IsSpace`: the ASCII bytes
tab, line feed, vertical tab, form feed, carriage return and space, and the
UTF-8 encodings of U+0085, U+00A0, U+1680, U+2000..U+200A, U+2028, U+2029,
U+202F, U+205F and U+3000. -/
def leadingSpaceWidth : GoString → Nat
  | [] => 0
  | b0 :: rest =>
    if b0 = 9 ∨ b0 = 10 ∨ b0 = 11 ∨ b0 = 12 ∨ b0 = 13 ∨ b0 = 32 then 1
    else match rest with
      | b1 :: rest1 =>
        if b0 = 0xC2 ∧ (b1 = 0x85 ∨ b1 = 0xA0) then 2
        else match rest1 with
          | b2 :: _ =>
            if b0 = 0xE1 ∧ b1 = 0x9A ∧ b2 = 0x80 then 3
            else if b0 = 0xE2 ∧ b1 = 0x80 ∧
                ((0x80 ≤ b2 ∧ b2 ≤ 0x8A) ∨ b2 = 0xA8 ∨ b2 = 0xA9 ∨ b2 = 0xAF) then 3
            else if b0 = 0xE2 ∧ b1 = 0x81 ∧ b2 = 0x9F then 3
            else if b0 = 0xE3 ∧ b1 = 0x80 ∧ b2 = 0x80 then 3
            else 0
          | [] => 0
      | [] => 0

/-- Width in bytes of the white-space rune that the string ends with, 0
when it does not end with one; the argument is the string reversed. -/
def trailingSpaceWidth : GoString → Nat
  | [] => 0
  | b0 :: rest =>
    if b0 = 9 ∨ b0 = 10 ∨ b0 = 11 ∨ b0 = 12 ∨ b0 = 13 ∨ b0 = 32 then 1
    else match rest with
      | b1 :: rest1 =>
        if b1 = 0xC2 ∧ (b0 = 0x85 ∨ b0 = 0xA0) then 2
        else match rest1 with
          | b2 :: _ =>
            if b2 = 0xE1 ∧ b1 = 0x9A ∧ b0 = 0x80 then 3
            else if b2 = 0xE2 ∧ b1 = 0x80 ∧
                ((0x80 ≤ b0 ∧ b0 ≤ 0x8A) ∨ b0 = 0xA8 ∨ b0 = 0xA9 ∨ b0 = 0xAF) then 3
            else if b2 = 0xE2 ∧ b1 = 0x81 ∧ b0 = 0x9F then 3
            else if b2 = 0xE3 ∧ b1 = 0x80 ∧ b0 = 0x80 then 3
            else 0
          | [] => 0
      | [] => 0

/-- Go `strings.TrimLeftFunc(s, unicode.IsSpace)`; `fuel` bounds the number
of runes removed. -/
def trimLeftSpace : Nat → GoString → GoString
  | 0, s => s
  | fuel + 1, s =>
    if leadingSpaceWidth s = 0 then s else trimLeftSpace fuel (s.drop (leadingSpaceWidth s))

/-- Go `strings.TrimRightFunc(s, unicode.IsSpace)` on the reversed string. -/
def trimRightSpaceRev : Nat → GoString → GoString
  | 0, r => r
  | fuel + 1, r =>
    if trailingSpaceWidth r = 0 then r else trimRightSpaceRev fuel (r.drop (trailingSpaceWidth r))

/-- Go `strings.TrimSpace(s)`: `s` without its leading and trailing white
space. -/
def TrimSpace (s : GoString) : GoString :=
  let l := trimLeftSpace s.length s
  (trimRightSpaceRev l.length l.reverse).reverse

/-! ## `internal/utils/parsing.go` -/

/-- Go `FindCodeBlocks`: group 1 of every match of `replRegex`. -/
def FindCodeBlocks (text : GoString) : List GoString :=
  (FindAllStringSubmatch replRegex text).map (fun m => m.getD 1 [])

/-- Go `FindFinalAnswer`: the trimmed group 1 of the first match of
`finalRegex`, the empty string when there is no match. -/
def FindFinalAnswer (text : GoString) : GoString :=
  match FindStringSubmatch finalRegex text with
  | some ms => if ms.length > 1 then TrimSpace (ms.getD 1 []) else []
  | none => []

/-! ## `internal/types` -/

/-- Go `types.Message`. -/
structure Message where
  Role : GoString
  Content : GoString
  deriving DecidableEq, Repr

/-- Go `types.UsageSummary`. -/
structure UsageSummary where
  TotalCalls : Int
  TotalInputTokens : Int
  TotalOutputTokens : Int
  deriving DecidableEq, Repr

/-- Go `types.RLMChatCompletion`; the wall-clock field `ExecutionTime` is
left out. -/
structure RLMChatCompletion where
  RootModel : GoString
  Prompt : GoString
  Response : GoString
  UsageSummary : UsageSummary
  deriving DecidableEq, Repr

/-- Go `types.REPLResult`; the wall-clock field `ExecutionTime` is left
out. -/
structure REPLResult where
  Stdout : GoString
  Stderr : GoString
  RLMCalls : List RLMChatCompletion
  deriving DecidableEq, Repr

/-! ## `RLM.Completion` of `internal/rlm/rlm.go`

The driver talks to three collaborators: the LLM client (an interface), the
callback handler and the Python sandbox.  Their code is outside the driver;
they are modelled as operations on a world state `ω`, which also carries the
cancellation signal of `ctx`.  Errors are values of a type `ε`, the context
value of the caller is a value of a type `δ`.  Every call the driver makes on
a collaborator is recorded, in order, in a trace.  Logging through `slog` has
no effect on the result and is left out.
-/

/-- The collaborators of the driver and the library functions it uses. -/
structure World (ω ε δ : Type) where
  /-- Go `ctx.Err()`: the cancellation error once the context is cancelled. -/
  ctxErr : ω → Option ε
  /-- Go `handler.Start()`: the address of the listener, or an error. -/
  handlerStart : ω → Except ε GoString × ω
  /-- Go `handler.Stop()`. -/
  handlerStop : ω → ω
  /-- Go `env.NewPythonREPL(ctx, addr)`: an error when the child cannot start. -/
  newPythonREPL : GoString → ω → Option ε × ω
  /-- Go `pythonRepl.Cleanup()`. -/
  cleanup : ω → ω
  /-- Go `pythonRepl.ExecuteCode(ctx, code)`. -/
  executeCode : GoString → ω → REPLResult × ω
  /-- Go `r.client.Completion(ctx, messages)`. -/
  clientCompletion : List Message → ω → Except ε GoString × ω
  /-- Go `r.client.ModelName()`. -/
  modelName : ω → GoString
  /-- Go `r.client.GetUsageSummary()`. -/
  getUsageSummary : ω → UsageSummary
  /-- Go `json.Marshal` of the caller's context value. -/
  jsonMarshal : δ → Except ε GoString
  /-- Go `json.Marshal` of a string (the prompt). -/
  jsonMarshalString : GoString → Except ε GoString
  /-- Go verb `%q` of `fmt.Sprintf` on a string. -/
  quote : GoString → GoString
  /-- Go verb `%T` of `fmt.Sprintf` on the caller's context value. -/
  typeName : δ → GoString
  /-- Go `fmt.Sprintf(template, contextType, contextLen)` on the system
  prompt template. -/
  formatSystemPrompt : GoString → GoString → Nat → GoString

/-- One call of the driver on a collaborator, with what it returned. -/
inductive Event (ε : Type) where
  | handlerStart
  | handlerStop
  | newPythonREPL (addr : GoString)
  | cleanup
  | executeCode (code : GoString) (res : REPLResult)
  | clientCompletion (messages : List Message) (reply : Except ε GoString)
  | modelName (name : GoString)
  | getUsageSummary (usage : UsageSummary)
  /-- Go `observability.RlmErrors.Inc()`. -/
  | errorsInc
  /-- Go `observability.RlmIterations.Observe(n)`. -/
  | observeIterations (n : Int)
  /-- Go `observability.RlmDuration.Observe(...)`, the first deferred call. -/
  | observeDuration

/-- Go `RLM`: the client is part of the world; `maxIterations` is an `int`. -/
structure RLM where
  maxIterations : Int
  systemPrompt : GoString

/-- What `Completion` returns, `(nil, err)` or `(&result, nil)`, with the
world it leaves and the trace of its calls. -/
structure Outcome (ω ε : Type) where
  result : Except ε RLMChatCompletion
  world : ω
  trace : List (Event ε)

/-- The text fed back for `res.Stdout`: cut to its first 2000 bytes, with a
marker, when it is longer. -/
def feedbackStdout (stdout : GoString) : GoString :=
  if stdout.length > 2000 then slice stdout 0 2000 ++ ascii "\n...[Output Truncated]..."
  else stdout

/-- The text fed back for `res.Stderr`. -/
def feedbackStderr (stderr : GoString) : GoString :=
  if stderr.length > 2000 then slice stderr 0 2000 ++ ascii "\n...[Error Truncated]..."
  else stderr

/-- The feedback string `fmt.Sprintf("REPL Output:\nStdout: %s\nStderr: %s", stdout, stderr)`
of one executed block. -/
def feedback (res : REPLResult) : GoString :=
  ascii "REPL Output:\nStdout: " ++ feedbackStdout res.Stdout ++ ascii "\nStderr: "
    ++ feedbackStderr res.Stderr

/-- The inner loop `for _, code := range codeBlocks`: execute each block and
append its feedback as a `user` message.  Returns the messages, the world
and the calls made. -/
def execBlocks {ω ε δ : Type} (W : World ω ε δ) :
    List GoString → ω → List Message → List Message × ω × List (Event ε)
  | [], w, messages => (messages, w, [])
  | code :: rest, w, messages =>
    let r := W.executeCode code w
    let next := execBlocks W rest r.2 (messages ++ [⟨ascii "user", feedback r.1⟩])
    (next.1, next.2.1, Event.executeCode code r.1 :: next.2.2)

/-- The result built on a final answer and on budget exhaustion. -/
def completionResult {ω ε δ : Type} (W : World ω ε δ) (prompt response : GoString) (w : ω) :
    RLMChatCompletion :=
  { RootModel := W.modelName w, Prompt := prompt, Response := response,
    UsageSummary := W.getUsageSummary w }

/-- The main loop `for i := 0; i < r.maxIterations; i++`, from iteration `i`
with `fuel` iterations left, up to the `return` that ends it. -/
def mainLoop {ω ε δ : Type} (W : World ω ε δ) (r : RLM) (prompt : GoString) :
    Nat → Nat → ω → List Message → Outcome ω ε
  | 0, _, w, _ =>
    { result := .ok (completionResult W prompt
        (ascii "Maximum iterations reached without final answer.") w)
      world := w
      trace := [Event.observeIterations r.maxIterations, Event.modelName (W.modelName w),
        Event.getUsageSummary (W.getUsageSummary w)] }
  | fuel + 1, i, w, messages =>
    match W.ctxErr w with
    | some err => { result := .error err, world := w, trace := [] }
    | none =>
      match W.clientCompletion messages w with
      | (.error err, w1) =>
        { result := .error err, world := w1
          trace := [Event.clientCompletion messages (.error err), Event.errorsInc] }
      | (.ok resp, w1) =>
        let codeBlocks := FindCodeBlocks resp
        let ran := execBlocks W codeBlocks w1 (messages ++ [⟨ascii "assistant", resp⟩])
        let final := FindFinalAnswer resp
        if final ≠ [] then
          { result := .ok (completionResult W prompt final ran.2.1)
            world := ran.2.1
            trace := Event.clientCompletion messages (.ok resp) :: ran.2.2 ++
              [Event.observeIterations ((i : Int) + 1), Event.modelName (W.modelName ran.2.1),
                Event.getUsageSummary (W.getUsageSummary ran.2.1)] }
        else
          let messages' :=
            if codeBlocks.length = 0 then
              ran.1 ++ [⟨ascii "user", ascii "Please continue or provide a FINAL(answer)."⟩]
            else ran.1
          let next := mainLoop W r prompt fuel (i + 1) ran.2.1 messages'
          { next with trace := Event.clientCompletion messages (.ok resp) :: ran.2.2 ++ next.trace }

/-- Go `json.Marshal(targetData)`, where `targetData` is the caller's context
value, or the prompt when the caller gave none. -/
def marshalTarget {ω ε δ : Type} (W : World ω ε δ) (prompt : GoString)
    (contextData : Option δ) : Except ε GoString :=
  match contextData with
  | none => W.jsonMarshalString prompt
  | some d => W.jsonMarshal d

/-- Go `(*RLM).Completion(ctx, prompt, contextData)`, started in world `w0`;
`contextData = none` is Go's nil.  The deferred calls run on every return
after their `defer` statement, last deferred first. -/
def Completion {ω ε δ : Type} (W : World ω ε δ) (r : RLM) (prompt : GoString)
    (contextData : Option δ) (w0 : ω) : Outcome ω ε :=
  match W.handlerStart w0 with
  | (.error err, w1) =>
    { result := .error err, world := w1
      trace := [Event.handlerStart, Event.errorsInc, Event.observeDuration] }
  | (.ok addr, w1) =>
    match W.newPythonREPL addr w1 with
    | (some err, w2) =>
      { result := .error err, world := W.handlerStop w2
        trace := [Event.handlerStart, Event.newPythonREPL addr, Event.errorsInc,
          Event.handlerStop, Event.observeDuration] }
    | (none, w2) =>
      match marshalTarget W prompt contextData with
      | .error err =>
        { result := .error err, world := W.handlerStop (W.cleanup w2)
          trace := [Event.handlerStart, Event.newPythonREPL addr, Event.cleanup,
            Event.handlerStop, Event.observeDuration] }
      | .ok jsonStr =>
        let initCode := ascii "import json; context = json.loads(" ++ W.quote jsonStr ++ ascii ")"
        let init := W.executeCode initCode w2
        let contextType :=
          match contextData with
          | none => ascii "String"
          | some d => W.typeName d
        let contextLen := jsonStr.length
        let formattedSystemPrompt := W.formatSystemPrompt r.systemPrompt contextType contextLen
        let messages : List Message :=
          [⟨ascii "system", formattedSystemPrompt⟩, ⟨ascii "user", ascii "Query: " ++ prompt⟩]
        let run := mainLoop W r prompt r.maxIterations.toNat 0 init.2 messages
        { result := run.result, world := W.handlerStop (W.cleanup run.world)
          trace := [Event.handlerStart, Event.newPythonREPL addr,
            Event.executeCode initCode init.1] ++ run.trace ++
            [Event.cleanup, Event.handlerStop, Event.observeDuration] }

/-- The message lists of the LLM invocations of a trace, in order. -/
def llmCalls {ε : Type} : List (Event ε) → List (List Message)
  | [] => []
  | Event.clientCompletion messages _ :: rest => messages :: llmCalls rest
  | _ :: rest => llmCalls rest

/-- The replies of the successful LLM invocations of a trace, in order. -/
def llmReplies {ε : Type} : List (Event ε) → List GoString
  | [] => []
  | Event.clientCompletion _ (.ok resp) :: rest => resp :: llmReplies rest
  | _ :: rest => llmReplies rest

/-- The code strings executed in the sandbox in a trace, in order. -/
def executed {ε : Type} : List (Event ε) → List GoString
  | [] => []
  | Event.executeCode code _ :: rest => code :: executed rest
  | _ :: rest => executed rest

/-! ## Auxiliary notions used in the statements -/

/-- Go `strings.Index(s, r)`: the offset of the first occurrence of `r` in
`s`, `none` when there is none. -/
def index (r : GoString) : GoString → Option Nat
  | [] => if r = [] then some 0 else none
  | b :: s => if r <+: b :: s then some 0 else (index r s).map (· + 1)

/-- The pattern `l(.*?)r` with `(?s)`, for literal strings `l` and `r`. -/
def fence (l r : GoString) : Regex :=
  lits l ++ [Item.mark, Item.lazyDotStar, Item.mark] ++ lits r

/-- Length of the body of the block that starts at the head of `s`: `s`
starts with `l`, and the body runs up to the first `r` after it. -/
def blockAt (l r : GoString) (s : GoString) : Option Nat :=
  if l <+: s then index r (s.drop l.length) else none

/-- Offset and body length of the leftmost block of `s`. -/
def firstBlock (l r : GoString) : GoString → Option (Nat × Nat)
  | [] => (blockAt l r []).map (fun k => (0, k))
  | b :: s =>
    match blockAt l r (b :: s) with
    | some k => some (0, k)
    | none => (firstBlock l r s).map (fun ik => (ik.1 + 1, ik.2))

/-- The match of `fence l r` whose block is at offset `i` from position
`pos` and has a body of length `k`. -/
def blockMatch (l r : GoString) (pos i k : Nat) : Match :=
  ⟨pos + i, [pos + i + l.length, pos + i + l.length + k], pos + i + l.length + k + r.length⟩

/-- The successive blocks of `fence l r` in `s`, the text from position `pos`
on: each block is the leftmost one of what is left after the previous block;
with each match comes the body of its block. -/
inductive Blocks (l r : GoString) : Nat → GoString → List (Match × GoString) → Prop where
  | done {pos : Nat} {s : GoString} (h : firstBlock l r s = none) : Blocks l r pos s []
  | step {pos : Nat} {s : GoString} {i k : Nat} {rest : List (Match × GoString)}
      (h : firstBlock l r s = some (i, k))
      (hrest : Blocks l r (blockMatch l r pos i k).stop
        (s.drop (i + l.length + k + r.length)) rest) :
      Blocks l r pos s
        ((blockMatch l r pos i k, slice s (i + l.length) (i + l.length + k)) :: rest)

/-- The byte of the backtick character. -/
def backtick : Nat := 96

/-- The text `p1 ++ open ++ b1 ++ close ++ ... ++ pn ++ open ++ bn ++ close ++ t`
for the separators and bodies `(p1, b1), ..., (pn, bn)`, where `open` is three
backticks, `repl` and a line feed, and `close` is a line feed and three
backticks. -/
def fenced : List (GoString × GoString) → GoString → GoString
  | [], t => t
  | (p, b) :: rest, t => p ++ ascii "```repl\n" ++ b ++ ascii "\n```" ++ fenced rest t

/-- A fence spans the split point of `A ++ B`: an occurrence of the opening
fence or of the closing fence in `A ++ B` starts before the end of `A` and
ends after it. -/
def FenceSpansSplit (A B : GoString) : Prop :=
  ∃ i, i < A.length ∧
    ((ascii "```repl\n" <+: (A ++ B).drop i ∧ A.length < i + (ascii "```repl\n").length) ∨
      (ascii "\n```" <+: (A ++ B).drop i ∧ A.length < i + (ascii "\n```").length))

instance (A B : GoString) : Decidable (FenceSpansSplit A B) := by
  unfold FenceSpansSplit
  infer_instance

/-- The marker `FINAL(` first occurs in `text` at index `i`, and the first
`)` at or after index `i + 6` is at index `j`. -/
def FinalSpan (text : GoString) (i j : Nat) : Prop :=
  ascii "FINAL(" <+: text.drop i ∧ (∀ i', i' < i → ¬ ascii "FINAL(" <+: text.drop i') ∧
    i + 6 ≤ j ∧ text[j]? = some (Char.toNat ')') ∧
    ∀ j', i + 6 ≤ j' → j' < j → text[j']? ≠ some (Char.toNat ')')

/-- Setup of `Completion` succeeds from world `w0`: the handler starts, the
sandbox starts and the context value serializes. -/
def SetupSucceeds {ω ε δ : Type} (W : World ω ε δ) (prompt : GoString)
    (contextData : Option δ) (w0 : ω) : Prop :=
  ∃ (addr : GoString) (w1 w2 : ω) (jsonStr : GoString), W.handlerStart w0 = (.ok addr, w1) ∧
    W.newPythonREPL addr w1 = (none, w2) ∧ marshalTarget W prompt contextData = .ok jsonStr

/-- A world for the test cases of `rlm_test.go`.  The client is `MockClient`:
the world state is its `callCount`, it replies with `responses[callCount]`
and, once they are used up, with `FINAL(Mocked Limit Reached)`.  The handler
and the sandbox always start, the sandbox prints nothing, and the formatting
functions are left as the identity: the driver loop does not look at what
they return. -/
def mockWorld (responses : List GoString) : World Nat GoString Unit where
  ctxErr := fun _ => none
  handlerStart := fun w => (.ok (ascii "127.0.0.1:0"), w)
  handlerStop := fun w => w
  newPythonREPL := fun _ w => (none, w)
  cleanup := fun w => w
  executeCode := fun _ w => (⟨[], [], []⟩, w)
  clientCompletion := fun _ w =>
    if w ≥ responses.length then (.ok (ascii "FINAL(Mocked Limit Reached)"), w)
    else (.ok (responses.getD w []), w + 1)
  modelName := fun _ => ascii "mock-model"
  getUsageSummary := fun _ => ⟨0, 0, 0⟩
  jsonMarshal := fun _ => .ok (ascii "null")
  jsonMarshalString := fun s => .ok s
  quote := fun s => s
  typeName := fun _ => ascii "struct {}"
  formatSystemPrompt := fun template _ _ => template

/-- A valid conversation for `prompt`: one leading `system` message, then the
`user` message `Query: ` + prompt, no other `system` message, no two
consecutive `assistant` messages, and a `user` message at the end. -/
def ValidConversation (prompt : GoString) (msgs : List Message) : Prop :=
  ∃ sys rest,
    msgs = ⟨ascii "system", sys⟩ :: ⟨ascii "user", ascii "Query: " ++ prompt⟩ :: rest ∧
    (∀ m ∈ rest, m.Role ≠ ascii "system") ∧
    List.Chain' (fun a b => ¬ (a.Role = ascii "assistant" ∧ b.Role = ascii "assistant")) msgs ∧
    msgs.getLast?.map Message.Role = some (ascii "user")

/-- A reply with one code block and a final answer. -/
def testBlockAndFinal : List GoString :=
  [ascii "```repl\nx = 1\n```\nFINAL(done)"]

/-- The replies of the test case `One iteration with REPL`. -/
def testReplies : List GoString :=
  [ascii "```repl\nprint('hello')\n```", ascii "FINAL(hello)"]

/-- The replies of the test case `Max iterations reached`. -/
def testThinking : List GoString :=
  [ascii "Thinking...", ascii "Thinking...", ascii "Thinking..."]

/-! ## Notions for the exit paths of `Completion` -/

/-- The event releases a resource: `pythonRepl.Cleanup()` or `handler.Stop()`. -/
def Event.isRelease {ε : Type} : Event ε → Bool
  | Event.cleanup => true
  | Event.handlerStop => true
  | _ => false

/-- The event is an increment of the error counter. -/
def Event.isErrorsInc {ε : Type} : Event ε → Bool
  | Event.errorsInc => true
  | _ => false

/-- The initialization snippet
`fmt.Sprintf("import json; context = json.loads(%q)", jsonStr)` of `Completion`. -/
def initCode {ω ε δ : Type} (W : World ω ε δ) (jsonStr : GoString) : GoString :=
  ascii "import json; context = json.loads(" ++ W.quote jsonStr ++ ascii ")"

/-- The two initial messages of `Completion`: the formatted system prompt and
the query. -/
def initialMessages {ω ε δ : Type} (W : World ω ε δ) (r : RLM) (prompt : GoString)
    (contextData : Option δ) (jsonStr : GoString) : List Message :=
  [⟨ascii "system", W.formatSystemPrompt r.systemPrompt
      (match contextData with
        | none => ascii "String"
        | some d => W.typeName d) jsonStr.length⟩,
    ⟨ascii "user", ascii "Query: " ++ prompt⟩]

/-- The loop of `Completion` at the beginning of an iteration: the number of
iterations left, the index `i`, the world and the messages. -/
structure LoopState (ω : Type) where
  fuel : Nat
  i : Nat
  world : ω
  messages : List Message

/-- `Iterates W s tr t`: from the beginning of an iteration in state `s`, whole
iterations, none of which returns (no cancellation, no client error, no final
answer), lead to the beginning of an iteration in state `t`; `tr` is the calls
they make. -/
inductive Iterates {ω ε δ : Type} (W : World ω ε δ) :
    LoopState ω → List (Event ε) → LoopState ω → Prop where
  | refl (s : LoopState ω) : Iterates W s [] s
  | step {fuel i : Nat} {w w1 : ω} {messages : List Message} {resp : GoString}
      {tr : List (Event ε)} {t : LoopState ω}
      (hctx : W.ctxErr w = none)
      (hllm : W.clientCompletion messages w = (.ok resp, w1))
      (hfinal : FindFinalAnswer resp = [])
      (hrest : Iterates W
        ⟨fuel, i + 1,
          (execBlocks W (FindCodeBlocks resp) w1 (messages ++ [⟨ascii "assistant", resp⟩])).2.1,
          if (FindCodeBlocks resp).length = 0 then
            (execBlocks W (FindCodeBlocks resp) w1 (messages ++ [⟨ascii "assistant", resp⟩])).1 ++
              [⟨ascii "user", ascii "Please continue or provide a FINAL(answer)."⟩]
          else
            (execBlocks W (FindCodeBlocks resp) w1
              (messages ++ [⟨ascii "assistant", resp⟩])).1⟩ tr t) :
      Iterates W ⟨fuel + 1, i, w, messages⟩
        (Event.clientCompletion messages (.ok resp) ::
          ((execBlocks W (FindCodeBlocks resp) w1
            (messages ++ [⟨ascii "assistant", resp⟩])).2.2 ++ tr)) t

/-- The world of `mockWorld` on a host without `python3`: the sandbox does not
start (the case that `rlm_test.go` skips). -/
def mockWorldNoPython (responses : List GoString) : World Nat GoString Unit :=
  { mockWorld responses with
    newPythonREPL := fun _ w => (some (ascii "executable file not found"), w) }

/-- The world of `mockWorld` with a client that fails with `err` once its
responses are used up. -/
def mockWorldError (responses : List GoString) (err : GoString) : World Nat GoString Unit :=
  { mockWorld responses with
    clientCompletion := fun _ w =>
      if w ≥ responses.length then (.error err, w)
      else (.ok (responses.getD w []), w + 1) }

/-- The world of `mockWorld` with a context that is cancelled during the
first LLM invocation. -/
def mockWorldCancelled (responses : List GoString) : World Nat GoString Unit :=
  { mockWorld responses with
    ctxErr := fun w => if w ≥ 1 then some (ascii "context canceled") else none }

/-! ## The sandbox: `pkg/env/repl.go`

The child process, its pipes and the temporary directory are objects of the
operating system; the model keeps of them what `ExecuteCode`,
`AddPendingCall` and `Cleanup` depend on.  What the host reads from the child
is an input of the model. -/

/-- State of a pipe end such as the child's stdin: open, or closed by
`Close`. -/
inductive PipeState where
  | opened
  | closed
  deriving DecidableEq, Repr

/-- State of a started child process: running, or killed by `Kill` (it is
never waited for). -/
inductive ProcessState where
  | running
  | killed
  deriving DecidableEq, Repr

/-- Go `*exec.Cmd`: its `Process` field is nil until `Start` succeeds. -/
structure Cmd where
  Process : Option ProcessState
  deriving DecidableEq, Repr

/-- Go `PythonREPL`; a nil pointer or interface is `none`.  The reader
`stdout` is only read from, it is kept as present or nil; the mutex guards
`pendingCalls` and makes the steps below atomic. -/
structure PythonREPL where
  cmd : Option Cmd
  stdin : Option PipeState
  stdout : Bool
  handlerAddr : GoString
  pendingCalls : List RLMChatCompletion
  tempDir : GoString
  deriving DecidableEq, Repr

/-- The zero value `&PythonREPL{}`. -/
def PythonREPL.zero : PythonREPL :=
  { cmd := none, stdin := none, stdout := false, handlerAddr := [], pendingCalls := [],
    tempDir := [] }

/-- Go `replResponse`: one frame written by the child. -/
structure replResponse where
  Stdout : GoString
  Stderr : GoString
  Error : GoString
  Done : Bool
  deriving DecidableEq, Repr

/-- The first critical section of `ExecuteCode`: `r.pendingCalls = nil`. -/
def PythonREPL.executeStart (r : PythonREPL) : PythonREPL :=
  { r with pendingCalls := [] }

/-- Go `(*PythonREPL).AddPendingCall(call)`. -/
def PythonREPL.AddPendingCall (r : PythonREPL) (call : RLMChatCompletion) : PythonREPL :=
  { r with pendingCalls := r.pendingCalls ++ [call] }

/-- The end of `ExecuteCode`, from the return of `r.stdout.ReadString` on:
`read` is the line read, or the text of the read error; `decode` is
`json.Unmarshal` into a `replResponse`, with the text of its error. -/
def PythonREPL.executeFinish (decode : GoString → Except GoString replResponse)
    (r : PythonREPL) (read : Except GoString GoString) : REPLResult :=
  match read with
  | .error err => { Stdout := [], Stderr := ascii "Failed to read from REPL: " ++ err, RLMCalls := [] }
  | .ok line =>
    match decode line with
    | .error err =>
      { Stdout := [], Stderr := ascii "Failed to parse REPL response: " ++ err, RLMCalls := [] }
    | .ok resp =>
      { Stdout := resp.Stdout, Stderr := resp.Stderr ++ resp.Error, RLMCalls := r.pendingCalls }

/-- Go `(*PythonREPL).ExecuteCode(ctx, code)` when no `AddPendingCall` runs
meanwhile: the result and the sandbox after it; `none` is the panic of a call
through the nil `stdin` or `stdout` of a sandbox that was not started.  The
request written to the child depends on `code`; what the child answers is
`read`. -/
def PythonREPL.ExecuteCode (decode : GoString → Except GoString replResponse)
    (r : PythonREPL) (_code : GoString) (read : Except GoString GoString) :
    Option (REPLResult × PythonREPL) :=
  match r.stdin, r.stdout with
  | some _, true => some (r.executeStart.executeFinish decode read, r.executeStart)
  | _, _ => none

/-- One atomic step on the sandbox: the start of an `ExecuteCode`, an
`AddPendingCall` from the handler, or the end of the `ExecuteCode` with what
was read from the child. -/
inductive SandboxStep where
  | start
  | add (call : RLMChatCompletion)
  | finish (read : Except GoString GoString)

/-- Run a sequence of steps; returns the sandbox and the results of the
`ExecuteCode` calls that ended, in order. -/
def sandboxRun (decode : GoString → Except GoString replResponse) :
    PythonREPL → List SandboxStep → PythonREPL × List REPLResult
  | r, [] => (r, [])
  | r, SandboxStep.start :: steps => sandboxRun decode r.executeStart steps
  | r, SandboxStep.add call :: steps => sandboxRun decode (r.AddPendingCall call) steps
  | r, SandboxStep.finish read :: steps =>
    let rest := sandboxRun decode r steps
    (rest.1, r.executeFinish decode read :: rest.2)

/-- The directories of the host that exist, by path. -/
abbrev Host := List GoString

/-- Go `os.RemoveAll(path)`: removes `path` and what is under it; the empty
path and a path that does not exist are left alone without error. -/
def removeAll (path : GoString) (host : Host) : Host :=
  if path = [] then host
  else host.filter (fun p => ¬ (p = path ∨ (path ++ ascii "/") <+: p))

/-- Go `(*PythonREPL).Cleanup()`: the sandbox and the host after it; `none` is
the nil-pointer panic of `r.cmd.Process.Kill()` on a command that was never
started.  Closing a closed pipe and killing a killed process return an error,
which `Cleanup` drops. -/
def PythonREPL.Cleanup (r : PythonREPL) (host : Host) : Option (PythonREPL × Host) :=
  let stdin' := match r.stdin with
    | some _ => some PipeState.closed
    | none => none
  match r.cmd with
  | some ⟨none⟩ => none
  | some ⟨some _⟩ =>
    some ({ r with stdin := stdin', cmd := some ⟨some ProcessState.killed⟩ },
      removeAll r.tempDir host)
  | none => some ({ r with stdin := stdin' }, removeAll r.tempDir host)

/-- A frame decoder for the examples: the line `ok` decodes to the frame
with stdout `hello`, any other line is an error. -/
def testDecode (line : GoString) : Except GoString replResponse :=
  if line = ascii "ok\n" then .ok ⟨ascii "hello\n", [], [], true⟩
  else .error (ascii "invalid character")

/-- A started sandbox for the examples. -/
def testRepl : PythonREPL :=
  { cmd := some ⟨some ProcessState.running⟩, stdin := some PipeState.opened, stdout := true,
    handlerAddr := ascii "127.0.0.1:0", pendingCalls := [],
    tempDir := ascii "/tmp/rlm-repl-1" }

/-- A sub-call record for the examples. -/
def testCall (prompt : GoString) : RLMChatCompletion :=
  { RootModel := ascii "mock-model", Prompt := prompt, Response := ascii "r",
    UsageSummary := ⟨0, 0, 0⟩ }

/-! ## The callback handler: `pkg/rlm/handler.go`

The handler holds the LLM client (of the world `W`) and a recorder `repl` with
the method `AddPendingCall`; the recorder is a state of a type `ρ` with the
function `record`.  Every call of the handler on the client and on the
recorder is recorded in a trace. -/

/-- One call of the handler on a collaborator, with what it returned. -/
inductive HandlerEvent (ε : Type) where
  | clientCompletion (messages : List Message) (reply : Except ε GoString)
  | modelName (name : GoString)
  | addPendingCall (call : RLMChatCompletion)

/-- Go `queryRequest`. -/
structure queryRequest where
  Prompt : GoString
  Model : Option GoString

/-- Go `batchedQueryRequest`. -/
structure batchedQueryRequest where
  Prompts : List GoString
  Model : Option GoString

/-- What the handler writes to the `http.ResponseWriter`: `http.Error` with a
status code and a text body, or the JSON encoding of a `queryResponse` or of a
`batchedQueryResponse` with status 200. -/
inductive HttpReply where
  | error (status : Nat) (body : GoString)
  | queryResponse (Response : GoString)
  | batchedQueryResponse (Responses : List GoString)
  deriving DecidableEq, Repr

/-- Go `http.StatusBadRequest`. -/
def StatusBadRequest : Nat := 400

/-- Go `http.StatusInternalServerError`. -/
def StatusInternalServerError : Nat := 500

/-- Go `http.Error(w, text, code)`: the body is the text and a line feed. -/
def httpError (text : GoString) (code : Nat) : HttpReply :=
  HttpReply.error code (text ++ ascii "\n")

/-- What a handler call leaves: the reply, the world, the recorder and the
trace of its calls. -/
structure Handled (ω ε ρ : Type) where
  reply : HttpReply
  world : ω
  repl : ρ
  trace : List (HandlerEvent ε)

/-- Go `replProxy.AddPendingCall` of `pkg/rlm/rlm.go`: forwards to the sandbox
once it is set. -/
def replProxy.AddPendingCall (call : RLMChatCompletion) (p : Option PythonREPL) :
    Option PythonREPL :=
  match p with
  | some r => some (r.AddPendingCall call)
  | none => none

/-- The `messages` of a sub-call: one `user` message with the prompt. -/
def userMessage (prompt : GoString) : List Message := [⟨ascii "user", prompt⟩]

/-- The `RLMChatCompletion` literal of the handler; the field `UsageSummary`
is not set. -/
def subCall (RootModel Prompt Response : GoString) : RLMChatCompletion :=
  { RootModel := RootModel, Prompt := Prompt, Response := Response, UsageSummary := ⟨0, 0, 0⟩ }

/-- Go `(*LMHandler).handleQuery`; `decoded` is the request body decoded by
`json.NewDecoder(r.Body).Decode(&req)`, or the text of the decoding error;
`errText` is `err.Error()`. -/
def handleQuery {ω ε δ ρ : Type} (W : World ω ε δ) (errText : ε → GoString)
    (record : RLMChatCompletion → ρ → ρ) (decoded : Except GoString queryRequest)
    (w : ω) (repl : ρ) : Handled ω ε ρ :=
  match decoded with
  | .error err => { reply := httpError err StatusBadRequest, world := w, repl := repl, trace := [] }
  | .ok req =>
    match W.clientCompletion (userMessage req.Prompt) w with
    | (.error err, w1) =>
      { reply := httpError (errText err) StatusInternalServerError, world := w1, repl := repl
        trace := [HandlerEvent.clientCompletion (userMessage req.Prompt) (.error err)] }
    | (.ok resp, w1) =>
      { reply := HttpReply.queryResponse resp, world := w1
        repl := record (subCall (W.modelName w1) req.Prompt resp) repl
        trace := [HandlerEvent.clientCompletion (userMessage req.Prompt) (.ok resp),
          HandlerEvent.modelName (W.modelName w1),
          HandlerEvent.addPendingCall (subCall (W.modelName w1) req.Prompt resp)] }

/-- One step of the goroutines of `handleQueryBatched`: goroutine `i` calls
the client, or goroutine `i`, back from the client, stores and records its
reply. -/
inductive BatchStep where
  | call (i : Nat)
  | store (i : Nat)
  deriving DecidableEq, Repr

/-- The state shared by the goroutines of `handleQueryBatched`: `replies[i]`
is the pair `resp, err` of goroutine `i` once its client call has returned,
`responses` is the slice of that name. -/
structure BatchState (ω ε ρ : Type) where
  world : ω
  repl : ρ
  replies : List (Option (Except ε GoString))
  responses : List GoString
  trace : List (HandlerEvent ε)

/-- One step of a goroutine of `handleQueryBatched`. -/
def batchStep {ω ε δ ρ : Type} (W : World ω ε δ) (record : RLMChatCompletion → ρ → ρ)
    (prompts : List GoString) (st : BatchState ω ε ρ) : BatchStep → BatchState ω ε ρ
  | BatchStep.call i =>
    match prompts[i]? with
    | none => st
    | some p =>
      { st with
        world := (W.clientCompletion (userMessage p) st.world).2
        replies := st.replies.set i (some (W.clientCompletion (userMessage p) st.world).1)
        trace := st.trace ++
          [HandlerEvent.clientCompletion (userMessage p)
            (W.clientCompletion (userMessage p) st.world).1] }
  | BatchStep.store i =>
    match prompts[i]?, st.replies.getD i none with
    | some p, some (.ok resp) =>
      { st with
        responses := st.responses.set i resp
        repl := record (subCall (W.modelName st.world) p resp) st.repl
        trace := st.trace ++ [HandlerEvent.modelName (W.modelName st.world),
          HandlerEvent.addPendingCall (subCall (W.modelName st.world) p resp)] }
    | _, _ => st

/-- Go `(*LMHandler).handleQueryBatched`; `schedule` is the order in which the
steps of the goroutines run, up to `wg.Wait()`. -/
def handleQueryBatched {ω ε δ ρ : Type} (W : World ω ε δ)
    (record : RLMChatCompletion → ρ → ρ) (decoded : Except GoString batchedQueryRequest)
    (schedule : List BatchStep) (w : ω) (repl : ρ) : Handled ω ε ρ :=
  match decoded with
  | .error err => { reply := httpError err StatusBadRequest, world := w, repl := repl, trace := [] }
  | .ok req =>
    let final := schedule.foldl (batchStep W record req.Prompts)
      { world := w, repl := repl, replies := List.replicate req.Prompts.length none,
        responses := List.replicate req.Prompts.length [], trace := [] }
    { reply := HttpReply.batchedQueryResponse final.responses, world := final.world
      repl := final.repl, trace := final.trace }

/-- A schedule of the goroutines of a batch of `n` prompts that `wg.Wait()`
has seen through: every goroutine has called the client once and then, once,
stored its reply. -/
def CompleteSchedule (n : Nat) (schedule : List BatchStep) : Prop :=
  ∀ i, i < n → ∃ a b c, schedule = a ++ BatchStep.call i :: (b ++ BatchStep.store i :: c) ∧
    BatchStep.call i ∉ a ++ b ++ c ∧ BatchStep.store i ∉ a ++ b ++ c

/-- The slot of a reply in `responses`: the text when the invocation
succeeded, the empty string when it failed. -/
def slotOf {ε : Type} : Except ε GoString → GoString
  | .ok resp => resp
  | .error _ => []

/-! ## The verb `%q` of `fmt.Sprintf`: `strconv.Quote`

`fmt.Sprintf("...%q...", s)` on a string writes `strconv.AppendQuote(buf, s)`,
that is `appendQuotedWith(buf, s, '"', false, false)`.  Runes are natural
numbers here; the shifts and masks of the library are written with `/` and
`%`.  The tables of `strconv.IsPrint` above U+00FF are a parameter.
-/

/-- Go `utf8.RuneSelf`. -/
def RuneSelf : Nat := 0x80

/-- Go `utf8.RuneError`, U+FFFD. -/
def RuneError : Nat := 0xFFFD

/-- Go `utf8.MaxRune`. -/
def MaxRune : Nat := 0x10FFFF

/-- Go `utf8.ValidRune(r)`: in range and not a surrogate half. -/
def ValidRune (r : Nat) : Bool :=
  decide (r < 0xD800) || (decide (0xDFFF < r) && decide (r ≤ MaxRune))

/-- Go `utf8.AppendRune(nil, r)`: the UTF-8 encoding of `r`, of U+FFFD when
`r` is out of range or a surrogate half. -/
def AppendRune (r : Nat) : GoString :=
  if r ≤ 0x7F then [r]
  else if r ≤ 0x7FF then [0xC0 + r / 64, 0x80 + r % 64]
  else if MaxRune < r ∨ (0xD800 ≤ r ∧ r ≤ 0xDFFF) then [0xEF, 0xBF, 0xBD]
  else if r ≤ 0xFFFF then [0xE0 + r / 4096, 0x80 + r / 64 % 64, 0x80 + r % 64]
  else [0xF0 + r / 262144, 0x80 + r / 4096 % 64, 0x80 + r / 64 % 64, 0x80 + r % 64]

/-- Go `utf8.DecodeRuneInString(s)`: the first rune of `s` and its width in
bytes, `(RuneError, 1)` on an encoding that is not valid.  The table `first`
and the accept ranges of the library are written out as comparisons. -/
def DecodeRuneInString (s : GoString) : Nat × Nat :=
  match s with
  | [] => (RuneError, 0)
  | s0 :: _ =>
    if s0 < 0x80 then (s0, 1)
    else if s0 < 0xC2 ∨ 0xF4 < s0 then (RuneError, 1)
    else
      let sz := if s0 < 0xE0 then 2 else if s0 < 0xF0 then 3 else 4
      let lo := if s0 = 0xE0 then 0xA0 else if s0 = 0xF0 then 0x90 else 0x80
      let hi := if s0 = 0xED then 0x9F else if s0 = 0xF4 then 0x8F else 0xBF
      if s.length < sz then (RuneError, 1) else
      let s1 := s.getD 1 0
      if s1 < lo ∨ hi < s1 then (RuneError, 1) else
      if sz ≤ 2 then (s0 % 32 * 64 + s1 % 64, 2) else
      let s2 := s.getD 2 0
      if s2 < 0x80 ∨ 0xBF < s2 then (RuneError, 1) else
      if sz ≤ 3 then (s0 % 16 * 4096 + s1 % 64 * 64 + s2 % 64, 3) else
      let s3 := s.getD 3 0
      if s3 < 0x80 ∨ 0xBF < s3 then (RuneError, 1) else
      (s0 % 8 * 262144 + s1 % 64 * 4096 + s2 % 64 * 64 + s3 % 64, 4)

/-- Go `strconv.IsPrint(r)`: decided by comparisons up to U+00FF, by the
tables of the library above. -/
def IsPrint (table : Nat → Bool) (r : Nat) : Bool :=
  if r ≤ 0xFF then
    if 0x20 ≤ r ∧ r ≤ 0x7E then true
    else if 0xA1 ≤ r ∧ r ≤ 0xFF then decide (r ≠ 0xAD)
    else false
  else table r

/-- Go `lowerhex[d]`, the digit `d` of `"0123456789abcdef"`. -/
def lowerhex (d : Nat) : Nat := if d < 10 then 48 + d else 87 + d

/-- Go `appendEscapedRune(buf, r, '"', false, false)`: what one rune adds to
the quoted string. -/
def appendEscapedRune (table : Nat → Bool) (r : Nat) : GoString :=
  if r = 0x22 ∨ r = 0x5C then [0x5C, r]
  else if IsPrint table r then AppendRune r
  else if r = 7 then ascii "\\a"
  else if r = 8 then ascii "\\b"
  else if r = 12 then ascii "\\f"
  else if r = 10 then ascii "\\n"
  else if r = 13 then ascii "\\r"
  else if r = 9 then ascii "\\t"
  else if r = 11 then ascii "\\v"
  else if r < 0x20 ∨ r = 0x7F then ascii "\\x" ++ [lowerhex (r / 16), lowerhex (r % 16)]
  else if ValidRune r = false then ascii "\\ufffd"
  else if r < 0x10000 then
    ascii "\\u" ++ [lowerhex (r / 4096 % 16), lowerhex (r / 256 % 16), lowerhex (r / 16 % 16),
      lowerhex (r % 16)]
  else
    ascii "\\U" ++ [lowerhex (r / 268435456 % 16), lowerhex (r / 16777216 % 16),
      lowerhex (r / 1048576 % 16), lowerhex (r / 65536 % 16), lowerhex (r / 4096 % 16),
      lowerhex (r / 256 % 16), lowerhex (r / 16 % 16), lowerhex (r % 16)]

/-- The loop of Go `appendQuotedWith`: `fuel` bounds the number of rounds,
each of which consumes at least one byte of `s`. -/
def appendQuotedLoop (table : Nat → Bool) : Nat → GoString → GoString
  | 0, _ => []
  | fuel + 1, s =>
    match s with
    | [] => []
    | s0 :: _ =>
      let d : Nat × Nat := if RuneSelf ≤ s0 then DecodeRuneInString s else (s0, 1)
      if d.2 = 1 ∧ d.1 = RuneError then
        ascii "\\x" ++ [lowerhex (s0 / 16), lowerhex (s0 % 16)] ++
          appendQuotedLoop table fuel (s.drop d.2)
      else
        appendEscapedRune table d.1 ++ appendQuotedLoop table fuel (s.drop d.2)

/-- Go `strconv.Quote(s)`, the text that `%q` writes for the string `s`. -/
def Quote (table : Nat → Bool) (s : GoString) : GoString :=
  0x22 :: (appendQuotedLoop table s.length s ++ [0x22])

/-! ## The reader of the snippet: a Python string literal

The sandbox evaluates the snippet with Python.  A literal in double quotes is
read byte by byte over the UTF-8 text of the snippet (Python language
reference, string literals and escape sequences); its value is given as UTF-8
text too: a byte outside an escape sequence stands for itself, an escape
sequence for the encoding of its code point.  Literals this reading does not
cover (a named escape, a triple-quoted literal, a lone surrogate half) have no
value here.
-/

/-- Where the reader of a literal stands. -/
inductive PyState where
  /-- Inside the literal, with the value read so far. -/
  | body (out : GoString)
  /-- Right after a backslash. -/
  | escape (out : GoString)
  /-- In the digits of a hexadecimal escape, `left` digits to read. -/
  | hex (out : GoString) (left acc : Nat)
  /-- In the digits of an octal escape, at most `left` digits to read. -/
  | octal (out : GoString) (left acc : Nat)
  /-- After the closing quote. -/
  | closed (out : GoString)
  | failed
  deriving DecidableEq, Repr

/-- The value of a hexadecimal digit. -/
def hexVal (c : Nat) : Option Nat :=
  if 48 ≤ c ∧ c ≤ 57 then some (c - 48)
  else if 97 ≤ c ∧ c ≤ 102 then some (c - 87)
  else if 65 ≤ c ∧ c ≤ 70 then some (c - 55)
  else none

/-- The code point of an escape sequence is added to the value. -/
def pyEmit (out : GoString) (cp : Nat) : PyState :=
  if ValidRune cp then .body (out ++ AppendRune cp) else .failed

/-- One byte inside the literal and outside an escape sequence: the closing
quote, a backslash, or a byte of the value; a line end or a null byte is an
error. -/
def pyBodyStep (out : GoString) (c : Nat) : PyState :=
  if c = 0x22 then .closed out
  else if c = 0x5C then .escape out
  else if c = 0x0A ∨ c = 0x0D ∨ c = 0 then .failed
  else .body (out ++ [c])

/-- The byte after a backslash. -/
def pyEscapeStep (out : GoString) (c : Nat) : PyState :=
  if c = 0x0A then .body out
  else if c = 0x5C ∨ c = 0x27 ∨ c = 0x22 then .body (out ++ [c])
  else if c = 0x61 then .body (out ++ [7])
  else if c = 0x62 then .body (out ++ [8])
  else if c = 0x66 then .body (out ++ [12])
  else if c = 0x6E then .body (out ++ [10])
  else if c = 0x72 then .body (out ++ [13])
  else if c = 0x74 then .body (out ++ [9])
  else if c = 0x76 then .body (out ++ [11])
  else if 0x30 ≤ c ∧ c ≤ 0x37 then .octal out 2 (c - 0x30)
  else if c = 0x78 then .hex out 2 0
  else if c = 0x75 then .hex out 4 0
  else if c = 0x55 then .hex out 8 0
  else if c = 0x4E ∨ c = 0x0D ∨ c = 0 then .failed
  else .body (out ++ [0x5C, c])

/-- One byte of the literal. -/
def pyStep : PyState → Nat → PyState
  | .body out, c => pyBodyStep out c
  | .escape out, c => pyEscapeStep out c
  | .hex out left acc, c =>
    match hexVal c with
    | none => .failed
    | some d => if left ≤ 1 then pyEmit out (16 * acc + d) else .hex out (left - 1) (16 * acc + d)
  | .octal out left acc, c =>
    if 0x30 ≤ c ∧ c ≤ 0x37 then
      if left ≤ 1 then pyEmit out (8 * acc + (c - 0x30))
      else .octal out (left - 1) (8 * acc + (c - 0x30))
    else
      match pyEmit out acc with
      | .body out1 => pyBodyStep out1 c
      | _ => .failed
  | .closed _, _ => .failed
  | .failed, _ => .failed

/-- The value of the Python literal `L`, which is to start with a double
quote and to end with the quote that closes it. -/
def pyStringLiteral (L : GoString) : Option GoString :=
  match L with
  | [] => none
  | c :: rest =>
    if c = 0x22 then
      match rest.foldl pyStep (.body []) with
      | .closed out => some out
      | _ => none
    else none

/-- Go `json.Marshal` of a string, for the test double: exact on text made
of printable ASCII other than `<`, `>`, `&` and of line feed, carriage return
and tab. -/
def mockJsonString (s : GoString) : GoString :=
  0x22 :: (s.flatMap (fun c =>
    if c = 0x22 then ascii "\\\""
    else if c = 0x5C then ascii "\\\\"
    else if c = 0x0A then ascii "\\n"
    else if c = 0x0D then ascii "\\r"
    else if c = 0x09 then ascii "\\t"
    else [c]) ++ [0x22])

/-- The test double `mockWorld` with the library functions of the snippet:
`%q` is `strconv.Quote`, with no rune above U+00FF taken as printable. -/
def mockWorldQuote (responses : List GoString) : World Nat GoString Unit :=
  { mockWorld responses with
    jsonMarshalString := fun s => .ok (mockJsonString s)
    quote := Quote (fun _ => false) }

/-- The offsets at which `r` occurs in `s`, in increasing order. -/
def occurrences (r s : GoString) : List Nat :=
  (List.range (s.length + 1)).filter (fun i => decide (r <+: s.drop i))

/-- A reply whose only final-answer marker is inside its code block. -/
def testFinalInBlock : List GoString :=
  [ascii "Let me run it.\n```repl\nprint(1)\nFINAL( done )\n```\n"]

/-- The loop of Go `utf8.RuneCountInString`: one more rune for each step of
`DecodeRuneInString`; `fuel` bounds the number of steps. -/
def runeCountLoop : Nat → GoString → Nat
  | 0, _ => 0
  | fuel + 1, s =>
    match s with
    | [] => 0
    | _ :: _ => 1 + runeCountLoop fuel (s.drop (DecodeRuneInString s).2)

/-- Go `utf8.RuneCountInString(s)`: the number of characters of `s`, a byte
that is not part of a valid encoding counting for one. -/
def RuneCountInString (s : GoString) : Nat := runeCountLoop s.length s

/-- The text of `n` letters U+00E9, each encoded on two bytes. -/
def accents : Nat → GoString
  | 0 => []
  | n + 1 => 0xC3 :: 0xA9 :: accents n

/-- The state of `handleQueryBatched` before its goroutines run: no reply
yet, and `responses` made of empty strings. -/
def batchInit {ω ε ρ : Type} (prompts : List GoString) (w : ω) (repl : ρ) : BatchState ω ε ρ :=
  { world := w, repl := repl, replies := List.replicate prompts.length none,
    responses := List.replicate prompts.length [], trace := [] }

/-- What the client returns to goroutine `i` of a batch, which calls it with
`prompt` after the steps `before` of the goroutines have run. -/
def batchReply {ω ε δ ρ : Type} (W : World ω ε δ) (record : RLMChatCompletion → ρ → ρ)
    (prompts : List GoString) (w : ω) (repl : ρ) (before : List BatchStep) (prompt : GoString) :
    Except ε GoString :=
  (W.clientCompletion (userMessage prompt)
    (before.foldl (batchStep W record prompts) (batchInit prompts w repl)).world).1

/-! ## The LLM client: `internal/client/gemini.go`

The vendor library `genai` is outside the repository.  Of its types, the
fields that `Completion` reads are kept, a pointer being an `Option` (`none`
is nil); the call `c.client.Models.GenerateContent` is a function `generate`
on the state `σ` of the vendor client, which stands for `*genai.Client` and
the service behind it, and returns a response whenever it returns no error.
A call of `Completion` ends in one of three ways: it returns a text, it
returns an error, or it panics.  Of the Prometheus counter `TokenUsage` the
panic of `Add` on a negative value is kept, its count is not; logging is left
out.
-/

/-- Go `genai.Part`, its field `Text`. -/
structure genai.Part where
  Text : GoString
  deriving DecidableEq, Repr

/-- Go `genai.Content`; `Parts` is a slice of pointers. -/
structure genai.Content where
  Role : GoString
  Parts : List (Option genai.Part)
  deriving DecidableEq, Repr

/-- Go `genai.Candidate`, its field `Content`, a pointer. -/
structure genai.Candidate where
  Content : Option genai.Content
  deriving DecidableEq, Repr

/-- Go `genai.GenerateContentResponseUsageMetadata`, the two fields read; both
are of type `int32`. -/
structure genai.GenerateContentResponseUsageMetadata where
  PromptTokenCount : Int
  CandidatesTokenCount : Int
  deriving DecidableEq, Repr

/-- Go `genai.GenerateContentResponse`; `Candidates` is a slice of pointers
and `UsageMetadata` a pointer. -/
structure genai.GenerateContentResponse where
  Candidates : List (Option genai.Candidate)
  UsageMetadata : Option genai.GenerateContentResponseUsageMetadata
  deriving DecidableEq, Repr

/-- How a call ends that does not return its value: it returns the error
`err`, or it panics. -/
inductive Abort (ε : Type) where
  | error (err : ε)
  | panic
  deriving DecidableEq, Repr

/-- The value of a Go `int` (64 bits, two's complement) that the integer `x`
wraps to. -/
def goInt (x : Int) : Int := (x + 2 ^ 63) % 2 ^ 64 - 2 ^ 63

/-- Go `GeminiClient`: the vendor client, the model name and the usage
counters.  No lock guards the counters. -/
structure GeminiClient (σ : Type) where
  client : σ
  modelName : GoString
  usage : UsageSummary

/-- The first loop of `Completion`: the messages in the format of the vendor.
A `system` message becomes the system instruction (the last one stays), the
role `assistant` becomes `model`. -/
def convertMessages : List Message → List genai.Content × Option genai.Content →
    List genai.Content × Option genai.Content
  | [], acc => acc
  | msg :: rest, (contents, systemInstruction) =>
    if msg.Role = ascii "system" then
      convertMessages rest (contents, some ⟨[], [some ⟨msg.Content⟩]⟩)
    else
      convertMessages rest
        (contents ++ [⟨if msg.Role = ascii "assistant" then ascii "model" else msg.Role,
          [some ⟨msg.Content⟩]⟩], systemInstruction)

/-- The vendor call of `Completion` on `messages`: what
`c.client.Models.GenerateContent(ctx, c.modelName, contents, config)` returns,
and the state it leaves. -/
def GeminiClient.generateContent {σ ε : Type}
    (generate : σ → GoString → List genai.Content → Option genai.Content →
      Except ε genai.GenerateContentResponse × σ)
    (c : GeminiClient σ) (messages : List Message) :
    Except ε genai.GenerateContentResponse × σ :=
  generate c.client c.modelName (convertMessages messages ([], none)).1
    (convertMessages messages ([], none)).2

/-- The three statements on `c.usage` in the block `// Track usage` of
`Completion`: the counters after a response of the vendor. -/
def trackUsage (usage : UsageSummary) (resp : genai.GenerateContentResponse) : UsageSummary :=
  match resp.UsageMetadata with
  | some m =>
    { TotalCalls := goInt (usage.TotalCalls + 1)
      TotalInputTokens := goInt (usage.TotalInputTokens + m.PromptTokenCount)
      TotalOutputTokens := goInt (usage.TotalOutputTokens + m.CandidatesTokenCount) }
  | none => usage

/-- The two calls `observability.TokenUsage...Add(float64(n))` of the block
`// Track usage` panic: a Prometheus counter panics on a negative value. -/
def tokenUsagePanics (resp : genai.GenerateContentResponse) : Bool :=
  match resp.UsageMetadata with
  | some m => decide (m.PromptTokenCount < 0) || decide (m.CandidatesTokenCount < 0)
  | none => false

/-- The end of `Completion`, from `if len(resp.Candidates) == 0 || ...` on:
the text of the first part of the first candidate, the error
`no response from model` without a candidate or without a part, and the
panic of a nil pointer on the way. -/
def responseText {ε : Type} (errorf : GoString → ε) (resp : genai.GenerateContentResponse) :
    Except (Abort ε) GoString :=
  match resp.Candidates with
  | [] => .error (.error (errorf (ascii "no response from model")))
  | none :: _ => .error .panic
  | some candidate :: _ =>
    match candidate.Content with
    | none => .error .panic
    | some content =>
      match content.Parts with
      | [] => .error (.error (errorf (ascii "no response from model")))
      | none :: _ => .error .panic
      | some part :: _ => .ok part.Text

/-- `Completion` from the return of the vendor call on: the counters are
updated when the response has usage metadata, then the counter of tokens may
panic, then the text is taken. -/
def GeminiClient.finish {σ ε : Type} (errorf : GoString → ε) (c : GeminiClient σ)
    (resp : genai.GenerateContentResponse) : Except (Abort ε) GoString × GeminiClient σ :=
  (if tokenUsagePanics resp then .error .panic else responseText errorf resp,
    { c with usage := trackUsage c.usage resp })

/-- Go `(*GeminiClient).Completion(ctx, messages)` when nothing else uses the
client meanwhile: how the call ends, and the client after it; `errorf` is
`fmt.Errorf` on a constant text. -/
def GeminiClient.Completion {σ ε : Type}
    (generate : σ → GoString → List genai.Content → Option genai.Content →
      Except ε genai.GenerateContentResponse × σ)
    (errorf : GoString → ε) (c : GeminiClient σ) (messages : List Message) :
    Except (Abort ε) GoString × GeminiClient σ :=
  match c.generateContent generate messages with
  | (.error err, v) => (.error (.error err), { c with client := v })
  | (.ok resp, v) => GeminiClient.finish errorf { c with client := v } resp

/-- Go `(*GeminiClient).GetUsageSummary()`. -/
def GeminiClient.GetUsageSummary {σ : Type} (c : GeminiClient σ) : UsageSummary := c.usage

/-- Go `(*GeminiClient).ModelName()`. -/
def GeminiClient.ModelName {σ : Type} (c : GeminiClient σ) : GoString := c.modelName

/-! ## The driver on the Gemini client

`Completion` of the driver when its client is the `GeminiClient` of the
process.  `main.go` makes one client and hands it to every request it
serves, and the handler of a completion calls it from its own goroutines, so
other goroutines use the client while a completion runs, and no lock guards
its counters.  What they have done to it by the time this completion touches
it next is given by a function `disturb` of the environment; a run in which
`disturb` leaves the counters alone is one in which the client is used by
this completion only, one call at a time.

The handler and the sandbox of `internal/rlm` and `internal/env` are not in
the sources: while a code string is executed they may invoke the client any
number of times, each invocation depending on the replies before it.

The state keeps a log of what the vendor returned to every invocation of the
completion, which the Go code does not keep: the properties of the counters
are stated on it.
-/

/-- Who invoked the client: the main loop of the driver, or the handler on a
request of the sandbox (a sub-call). -/
inductive Origin where
  | driver
  | handler
  deriving DecidableEq, Repr

/-- One invocation of the client: who made it and what the vendor returned. -/
structure Invocation (ε : Type) where
  origin : Origin
  response : Except ε genai.GenerateContentResponse

/-- The state of the process as a completion sees it: the shared client, the
state `ρ` of the other collaborators (handler, sandbox, host) and the log of
the invocations of the completion. -/
structure Runtime (σ ρ ε : Type) where
  client : GeminiClient σ
  rest : ρ
  log : List (Invocation ε)

/-- What the handler and the sandbox do while a code string is executed:
invocations of the client, each followed by what depends on how it ended,
and at the end the result of the execution and their next state. -/
inductive SubCalls (ρ ε : Type) where
  | done (res : REPLResult) (next : ρ)
  | invoke (messages : List Message) (k : Except (Abort ε) GoString → SubCalls ρ ε)

/-- What lies outside the driver and the client: the vendor, the goroutines
that share the client, the context of the caller, the handler and the sandbox
and the library functions. -/
structure Env (σ ρ ε δ : Type) where
  /-- Go `c.client.Models.GenerateContent`. -/
  generate : σ → GoString → List genai.Content → Option genai.Content →
    Except ε genai.GenerateContentResponse × σ
  /-- Go `fmt.Errorf` on a constant text. -/
  errorf : GoString → ε
  /-- The vendor client and the counters as the other goroutines have left
  them by the next access of the completion to the client, given the state
  after its last one. -/
  disturb : Runtime σ ρ ε → σ × UsageSummary
  /-- Go `ctx.Err()`. -/
  ctxErr : Runtime σ ρ ε → Option ε
  /-- Go `handler.Start()`. -/
  handlerStart : ρ → Except ε GoString × ρ
  /-- Go `handler.Stop()`. -/
  handlerStop : ρ → ρ
  /-- Go `env.NewPythonREPL(ctx, addr)`. -/
  newPythonREPL : GoString → ρ → Option ε × ρ
  /-- Go `pythonRepl.Cleanup()`. -/
  cleanup : ρ → ρ
  /-- The handler and the sandbox during `pythonRepl.ExecuteCode(ctx, code)`. -/
  sandbox : Runtime σ ρ ε → GoString → SubCalls ρ ε
  jsonMarshal : δ → Except ε GoString
  jsonMarshalString : GoString → Except ε GoString
  /-- The tables of `strconv.IsPrint`. -/
  table : Nat → Bool
  typeName : δ → GoString
  formatSystemPrompt : GoString → GoString → Nat → GoString

/-- The state at the next access of the completion to the client, after the
other goroutines had their turn. -/
def Runtime.disturbed {σ ρ ε δ : Type} (E : Env σ ρ ε δ) (s : Runtime σ ρ ε) : Runtime σ ρ ε :=
  { s with
    client :=
      { s.client with
        client := (E.disturb s).1
        usage := (E.disturb s).2 } }

/-- The state when the vendor call of an invocation by `origin` has returned
`reply` and left the vendor client `v`: the log takes what the vendor
returned, and the other goroutines have had their turn. -/
def Runtime.called {σ ρ ε δ : Type} (E : Env σ ρ ε δ) (origin : Origin) (s : Runtime σ ρ ε)
    (reply : Except ε genai.GenerateContentResponse) (v : σ) : Runtime σ ρ ε :=
  Runtime.disturbed E
    { s with
      client := { (s.disturbed E).client with client := v }
      log := s.log ++ [⟨origin, reply⟩] }

/-- One invocation of the client, by `origin`: the vendor call, then the part
of `Completion` that follows it, the other goroutines having their turn
before each of the two. -/
def Runtime.invoke {σ ρ ε δ : Type} (E : Env σ ρ ε δ) (origin : Origin)
    (messages : List Message) (s : Runtime σ ρ ε) :
    Except (Abort ε) GoString × Runtime σ ρ ε :=
  match (s.disturbed E).client.generateContent E.generate messages with
  | (.error err, v) => (.error (.error err), s.called E origin (.error err) v)
  | (.ok resp, v) =>
    (((s.called E origin (.ok resp) v).client.finish E.errorf resp).1,
      { s.called E origin (.ok resp) v with
        client := ((s.called E origin (.ok resp) v).client.finish E.errorf resp).2 })

/-- The handler and the sandbox run: every invocation they make reaches the
client of the process. -/
def runSubCalls {σ ρ ε δ : Type} (E : Env σ ρ ε δ) :
    SubCalls ρ ε → Runtime σ ρ ε → REPLResult × Runtime σ ρ ε
  | SubCalls.done res next, s => (res, { s with rest := next })
  | SubCalls.invoke messages k, s =>
    runSubCalls E (k (s.invoke E Origin.handler messages).1)
      (s.invoke E Origin.handler messages).2

/-- A value of the environment as the driver gets it: an error is returned. -/
def returned {ε α : Type} : Except ε α → Except (Abort ε) α
  | .ok a => .ok a
  | .error err => .error (.error err)

/-- The collaborators of the driver when the client is the `GeminiClient` of
the process.  A panic of the client in the main loop unwinds `Completion`,
which then returns nothing: it is the outcome `.error Abort.panic`, and the
increment of the error counter that the trace shows before the deferred calls
does not take place then. -/
def geminiWorld {σ ρ ε δ : Type} (E : Env σ ρ ε δ) : World (Runtime σ ρ ε) (Abort ε) δ where
  ctxErr := fun s => (E.ctxErr s).map Abort.error
  handlerStart := fun s =>
    (returned (E.handlerStart s.rest).1, { s with rest := (E.handlerStart s.rest).2 })
  handlerStop := fun s => { s with rest := E.handlerStop s.rest }
  newPythonREPL := fun addr s =>
    (((E.newPythonREPL addr s.rest).1).map Abort.error,
      { s with rest := (E.newPythonREPL addr s.rest).2 })
  cleanup := fun s => { s with rest := E.cleanup s.rest }
  executeCode := fun code s => runSubCalls E (E.sandbox s code) s
  clientCompletion := Runtime.invoke E Origin.driver
  modelName := fun s => s.client.ModelName
  getUsageSummary := fun s => (s.disturbed E).client.GetUsageSummary
  jsonMarshal := fun d => returned (E.jsonMarshal d)
  jsonMarshalString := fun text => returned (E.jsonMarshalString text)
  quote := Quote E.table
  typeName := E.typeName
  formatSystemPrompt := E.formatSystemPrompt

/-- The vendor returned a response with usage metadata to this invocation. -/
def Invocation.counted {ε : Type} (e : Invocation ε) : Bool :=
  match e.response with
  | .ok resp => resp.UsageMetadata.isSome
  | .error _ => false

/-- The invocation succeeded: the vendor returned a response and `Completion`
returned its text. -/
def Invocation.succeeded {ε : Type} (e : Invocation ε) : Bool :=
  match e.response with
  | .ok resp =>
    !tokenUsagePanics resp &&
      match responseText (fun _ => ()) resp with
      | .ok _ => true
      | .error _ => false
  | .error _ => false

/-- The invocations of a log made by `origin`. -/
def callsOf {ε : Type} (origin : Origin) (log : List (Invocation ε)) : List (Invocation ε) :=
  log.filter (fun e => decide (e.origin = origin))

/-- The integer `x` is a value of a Go `int`. -/
def IsGoInt (x : Int) : Prop := goInt x = x

instance (x : Int) : Decidable (IsGoInt x) := by
  unfold IsGoInt
  infer_instance

/-- The other goroutines leave the counters of the client as the completion
left them: the client is used by this completion only, one call at a time, or
no update of a counter is lost or added by the concurrent use. -/
def Quiet {σ ρ ε δ : Type} (E : Env σ ρ ε δ) : Prop :=
  ∀ s : Runtime σ ρ ε, (E.disturb s).2 = s.client.usage

/-- The number of invocations of a log that the client counts. -/
def countedCalls {ε : Type} (log : List (Invocation ε)) : Nat :=
  (log.filter Invocation.counted).length

/-- `Accounts s n t`: from `s` to `t` the log has grown by invocations of
which `n` are the driver's, and the counter `TotalCalls` of the client has
grown, in the arithmetic of a Go `int`, by the number of those that the
client counts. -/
def Accounts {σ ρ ε : Type} (s : Runtime σ ρ ε) (n : Nat) (t : Runtime σ ρ ε) : Prop :=
  ∃ new : List (Invocation ε), t.log = s.log ++ new ∧ (callsOf Origin.driver new).length = n ∧
    goInt t.client.usage.TotalCalls = goInt (s.client.usage.TotalCalls + countedCalls new) ∧
    (IsGoInt s.client.usage.TotalCalls → IsGoInt t.client.usage.TotalCalls)

/-- The counters of `b` are not below those of `a`. -/
def UsageSummary.le (a b : UsageSummary) : Prop :=
  a.TotalCalls ≤ b.TotalCalls ∧ a.TotalInputTokens ≤ b.TotalInputTokens ∧
    a.TotalOutputTokens ≤ b.TotalOutputTokens

/-- The token counts of a response are not negative, and the counters stay
values of a Go `int` when the response is added to them. -/
def TracksInRange (usage : UsageSummary) (resp : genai.GenerateContentResponse) : Prop :=
  match resp.UsageMetadata with
  | none => True
  | some m =>
    0 ≤ m.PromptTokenCount ∧ 0 ≤ m.CandidatesTokenCount ∧
      IsGoInt (usage.TotalCalls + 1) ∧ IsGoInt (usage.TotalInputTokens + m.PromptTokenCount) ∧
      IsGoInt (usage.TotalOutputTokens + m.CandidatesTokenCount)

/-- A vendor for the examples: it returns the responses of `script` one after
the other, whatever it is asked; its state is the number of calls made. -/
def testVendor (script : List (Except GoString genai.GenerateContentResponse)) (v : Nat)
    (_model : GoString) (_contents : List genai.Content) (_system : Option genai.Content) :
    Except GoString genai.GenerateContentResponse × Nat :=
  (script.getD v (.error (ascii "quota exceeded")), v + 1)

/-- A response of the vendor with the one text `text`. -/
def testResponse (text : GoString)
    (usage : Option genai.GenerateContentResponseUsageMetadata) :
    genai.GenerateContentResponse :=
  { Candidates := [some ⟨some ⟨ascii "model", [some ⟨text⟩]⟩⟩], UsageMetadata := usage }

/-- An environment for the examples: the vendor follows `script`, the other
goroutines add `others` to the counter of calls at every turn, the handler
and the sandbox start, and during the execution of a code string they do
`sandbox`. -/
def testEnv (script : List (Except GoString genai.GenerateContentResponse)) (others : Int)
    (sandbox : GoString → SubCalls Unit GoString) : Env Nat Unit GoString Unit where
  generate := testVendor script
  errorf := fun text => text
  disturb := fun s =>
    (s.client.client, { s.client.usage with TotalCalls := s.client.usage.TotalCalls + others })
  ctxErr := fun _ => none
  handlerStart := fun rest => (.ok (ascii "127.0.0.1:0"), rest)
  handlerStop := fun rest => rest
  newPythonREPL := fun _ rest => (none, rest)
  cleanup := fun rest => rest
  sandbox := fun _ code => sandbox code
  jsonMarshal := fun _ => .ok (ascii "null")
  jsonMarshalString := fun s => .ok (mockJsonString s)
  table := fun _ => false
  typeName := fun _ => ascii "struct {}"
  formatSystemPrompt := fun template _ _ => template

/-- A sandbox that prints `hello` and makes no sub-call. -/
def quietSandbox (_code : GoString) : SubCalls Unit GoString :=
  SubCalls.done ⟨ascii "hello\n", [], []⟩ ()

/-- A sandbox that makes three sub-calls on the code `ask()`, whatever they
return, and none on another code. -/
def askingSandbox (code : GoString) : SubCalls Unit GoString :=
  if code = ascii "ask()" then
    SubCalls.invoke [⟨ascii "user", ascii "x"⟩] (fun _ =>
      SubCalls.invoke [⟨ascii "user", ascii "y"⟩] (fun _ =>
        SubCalls.invoke [⟨ascii "user", ascii "z"⟩] (fun _ =>
          SubCalls.done ⟨ascii "hello\n", [], []⟩ ())))
  else quietSandbox code

/-- A process as `main.go` starts it: a new client. -/
def testRuntime : Runtime Nat Unit GoString :=
  { client := { client := 0, modelName := ascii "gemini-2.5-flash", usage := ⟨0, 0, 0⟩ }
    rest := (), log := [] }

/-- Two responses of the vendor, each with a final answer and usage
metadata. -/
def testScript : List (Except GoString genai.GenerateContentResponse) :=
  [.ok (testResponse (ascii "FINAL(a)") (some ⟨3, 2⟩)),
    .ok (testResponse (ascii "FINAL(b)") (some ⟨4, 1⟩))]

/-- The first completion of a process, on a new client that nothing else
uses. -/
def testFirstRun : Outcome (Runtime Nat Unit GoString) (Abort GoString) :=
  Completion (geminiWorld (testEnv testScript 0 quietSandbox)) ⟨5, []⟩ (ascii "q1") none
    testRuntime

/-- The second completion of the same process, on the same client, after the
first has returned. -/
def testSecondRun : Outcome (Runtime Nat Unit GoString) (Abort GoString) :=
  Completion (geminiWorld (testEnv testScript 0 quietSandbox)) ⟨5, []⟩ (ascii "q2") none
    testFirstRun.world

/-- A completion on a new client that nothing else uses, the vendor returning
a final answer without usage metadata. -/
def testBareRun : Outcome (Runtime Nat Unit GoString) (Abort GoString) :=
  Completion
    (geminiWorld (testEnv [.ok (testResponse (ascii "FINAL(a)") none)] 0 quietSandbox))
    ⟨5, []⟩ (ascii "q") none testRuntime

/-- The vendor during a completion with sub-calls: a reply with the block
`ask()`; for the sub-calls an error, a text without usage metadata and a
response without candidates; at last the final answer. -/
def testSubCallScript : List (Except GoString genai.GenerateContentResponse) :=
  [.ok (testResponse (ascii "```repl\nask()\n```") (some ⟨3, 2⟩)),
    .error (ascii "boom"),
    .ok (testResponse (ascii "z!") none),
    .ok ⟨[], some ⟨1, 0⟩⟩,
    .ok (testResponse (ascii "FINAL(b)") (some ⟨4, 1⟩))]

/-- A completion with sub-calls on a new client that nothing else uses: two
iterations, and three invocations by the handler during the block `ask()`. -/
def testSubCallRun : Outcome (Runtime Nat Unit GoString) (Abort GoString) :=
  Completion (geminiWorld (testEnv testSubCallScript 0 askingSandbox)) ⟨5, []⟩ (ascii "q") none
    testRuntime

/-- The completion of `testFirstRun` while another request uses the client:
at every turn of the other goroutines the counter of calls has grown by one. -/
def testSharedRun : Outcome (Runtime Nat Unit GoString) (Abort GoString) :=
  Completion (geminiWorld (testEnv testScript 1 quietSandbox)) ⟨5, []⟩ (ascii "q1") none
    testRuntime

/-! ## Matching lemmas -/

theorem matchHere_lits (l : GoString) (p : Regex) : ∀ (pos : Nat) (s : GoString),
    matchHere (lits l ++ p) pos s =
      if l <+: s then matchHere p (pos + l.length) (s.drop l.length) else none := by
  induction l with
  | nil => intro pos s; simp [lits]
  | cons c l ih =>
    intro pos s
    cases s with
    | nil => simp [lits, matchHere]
    | cons b s =>
      have h := ih (pos + 1) s
      simp only [lits] at h
      simp only [lits, List.map_cons, List.cons_append, matchHere, h, List.cons_prefix_cons,
        List.length_cons, List.drop_succ_cons]
      by_cases hbc : b = c
      · subst hbc
        rw [show pos + (l.length + 1) = pos + 1 + l.length by omega]
        simp [h]
      · simp [hbc, Ne.symm hbc]

theorem matchHere_lits_end (r : GoString) (pos : Nat) (s : GoString) :
    matchHere (lits r) pos s = if r <+: s then some ([], pos + r.length) else none := by
  have h := matchHere_lits r [] pos s
  simpa [matchHere] using h

theorem matchHere_mark_lits (r : GoString) (pos : Nat) (s : GoString) :
    matchHere (Item.mark :: lits r) pos s =
      if r <+: s then some ([pos], pos + r.length) else none := by
  simp only [matchHere, matchHere_lits_end]
  split <;> simp_all

theorem lazyScan_mark_lits (r : GoString) : ∀ (pos : Nat) (s : GoString),
    lazyScan (matchHere (Item.mark :: lits r)) pos s =
      (index r s).map (fun k => ([pos + k], pos + k + r.length)) := by
  intro pos s
  induction s generalizing pos with
  | nil =>
    simp only [lazyScan, matchHere_mark_lits, index, List.prefix_nil]
    split <;> simp
  | cons b s ih =>
    simp only [lazyScan, matchHere_mark_lits, index]
    by_cases h : r <+: b :: s
    · simp [h]
    · simp only [h, if_false, ih, Option.map_map]
      congr 1
      funext k
      simp [Nat.add_assoc, Nat.add_comm 1]

theorem matchHere_group (r : GoString) (pos : Nat) (s : GoString) :
    matchHere (Item.mark :: Item.lazyDotStar :: Item.mark :: lits r) pos s =
      (index r s).map (fun k => ([pos, pos + k], pos + k + r.length)) := by
  have h : matchHere (Item.mark :: Item.lazyDotStar :: Item.mark :: lits r) pos s =
      match lazyScan (matchHere (Item.mark :: lits r)) pos s with
      | some (ms, e) => some (pos :: ms, e)
      | none => none := rfl
  rw [h, lazyScan_mark_lits]
  cases index r s <;> simp

theorem matchHere_fence (l r : GoString) (pos : Nat) (s : GoString) :
    matchHere (fence l r) pos s =
      (blockAt l r s).map (fun k =>
        ([pos + l.length, pos + l.length + k], pos + l.length + k + r.length)) := by
  unfold fence blockAt
  rw [List.append_assoc, matchHere_lits]
  by_cases h : l <+: s
  · simp only [h, if_true, List.cons_append, List.nil_append, matchHere_group]
  · simp [h]

theorem search_fence (l r : GoString) : ∀ (pos : Nat) (s : GoString),
    search (fence l r) pos s = (firstBlock l r s).map (fun ik => blockMatch l r pos ik.1 ik.2) := by
  intro pos s
  induction s generalizing pos with
  | nil =>
    simp only [search, matchHere_fence, firstBlock]
    cases blockAt l r [] <;> simp [blockMatch]
  | cons b s ih =>
    simp only [search, matchHere_fence, firstBlock]
    cases blockAt l r (b :: s) with
    | some k => simp [blockMatch]
    | none =>
      simp only [Option.map_none', ih, Option.map_map]
      congr 1
      funext ik
      simp [blockMatch, Nat.add_assoc, Nat.add_comm 1]

theorem index_le_length (r : GoString) : ∀ (s : GoString) (k : Nat),
    index r s = some k → k + r.length ≤ s.length := by
  intro s
  induction s with
  | nil =>
    intro k h
    simp only [index] at h
    split at h
    · simp_all
    · simp at h
  | cons b s ih =>
    intro k h
    simp only [index] at h
    split at h
    · rename_i hp
      have := hp.length_le
      simp at h this
      subst h
      simp
      omega
    · cases hi : index r s with
      | none => simp [hi] at h
      | some j =>
        simp [hi] at h
        have := ih j hi
        simp
        omega

theorem index_eq_some_iff (r : GoString) : ∀ (s : GoString) (k : Nat),
    index r s = some k ↔ (r <+: s.drop k ∧ k ≤ s.length ∧ ∀ j, j < k → ¬ r <+: s.drop j) := by
  intro s
  induction s with
  | nil =>
    intro k
    simp only [index, List.drop_nil, List.prefix_nil, List.length_nil, Nat.le_zero]
    constructor
    · intro h
      split at h
      · simp at h
        subst h
        simp_all
      · simp at h
    · rintro ⟨h1, h2, -⟩
      simp [h1, h2]
  | cons b s ih =>
    intro k
    simp only [index]
    by_cases hp : r <+: b :: s
    · simp only [hp, if_true, Option.some.injEq]
      constructor
      · intro h; subst h; simp [hp]
      · rintro ⟨-, -, h3⟩
        by_contra hk
        exact h3 0 (by omega) (by simpa using hp)
    · simp only [hp, if_false]
      cases k with
      | zero =>
        simp only [List.drop_zero]
        constructor
        · intro h
          cases hi : index r s <;> simp [hi] at h
        · rintro ⟨h1, -⟩; exact absurd h1 hp
      | succ k =>
        have := ih k
        constructor
        · intro h
          cases hi : index r s with
          | none => simp [hi] at h
          | some j =>
            simp [hi] at h
            subst h
            obtain ⟨h1, h2, h3⟩ := this.mp hi
            refine ⟨by simpa using h1, by simpa using h2, ?_⟩
            intro i hi'
            cases i with
            | zero => simpa using hp
            | succ i => simpa using h3 i (by omega)
        · rintro ⟨h1, h2, h3⟩
          have hk : index r s = some k := this.mpr ⟨by simpa using h1, by simpa using h2, fun j hj => by
            simpa using h3 (j + 1) (by omega)⟩
          simp [hk]

theorem index_eq_none_iff (r : GoString) : ∀ (s : GoString),
    index r s = none ↔ ∀ j, j ≤ s.length → ¬ r <+: s.drop j := by
  intro s
  induction s with
  | nil =>
    simp only [index, List.drop_nil, List.prefix_nil, List.length_nil, Nat.le_zero]
    constructor
    · intro h j _
      split at h
      · simp at h
      · assumption
    · intro h
      simp [h 0 rfl]
  | cons b s ih =>
    simp only [index]
    by_cases hp : r <+: b :: s
    · simp only [hp, if_true]
      constructor
      · intro h; simp at h
      · intro h; exact absurd hp (by simpa using h 0 (by simp))
    · simp only [hp, if_false, Option.map_eq_none', ih]
      constructor
      · intro h j hj
        cases j with
        | zero => simpa using hp
        | succ j => simpa using h j (by simpa using hj)
      · intro h j hj
        simpa using h (j + 1) (by simpa using hj)

theorem firstBlock_eq_some_iff (l r : GoString) : ∀ (s : GoString) (i k : Nat),
    firstBlock l r s = some (i, k) ↔
      (blockAt l r (s.drop i) = some k ∧ i ≤ s.length ∧
        ∀ j, j < i → blockAt l r (s.drop j) = none) := by
  intro s
  induction s with
  | nil =>
    intro i k
    simp only [firstBlock, List.drop_nil, List.length_nil, Nat.le_zero]
    constructor
    · intro h
      cases hb : blockAt l r [] with
      | none => simp [hb] at h
      | some k' =>
        simp [hb] at h
        obtain ⟨h1, h2⟩ := h
        subst h1 h2
        simp
    · rintro ⟨h1, h2, -⟩
      simp [h1, h2]
  | cons b s ih =>
    intro i k
    simp only [firstBlock]
    cases hb : blockAt l r (b :: s) with
    | some k' =>
      simp only [Option.some.injEq, Prod.mk.injEq]
      constructor
      · rintro ⟨h1, h2⟩
        subst h1 h2
        simp [hb]
      · rintro ⟨h1, -, h3⟩
        cases i with
        | zero =>
          simp only [List.drop_zero, hb, Option.some.injEq] at h1
          simp [h1]
        | succ i =>
          have := h3 0 (by omega)
          simp [hb] at this
    | none =>
      cases i with
      | zero =>
        simp only [List.drop_zero, hb]
        constructor
        · intro h
          cases hf : firstBlock l r s <;> simp [hf] at h
        · rintro ⟨h1, -⟩; simp at h1
      | succ i =>
        have := ih i k
        constructor
        · intro h
          cases hf : firstBlock l r s with
          | none => simp [hf] at h
          | some ik =>
            obtain ⟨i', k'⟩ := ik
            simp [hf] at h
            obtain ⟨h1, h2⟩ := h
            subst h1 h2
            obtain ⟨h1, h2, h3⟩ := this.mp hf
            refine ⟨by simpa using h1, by simpa using h2, ?_⟩
            intro j hj
            cases j with
            | zero => simpa using hb
            | succ j => simpa using h3 j (by omega)
        · rintro ⟨h1, h2, h3⟩
          have hk : firstBlock l r s = some (i, k) :=
            this.mpr ⟨by simpa using h1, by simpa using h2, fun j hj => by
              simpa using h3 (j + 1) (by omega)⟩
          simp [hk]

theorem firstBlock_eq_none_iff (l r : GoString) : ∀ (s : GoString),
    firstBlock l r s = none ↔ ∀ j, j ≤ s.length → blockAt l r (s.drop j) = none := by
  intro s
  induction s with
  | nil =>
    simp only [firstBlock, List.drop_nil, List.length_nil, Nat.le_zero, Option.map_eq_none']
    constructor
    · intro h j _; exact h
    · intro h; exact h 0 rfl
  | cons b s ih =>
    simp only [firstBlock]
    cases hb : blockAt l r (b :: s) with
    | some k =>
      constructor
      · intro h; simp at h
      · intro h
        have := h 0 (by simp)
        simp [hb] at this
    | none =>
      simp only [Option.map_eq_none', ih]
      constructor
      · intro h j hj
        cases j with
        | zero => simpa using hb
        | succ j => simpa using h j (by simpa using hj)
      · intro h j hj
        simpa using h (j + 1) (by simpa using hj)

theorem singleton_prefix_drop (c : Nat) (s : GoString) (j : Nat) :
    [c] <+: s.drop j ↔ s[j]? = some c := by
  cases h : s.drop j with
  | nil =>
    have hl : s.length ≤ j := List.drop_eq_nil_iff.mp h
    simp [List.getElem?_eq_none hl]
  | cons a t =>
    have h0 : (s.drop j)[0]? = some a := by simp [h]
    rw [List.getElem?_drop] at h0
    simp only [Nat.add_zero] at h0
    simp [h0, List.cons_prefix_cons, eq_comm]

theorem blockAt_drop (l r : GoString) (s : GoString) (i : Nat) :
    blockAt l r (s.drop i) =
      if l <+: s.drop i then index r (s.drop (i + l.length)) else none := by
  simp [blockAt, List.drop_drop, Nat.add_comm]

theorem blockAt_eq_some_iff (l r : GoString) (s : GoString) (i k : Nat) (hi : i ≤ s.length) :
    blockAt l r (s.drop i) = some k ↔
      (l <+: s.drop i ∧ r <+: s.drop (i + l.length + k) ∧ i + l.length + k ≤ s.length ∧
        ∀ j, j < k → ¬ r <+: s.drop (i + l.length + j)) := by
  rw [blockAt_drop]
  by_cases hl : l <+: s.drop i
  · have hlen : l.length ≤ s.length - i := by simpa using hl.length_le
    simp only [hl, if_true, true_and, index_eq_some_iff, List.drop_drop, List.length_drop]
    constructor
    · rintro ⟨h1, h2, h3⟩
      refine ⟨by simpa [Nat.add_comm, Nat.add_left_comm, Nat.add_assoc] using h1, by omega, ?_⟩
      intro j hj
      simpa [Nat.add_comm, Nat.add_left_comm, Nat.add_assoc] using h3 j hj
    · rintro ⟨h1, h2, h3⟩
      refine ⟨by simpa [Nat.add_comm, Nat.add_left_comm, Nat.add_assoc] using h1, by omega, ?_⟩
      intro j hj
      simpa [Nat.add_comm, Nat.add_left_comm, Nat.add_assoc] using h3 j hj
  · simp [hl]

theorem firstBlock_no_earlier_opener (l r : GoString) (s : GoString) (i k : Nat)
    (h : firstBlock l r s = some (i, k)) : ∀ j, j < i → ¬ l <+: s.drop j := by
  obtain ⟨h1, h2, h3⟩ := (firstBlock_eq_some_iff l r s i k).mp h
  obtain ⟨-, hr, hlen, -⟩ := (blockAt_eq_some_iff l r s i k h2).mp h1
  intro j hj hl
  have hnone := h3 j hj
  rw [blockAt_drop] at hnone
  simp only [hl, if_true] at hnone
  have := (index_eq_none_iff r _).mp hnone (i - j + k) (by simp; omega)
  apply this
  rw [List.drop_drop]
  have : j + l.length + (i - j + k) = i + l.length + k := by omega
  rw [this]
  exact hr

theorem ascii_final_length : (ascii "FINAL(").length = 6 := rfl

theorem ascii_close_eq : ascii ")" = [Char.toNat ')'] := rfl

theorem finalRegex_eq : finalRegex = fence (ascii "FINAL(") (ascii ")") := rfl

theorem FindFinalAnswer_eq (text : GoString) :
    FindFinalAnswer text =
      match firstBlock (ascii "FINAL(") (ascii ")") text with
      | some ik => TrimSpace (slice text (ik.1 + 6) (ik.1 + 6 + ik.2))
      | none => [] := by
  unfold FindFinalAnswer FindStringSubmatch
  rw [finalRegex_eq, search_fence]
  cases firstBlock (ascii "FINAL(") (ascii ")") text with
  | none => rfl
  | some ik =>
    simp [submatches, blockMatch, pairs, ascii_final_length]

theorem firstBlock_final_iff (text : GoString) (i k : Nat) :
    firstBlock (ascii "FINAL(") (ascii ")") text = some (i, k) ↔ FinalSpan text i (i + 6 + k) := by
  constructor
  · intro h
    have hno := firstBlock_no_earlier_opener _ _ _ _ _ h
    obtain ⟨h1, h2, -⟩ := (firstBlock_eq_some_iff _ _ text i k).mp h
    obtain ⟨hl, hr, hlen, hmin⟩ := (blockAt_eq_some_iff _ _ text i k h2).mp h1
    rw [ascii_final_length] at hr hmin
    rw [ascii_close_eq, singleton_prefix_drop] at hr
    refine ⟨hl, hno, by omega, hr, ?_⟩
    intro j' hj1 hj2 hj3
    have := hmin (j' - (i + 6)) (by omega)
    rw [ascii_close_eq, singleton_prefix_drop] at this
    apply this
    rw [← hj3]
    congr 1
    omega
  · rintro ⟨hl, hno, -, hr, hmin⟩
    have hi : i ≤ text.length := by
      by_contra hc
      have := hl.length_le
      rw [ascii_final_length] at this
      simp at this
      omega
    have hj : i + 6 + k < text.length := by
      by_contra hc
      rw [List.getElem?_eq_none (by omega)] at hr
      simp at hr
    rw [firstBlock_eq_some_iff]
    refine ⟨?_, hi, ?_⟩
    · rw [blockAt_eq_some_iff _ _ _ _ _ hi, ascii_final_length, ascii_close_eq]
      refine ⟨hl, (singleton_prefix_drop _ _ _).mpr hr, by omega, ?_⟩
      intro j hj' hp
      rw [singleton_prefix_drop] at hp
      exact hmin (i + 6 + j) (by omega) (by omega) hp
    · intro j hj'
      rw [blockAt_drop]
      simp [hno j hj']

/-! ## The final-answer extractor -/

theorem FindFinalAnswer_of_span (text : GoString) (i j : Nat) (h : FinalSpan text i j) :
    FindFinalAnswer text = TrimSpace (slice text (i + 6) j) := by
  have hij : i + 6 ≤ j := h.2.2.1
  have hspan : FinalSpan text i (i + 6 + (j - (i + 6))) := by
    rw [show i + 6 + (j - (i + 6)) = j by omega]
    exact h
  rw [FindFinalAnswer_eq, (firstBlock_final_iff text i (j - (i + 6))).mpr hspan]
  simp only
  rw [show i + 6 + (j - (i + 6)) = j by omega]

/-- C4: `FindFinalAnswer` matches the earliest `FINAL(` and ends the body at
the first `)`, without balancing parentheses: when `FINAL(` first occurs at
index `i` and the first `)` at or after index `i + 6` is at index `j`, the
result is the white-space-trimmed substring `text[i+6 .. j)`. -/
theorem FindFinalAnswer_first_marker (text : GoString) (i j : Nat)
    (hi : ascii "FINAL(" <+: text.drop i)
    (hfirst : ∀ i', i' < i → ¬ ascii "FINAL(" <+: text.drop i')
    (hij : i + 6 ≤ j) (hj : text[j]? = some (Char.toNat ')'))
    (hjfirst : ∀ j', i + 6 ≤ j' → j' < j → text[j']? ≠ some (Char.toNat ')')) :
    FindFinalAnswer text = TrimSpace (slice text (i + 6) j) :=
  FindFinalAnswer_of_span text i j ⟨hi, hfirst, hij, hj, hjfirst⟩

/-- C4, at the text `x FINAL( a (b) c)`: the marker is at index 2, the first
`)` at index 13, and the answer is `a (b`, the nested parenthesis unbalanced. -/
theorem FindFinalAnswer_first_marker_witness :
    FindFinalAnswer (ascii "x FINAL( a (b) c)") =
        TrimSpace (slice (ascii "x FINAL( a (b) c)") (2 + 6) 13) ∧
      TrimSpace (slice (ascii "x FINAL( a (b) c)") (2 + 6) 13) = ascii "a (b" :=
  ⟨FindFinalAnswer_first_marker (ascii "x FINAL( a (b) c)") 2 13 (by decide) (by decide)
    (by decide) (by decide) (by decide), by decide⟩

/-- C5 as stated fails: in the text `FINAL(` the marker occurs and the result
is empty, because no `)` follows. -/
theorem FindFinalAnswer_marker_unclosed :
    ¬ (FindFinalAnswer (ascii "FINAL(") ≠ [] ↔ ascii "FINAL(" <:+: ascii "FINAL(") := by
  decide

/-- C5, amended: `FindFinalAnswer` returns a non-empty result exactly when
`FINAL(` occurs, a `)` follows its first occurrence and the body between them
is not all white space; and whenever `FINAL(` occurs followed by a `)`, the
result is the trimmed body up to the first `)`. -/
theorem FindFinalAnswer_nonempty_iff (text : GoString) :
    (FindFinalAnswer text ≠ [] ↔
        ∃ i j, FinalSpan text i j ∧ TrimSpace (slice text (i + 6) j) ≠ []) ∧
      (∀ i j, FinalSpan text i j → FindFinalAnswer text = TrimSpace (slice text (i + 6) j)) := by
  have hval : ∀ i j, FinalSpan text i j →
      FindFinalAnswer text = TrimSpace (slice text (i + 6) j) :=
    FindFinalAnswer_of_span text
  refine ⟨⟨?_, ?_⟩, hval⟩
  · intro h
    rw [FindFinalAnswer_eq] at h
    cases hf : firstBlock (ascii "FINAL(") (ascii ")") text with
    | none => simp [hf] at h
    | some ik =>
      obtain ⟨i, k⟩ := ik
      simp only [hf] at h
      exact ⟨i, i + 6 + k, (firstBlock_final_iff text i k).mp hf, h⟩
  · rintro ⟨i, j, hspan, hne⟩
    rw [hval i j hspan]
    exact hne

/-- C5, amended, at the text `FINAL( 42 )`: the result is `42`. -/
theorem FindFinalAnswer_nonempty_iff_witness :
    FindFinalAnswer (ascii "FINAL( 42 )") = ascii "42" :=
  ((FindFinalAnswer_nonempty_iff (ascii "FINAL( 42 )")).2 0 10
    ⟨by decide, by decide, by decide, by decide, by decide⟩).trans (by decide)

/-! ## Truncation of the sandbox output -/

theorem feedbackStdout_eq (s : GoString) :
    feedbackStdout s =
      if s.length > 2000 then s.take 2000 ++ ascii "\n...[Output Truncated]..." else s := by
  simp [feedbackStdout, slice]

theorem feedbackStderr_eq (s : GoString) :
    feedbackStderr s =
      if s.length > 2000 then s.take 2000 ++ ascii "\n...[Error Truncated]..." else s := by
  simp [feedbackStderr, slice]

/-- C7 as stated fails for stderr: on a captured stderr of 2001 bytes `A`
the text fed back is the first 2000 bytes followed by the marker
`\n...[Error Truncated]...`, not by `\n...[Output Truncated]...`. -/
theorem feedbackStderr_marker_differs :
    feedbackStderr (List.replicate 2001 65) =
        (List.replicate 2001 65).take 2000 ++ ascii "\n...[Error Truncated]..." ∧
      feedbackStderr (List.replicate 2001 65) ≠
        (List.replicate 2001 65).take 2000 ++ ascii "\n...[Output Truncated]..." := by
  have h : feedbackStderr (List.replicate 2001 65) =
      (List.replicate 2001 65).take 2000 ++ ascii "\n...[Error Truncated]..." := by
    rw [feedbackStderr_eq, if_pos (by rw [List.length_replicate]; omega)]
  refine ⟨h, ?_⟩
  rw [h]
  intro hc
  exact absurd (List.append_cancel_left hc) (by decide)

/-- C7, amended: the feedback message for an executed block is a `user`
message whose stdout part is the captured stdout, cut to its first 2000 bytes
and followed by `\n...[Output Truncated]...` when it is longer, and whose
stderr part is the captured stderr, cut to its first 2000 bytes and followed
by `\n...[Error Truncated]...` when it is longer; each side depends on its own
capture only. -/
theorem execBlocks_feedback_message {ω ε δ : Type} (W : World ω ε δ) (code : GoString) (w : ω)
    (messages : List Message) :
    (execBlocks W [code] w messages).1 = messages ++
      [⟨ascii "user",
        ascii "REPL Output:\nStdout: " ++
          (if (W.executeCode code w).1.Stdout.length > 2000 then
            (W.executeCode code w).1.Stdout.take 2000 ++ ascii "\n...[Output Truncated]..."
          else (W.executeCode code w).1.Stdout) ++
          ascii "\nStderr: " ++
          (if (W.executeCode code w).1.Stderr.length > 2000 then
            (W.executeCode code w).1.Stderr.take 2000 ++ ascii "\n...[Error Truncated]..."
          else (W.executeCode code w).1.Stderr)⟩] := by
  simp only [execBlocks, feedback, feedbackStdout_eq, feedbackStderr_eq]

theorem runeCountLoop_le (fuel : Nat) : ∀ s : GoString, runeCountLoop fuel s ≤ fuel := by
  induction fuel with
  | zero => intro s; exact Nat.le_refl 0
  | succ fuel ih =>
    intro s
    cases s with
    | nil => exact Nat.zero_le _
    | cons b s =>
      have := ih (List.drop (DecodeRuneInString (b :: s)).2 (b :: s))
      simp only [runeCountLoop]
      omega

/-- A text has at most as many characters as bytes. -/
theorem RuneCountInString_le (s : GoString) : RuneCountInString s ≤ s.length :=
  runeCountLoop_le s.length s

/-- C8, amended: the text fed back for a captured output never exceeds
2000 + len("\n...[Output Truncated]...") = 2025 bytes, and so 2025
characters, on either side, and a capture of at most 2000 bytes is fed back
unchanged. -/
theorem feedback_length_bound (s : GoString) :
    (feedbackStdout s).length ≤ 2000 + (ascii "\n...[Output Truncated]...").length ∧
      (feedbackStderr s).length ≤ 2000 + (ascii "\n...[Output Truncated]...").length ∧
      2000 + (ascii "\n...[Output Truncated]...").length = 2025 ∧
      RuneCountInString (feedbackStdout s) ≤ 2025 ∧
      RuneCountInString (feedbackStderr s) ≤ 2025 ∧
      (s.length ≤ 2000 → feedbackStdout s = s ∧ feedbackStderr s = s) := by
  have h1 : (ascii "\n...[Output Truncated]...").length = 25 := rfl
  have h2 : (ascii "\n...[Error Truncated]...").length = 24 := rfl
  have hout : (feedbackStdout s).length ≤ 2025 := by
    rw [feedbackStdout_eq]
    split
    · simp only [List.length_append, List.length_take, h1]; omega
    · omega
  have herr : (feedbackStderr s).length ≤ 2025 := by
    rw [feedbackStderr_eq]
    split
    · simp only [List.length_append, List.length_take, h2]; omega
    · omega
  rw [h1]
  refine ⟨hout, herr, rfl, Nat.le_trans (RuneCountInString_le _) hout,
    Nat.le_trans (RuneCountInString_le _) herr, ?_⟩
  intro h
  rw [feedbackStdout_eq, feedbackStderr_eq]
  simp [Nat.not_lt.mpr h]

/-- C8, at the capture `hello`: it is fed back unchanged on both sides. -/
theorem feedback_length_bound_witness :
    feedbackStdout (ascii "hello") = ascii "hello" ∧
      feedbackStderr (ascii "hello") = ascii "hello" :=
  (feedback_length_bound (ascii "hello")).2.2.2.2.2 (by decide)

/-! ## Traces -/

theorem llmCalls_append {ε : Type} (a b : List (Event ε)) :
    llmCalls (a ++ b) = llmCalls a ++ llmCalls b := by
  induction a with
  | nil => rfl
  | cons e a ih => cases e <;> simp [llmCalls, ih]

theorem llmReplies_append {ε : Type} (a b : List (Event ε)) :
    llmReplies (a ++ b) = llmReplies a ++ llmReplies b := by
  induction a with
  | nil => rfl
  | cons e a ih =>
    cases e with
    | clientCompletion m reply => cases reply <;> simp [llmReplies, ih]
    | _ => simp [llmReplies, ih]

theorem executed_append {ε : Type} (a b : List (Event ε)) :
    executed (a ++ b) = executed a ++ executed b := by
  induction a with
  | nil => rfl
  | cons e a ih => cases e <;> simp [executed, ih]

theorem execBlocks_llmCalls {ω ε δ : Type} (W : World ω ε δ) (codes : List GoString) :
    ∀ (w : ω) (messages : List Message), llmCalls (execBlocks W codes w messages).2.2 = [] := by
  induction codes with
  | nil => intro w messages; rfl
  | cons c codes ih => intro w messages; simp [execBlocks, llmCalls, ih]

theorem execBlocks_llmReplies {ω ε δ : Type} (W : World ω ε δ) (codes : List GoString) :
    ∀ (w : ω) (messages : List Message), llmReplies (execBlocks W codes w messages).2.2 = [] := by
  induction codes with
  | nil => intro w messages; rfl
  | cons c codes ih => intro w messages; simp [execBlocks, llmReplies, ih]

theorem execBlocks_executed {ω ε δ : Type} (W : World ω ε δ) (codes : List GoString) :
    ∀ (w : ω) (messages : List Message), executed (execBlocks W codes w messages).2.2 = codes := by
  induction codes with
  | nil => intro w messages; rfl
  | cons c codes ih => intro w messages; simp [execBlocks, executed, ih]

/-- The calls of the inner loop: one sandbox execution per block, in order. -/
theorem execBlocks_events {ω ε δ : Type} (W : World ω ε δ) (codes : List GoString) :
    ∀ (w : ω) (messages : List Message),
      ∃ results : List REPLResult, results.length = codes.length ∧
        (execBlocks W codes w messages).2.2 = List.zipWith Event.executeCode codes results := by
  induction codes with
  | nil => intro w messages; exact ⟨[], rfl, rfl⟩
  | cons c codes ih =>
    intro w messages
    obtain ⟨results, h1, h2⟩ := ih (W.executeCode c w).2
      (messages ++ [⟨ascii "user", feedback (W.executeCode c w).1⟩])
    exact ⟨(W.executeCode c w).1 :: results, by simp [h1], by simp [execBlocks, h2]⟩

/-- The messages after the inner loop: one `user` message more per block. -/
theorem execBlocks_messages {ω ε δ : Type} (W : World ω ε δ) (codes : List GoString) :
    ∀ (w : ω) (messages : List Message),
      ∃ fb : List Message, (execBlocks W codes w messages).1 = messages ++ fb ∧
        fb.length = codes.length ∧ ∀ m ∈ fb, m.Role = ascii "user" := by
  induction codes with
  | nil => intro w messages; exact ⟨[], by simp [execBlocks]⟩
  | cons c codes ih =>
    intro w messages
    obtain ⟨fb, h1, h2, h3⟩ := ih (W.executeCode c w).2
      (messages ++ [⟨ascii "user", feedback (W.executeCode c w).1⟩])
    refine ⟨⟨ascii "user", feedback (W.executeCode c w).1⟩ :: fb, ?_, by simp [h2], ?_⟩
    · simp only [execBlocks, h1, List.append_assoc, List.singleton_append]
    · intro m hm
      rcases List.mem_cons.mp hm with rfl | hm
      · rfl
      · exact h3 m hm

/-! ## The main loop, case by case -/

theorem mainLoop_cancelled {ω ε δ : Type} (W : World ω ε δ) (r : RLM) (prompt : GoString)
    (fuel i : Nat) (w : ω) (messages : List Message) (err : ε) (hctx : W.ctxErr w = some err) :
    mainLoop W r prompt (fuel + 1) i w messages = { result := .error err, world := w, trace := [] } := by
  simp only [mainLoop, hctx]

theorem mainLoop_client_error {ω ε δ : Type} (W : World ω ε δ) (r : RLM) (prompt : GoString)
    (fuel i : Nat) (w w1 : ω) (messages : List Message) (err : ε) (hctx : W.ctxErr w = none)
    (hllm : W.clientCompletion messages w = (.error err, w1)) :
    mainLoop W r prompt (fuel + 1) i w messages =
      { result := .error err, world := w1
        trace := [Event.clientCompletion messages (.error err), Event.errorsInc] } := by
  simp only [mainLoop, hctx, hllm]

theorem mainLoop_final {ω ε δ : Type} (W : World ω ε δ) (r : RLM) (prompt : GoString)
    (fuel i : Nat) (w w1 : ω) (messages : List Message) (resp : GoString)
    (hctx : W.ctxErr w = none) (hllm : W.clientCompletion messages w = (.ok resp, w1))
    (hfinal : FindFinalAnswer resp ≠ []) :
    mainLoop W r prompt (fuel + 1) i w messages =
      { result := .ok (completionResult W prompt (FindFinalAnswer resp)
          (execBlocks W (FindCodeBlocks resp) w1 (messages ++ [⟨ascii "assistant", resp⟩])).2.1)
        world := (execBlocks W (FindCodeBlocks resp) w1
          (messages ++ [⟨ascii "assistant", resp⟩])).2.1
        trace := Event.clientCompletion messages (.ok resp) ::
          (execBlocks W (FindCodeBlocks resp) w1 (messages ++ [⟨ascii "assistant", resp⟩])).2.2 ++
          [Event.observeIterations ((i : Int) + 1),
            Event.modelName (W.modelName (execBlocks W (FindCodeBlocks resp) w1
              (messages ++ [⟨ascii "assistant", resp⟩])).2.1),
            Event.getUsageSummary (W.getUsageSummary (execBlocks W (FindCodeBlocks resp) w1
              (messages ++ [⟨ascii "assistant", resp⟩])).2.1)] } := by
  simp only [mainLoop, hctx, hllm, hfinal, ne_eq, not_false_eq_true, if_true]

theorem mainLoop_continue {ω ε δ : Type} (W : World ω ε δ) (r : RLM) (prompt : GoString)
    (fuel i : Nat) (w w1 : ω) (messages : List Message) (resp : GoString)
    (hctx : W.ctxErr w = none) (hllm : W.clientCompletion messages w = (.ok resp, w1))
    (hfinal : FindFinalAnswer resp = []) :
    mainLoop W r prompt (fuel + 1) i w messages =
      { mainLoop W r prompt fuel (i + 1)
          (execBlocks W (FindCodeBlocks resp) w1 (messages ++ [⟨ascii "assistant", resp⟩])).2.1
          (if (FindCodeBlocks resp).length = 0 then
            (execBlocks W (FindCodeBlocks resp) w1 (messages ++ [⟨ascii "assistant", resp⟩])).1 ++
              [⟨ascii "user", ascii "Please continue or provide a FINAL(answer)."⟩]
          else
            (execBlocks W (FindCodeBlocks resp) w1 (messages ++ [⟨ascii "assistant", resp⟩])).1)
        with
        trace := Event.clientCompletion messages (.ok resp) ::
          (execBlocks W (FindCodeBlocks resp) w1 (messages ++ [⟨ascii "assistant", resp⟩])).2.2 ++
          (mainLoop W r prompt fuel (i + 1)
            (execBlocks W (FindCodeBlocks resp) w1 (messages ++ [⟨ascii "assistant", resp⟩])).2.1
            (if (FindCodeBlocks resp).length = 0 then
              (execBlocks W (FindCodeBlocks resp) w1 (messages ++ [⟨ascii "assistant", resp⟩])).1 ++
                [⟨ascii "user", ascii "Please continue or provide a FINAL(answer)."⟩]
            else
              (execBlocks W (FindCodeBlocks resp) w1
                (messages ++ [⟨ascii "assistant", resp⟩])).1)).trace } := by
  simp only [mainLoop, hctx, hllm, hfinal, ne_eq, not_true_eq_false, if_false]

theorem mainLoop_continue_shape {ω ε δ : Type} (W : World ω ε δ) (r : RLM) (prompt : GoString)
    (fuel i : Nat) (w w1 : ω) (messages : List Message) (resp : GoString)
    (hctx : W.ctxErr w = none) (hllm : W.clientCompletion messages w = (.ok resp, w1))
    (hfinal : FindFinalAnswer resp = []) :
    ∃ (w2 : ω) (messages2 : List Message) (evs : List (Event ε)),
      llmCalls evs = [] ∧ llmReplies evs = [] ∧ executed evs = FindCodeBlocks resp ∧
      (mainLoop W r prompt (fuel + 1) i w messages).result =
        (mainLoop W r prompt fuel (i + 1) w2 messages2).result ∧
      (mainLoop W r prompt (fuel + 1) i w messages).trace =
        Event.clientCompletion messages (.ok resp) :: (evs ++
          (mainLoop W r prompt fuel (i + 1) w2 messages2).trace) ∧
      ∃ us : List Message, messages2 = messages ++ [⟨ascii "assistant", resp⟩] ++ us ∧
        us ≠ [] ∧ ∀ m ∈ us, m.Role = ascii "user" := by
  rw [mainLoop_continue W r prompt fuel i w w1 messages resp hctx hllm hfinal]
  refine ⟨_, _, _, execBlocks_llmCalls W _ _ _, execBlocks_llmReplies W _ _ _,
    execBlocks_executed W _ _ _, rfl, rfl, ?_⟩
  obtain ⟨fb, h1, h2, h3⟩ := execBlocks_messages W (FindCodeBlocks resp) w1
    (messages ++ [⟨ascii "assistant", resp⟩])
  by_cases hz : (FindCodeBlocks resp).length = 0
  · refine ⟨fb ++ [⟨ascii "user", ascii "Please continue or provide a FINAL(answer)."⟩], ?_,
      by simp, ?_⟩
    · simp only [hz, if_true, h1, List.append_assoc]
    · intro m hm
      rcases List.mem_append.mp hm with hm | hm
      · exact h3 m hm
      · rw [List.mem_singleton.mp hm]
  · refine ⟨fb, ?_, ?_, h3⟩
    · simp only [hz, if_false, h1]
    · intro hnil
      rw [hnil] at h2
      exact hz h2.symm

theorem mainLoop_final_shape {ω ε δ : Type} (W : World ω ε δ) (r : RLM) (prompt : GoString)
    (fuel i : Nat) (w w1 : ω) (messages : List Message) (resp : GoString)
    (hctx : W.ctxErr w = none) (hllm : W.clientCompletion messages w = (.ok resp, w1))
    (hfinal : FindFinalAnswer resp ≠ []) :
    ∃ (w2 : ω) (evs : List (Event ε)),
      llmCalls evs = [] ∧ llmReplies evs = [] ∧ executed evs = FindCodeBlocks resp ∧
      (mainLoop W r prompt (fuel + 1) i w messages).result =
        .ok (completionResult W prompt (FindFinalAnswer resp) w2) ∧
      (mainLoop W r prompt (fuel + 1) i w messages).trace =
        Event.clientCompletion messages (.ok resp) :: (evs ++
          [Event.observeIterations ((i : Int) + 1), Event.modelName (W.modelName w2),
            Event.getUsageSummary (W.getUsageSummary w2)]) ∧
      ∃ results : List REPLResult, results.length = (FindCodeBlocks resp).length ∧
        evs = List.zipWith Event.executeCode (FindCodeBlocks resp) results := by
  rw [mainLoop_final W r prompt fuel i w w1 messages resp hctx hllm hfinal]
  exact ⟨_, _, execBlocks_llmCalls W _ _ _, execBlocks_llmReplies W _ _ _,
    execBlocks_executed W _ _ _, rfl, rfl, execBlocks_events W _ _ _⟩

/-- Without cancellation and client errors, a run of the main loop ends
either on the first reply that carries a final answer, or after `fuel`
replies that carry none. -/
theorem mainLoop_run {ω ε δ : Type} (W : World ω ε δ) (r : RLM) (prompt : GoString)
    (hctx : ∀ w, W.ctxErr w = none)
    (hllm : ∀ msgs w, ∃ resp, (W.clientCompletion msgs w).1 = .ok resp) :
    ∀ (fuel i : Nat) (w : ω) (messages : List Message),
      (llmCalls (mainLoop W r prompt fuel i w messages).trace).length =
          (llmReplies (mainLoop W r prompt fuel i w messages).trace).length ∧
        ((∃ init last w', llmReplies (mainLoop W r prompt fuel i w messages).trace = init ++ [last] ∧
            init.length < fuel ∧ FindFinalAnswer last ≠ [] ∧
            (∀ x ∈ init, FindFinalAnswer x = []) ∧
            (mainLoop W r prompt fuel i w messages).result =
              .ok (completionResult W prompt (FindFinalAnswer last) w') ∧
            Event.modelName (W.modelName w') ∈ (mainLoop W r prompt fuel i w messages).trace) ∨
          ((llmReplies (mainLoop W r prompt fuel i w messages).trace).length = fuel ∧
            (∀ x ∈ llmReplies (mainLoop W r prompt fuel i w messages).trace,
              FindFinalAnswer x = []) ∧
            ∃ w', (mainLoop W r prompt fuel i w messages).result =
                .ok (completionResult W prompt
                  (ascii "Maximum iterations reached without final answer.") w') ∧
              Event.modelName (W.modelName w') ∈
                (mainLoop W r prompt fuel i w messages).trace)) := by
  intro fuel
  induction fuel with
  | zero =>
    intro i w messages
    refine ⟨by simp [mainLoop, llmCalls, llmReplies], Or.inr ⟨by simp [mainLoop, llmReplies], ?_, w, ?_⟩⟩
    · simp [mainLoop, llmReplies]
    · simp [mainLoop]
  | succ fuel ih =>
    intro i w messages
    obtain ⟨resp, hresp⟩ := hllm messages w
    have hpair : W.clientCompletion messages w = (.ok resp, (W.clientCompletion messages w).2) :=
      Prod.ext hresp rfl
    by_cases hfin : FindFinalAnswer resp = []
    · obtain ⟨w2, messages2, evs, e1, e2, -, hres, htr, -⟩ :=
        mainLoop_continue_shape W r prompt fuel i w _ messages resp (hctx w) hpair hfin
      obtain ⟨hlen, hcase⟩ := ih (i + 1) w2 messages2
      rw [hres, htr]
      simp only [llmCalls, llmReplies, llmCalls_append, llmReplies_append, e1, e2,
        List.nil_append, List.length_cons]
      refine ⟨by rw [hlen], ?_⟩
      rcases hcase with ⟨init, last, w', h1, h2, h3, h4, h5, h6⟩ | ⟨h1, h2, w', h3, h4⟩
      · refine Or.inl ⟨resp :: init, last, w', by rw [h1]; rfl, by simpa using h2, h3, ?_, h5, ?_⟩
        · intro x hx
          rcases List.mem_cons.mp hx with rfl | hx
          · exact hfin
          · exact h4 x hx
        · exact List.mem_cons_of_mem _ (List.mem_append_right _ h6)
      · refine Or.inr ⟨by rw [h1], ?_, w', h3, ?_⟩
        · intro x hx
          rcases List.mem_cons.mp hx with rfl | hx
          · exact hfin
          · exact h2 x hx
        · exact List.mem_cons_of_mem _ (List.mem_append_right _ h4)
    · obtain ⟨w2, evs, e1, e2, -, hres, htr, -⟩ :=
        mainLoop_final_shape W r prompt fuel i w _ messages resp (hctx w) hpair hfin
      rw [hres, htr]
      simp only [llmCalls, llmReplies, llmCalls_append, llmReplies_append, e1, e2,
        List.nil_append, List.length_cons, List.length_nil]
      refine ⟨trivial, Or.inl ⟨[], resp, w2, rfl, by simp, hfin, by simp, rfl, ?_⟩⟩
      simp

/-! ## `Completion` around the main loop -/

/-- After a successful setup, `Completion` returns what the main loop returns,
started on the two initial messages; setup and the deferred calls make no
LLM invocation. -/
theorem Completion_of_setup {ω ε δ : Type} (W : World ω ε δ) (r : RLM) (prompt : GoString)
    (contextData : Option δ) (w0 : ω) (hsetup : SetupSucceeds W prompt contextData w0) :
    ∃ (w3 : ω) (sys : GoString) (pre : List (Event ε)),
      llmCalls pre = [] ∧ llmReplies pre = [] ∧
      (Completion W r prompt contextData w0).result =
        (mainLoop W r prompt r.maxIterations.toNat 0 w3
          [⟨ascii "system", sys⟩, ⟨ascii "user", ascii "Query: " ++ prompt⟩]).result ∧
      (Completion W r prompt contextData w0).trace =
        pre ++ (mainLoop W r prompt r.maxIterations.toNat 0 w3
          [⟨ascii "system", sys⟩, ⟨ascii "user", ascii "Query: " ++ prompt⟩]).trace ++
          [Event.cleanup, Event.handlerStop, Event.observeDuration] := by
  obtain ⟨addr, w1, w2, jsonStr, h1, h2, h3⟩ := hsetup
  simp only [Completion, h1, h2, h3]
  exact ⟨_, _, [Event.handlerStart, Event.newPythonREPL addr, Event.executeCode _ _],
    rfl, rfl, rfl, rfl⟩

theorem llmCalls_deferred {ε : Type} :
    llmCalls ([Event.cleanup, Event.handlerStop, Event.observeDuration] : List (Event ε)) = [] :=
  rfl

theorem llmReplies_deferred {ε : Type} :
    llmReplies ([Event.cleanup, Event.handlerStop, Event.observeDuration] : List (Event ε)) = [] :=
  rfl

theorem Completion_llm_of_setup {ω ε δ : Type} (W : World ω ε δ) (r : RLM) (prompt : GoString)
    (contextData : Option δ) (w0 : ω) (hsetup : SetupSucceeds W prompt contextData w0) :
    ∃ (w3 : ω) (messages : List Message),
      (Completion W r prompt contextData w0).result =
        (mainLoop W r prompt r.maxIterations.toNat 0 w3 messages).result ∧
      llmCalls (Completion W r prompt contextData w0).trace =
        llmCalls (mainLoop W r prompt r.maxIterations.toNat 0 w3 messages).trace ∧
      llmReplies (Completion W r prompt contextData w0).trace =
        llmReplies (mainLoop W r prompt r.maxIterations.toNat 0 w3 messages).trace ∧
      ∀ e, e ∈ (mainLoop W r prompt r.maxIterations.toNat 0 w3 messages).trace →
        e ∈ (Completion W r prompt contextData w0).trace := by
  obtain ⟨w3, sys, pre, p1, p2, hres, htr⟩ := Completion_of_setup W r prompt contextData w0 hsetup
  refine ⟨w3, _, hres, ?_, ?_, ?_⟩
  · rw [htr, llmCalls_append, llmCalls_append, p1, llmCalls_deferred]; simp
  · rw [htr, llmReplies_append, llmReplies_append, p2, llmReplies_deferred]; simp
  · intro e he
    rw [htr]
    exact List.mem_append_left _ (List.mem_append_right _ he)

/-! ## The driver: final answer and budget exhaustion -/

theorem mockWorld_replies (responses : List GoString) (msgs : List Message) (w : Nat) :
    ∃ resp, ((mockWorld responses).clientCompletion msgs w).1 = .ok resp := by
  simp only [mockWorld]
  split
  · exact ⟨_, rfl⟩
  · exact ⟨_, rfl⟩

/-- C1: with setup succeeding, no cancellation and every LLM call succeeding,
if the `k`-th model reply of the run (`k ≥ 1`) has a non-empty
`FindFinalAnswer`, then it is the first such reply, `k ≤ maxIterations`, and
`Completion` returns no error and a result whose `Response` is `FindFinalAnswer` of that
reply, whose `Prompt` is the caller's prompt and whose `RootModel` is what
`client.ModelName()` returned, after exactly `k` invocations of the client. -/
theorem Completion_returns_first_final_answer {ω ε δ : Type} (W : World ω ε δ) (r : RLM)
    (prompt : GoString) (contextData : Option δ) (w0 : ω)
    (hsetup : SetupSucceeds W prompt contextData w0)
    (hctx : ∀ w, W.ctxErr w = none)
    (hllm : ∀ msgs w, ∃ resp, (W.clientCompletion msgs w).1 = .ok resp)
    (k : Nat) (reply : GoString) (hk : 1 ≤ k)
    (hreply : (llmReplies (Completion W r prompt contextData w0).trace)[k - 1]? = some reply)
    (hfinal : FindFinalAnswer reply ≠ []) :
    (k : Int) ≤ r.maxIterations ∧
      (∀ x ∈ (llmReplies (Completion W r prompt contextData w0).trace).take (k - 1),
        FindFinalAnswer x = []) ∧
      ∃ res, (Completion W r prompt contextData w0).result = .ok res ∧
        res.Response = FindFinalAnswer reply ∧ res.Prompt = prompt ∧
        Event.modelName res.RootModel ∈ (Completion W r prompt contextData w0).trace ∧
        (llmCalls (Completion W r prompt contextData w0).trace).length = k := by
  obtain ⟨w3, messages, hres, hcalls, hreps, hmem⟩ :=
    Completion_llm_of_setup W r prompt contextData w0 hsetup
  obtain ⟨hlen, hcase⟩ := mainLoop_run W r prompt hctx hllm r.maxIterations.toNat 0 w3 messages
  rw [hreps] at hreply ⊢
  rw [hres, hcalls, hlen]
  rcases hcase with ⟨init, last, w', h1, h2, h3, h4, h5, h6⟩ | ⟨h1, h2, w', h3, h4⟩
  · rw [h1] at hreply ⊢
    by_cases hlt : k - 1 < init.length
    · rw [List.getElem?_append_left hlt] at hreply
      exact absurd (h4 reply (List.getElem?_mem hreply)) hfinal
    · have hge : init.length ≤ k - 1 := Nat.le_of_not_lt hlt
      rw [List.getElem?_append_right hge] at hreply
      have hidx : k - 1 - init.length = 0 := by
        by_contra hne
        rw [List.getElem?_eq_none (by simp; omega)] at hreply
        exact absurd hreply (by simp)
      rw [hidx] at hreply
      simp only [List.getElem?_cons_zero, Option.some.injEq] at hreply
      subst hreply
      have hk' : k - 1 = init.length := by omega
      refine ⟨by omega, ?_, _, h5, rfl, rfl, hmem _ h6, ?_⟩
      · intro x hx
        rw [hk', List.take_left' rfl] at hx
        exact h4 x hx
      · simp only [List.length_append, List.length_singleton]
        omega
  · exact absurd (h2 reply (List.getElem?_mem hreply)) hfinal

/-- C1, on the test case `One iteration with REPL` of `rlm_test.go`: the
second reply is `FINAL(hello)`, the result is `hello` after two invocations of
the client. -/
theorem Completion_returns_first_final_answer_witness :
    ∃ res, (Completion (mockWorld testReplies) ⟨5, []⟩ (ascii "Print hello") none 0).result =
        .ok res ∧
      res.Response = ascii "hello" ∧ res.Prompt = ascii "Print hello" ∧
      (llmCalls (Completion (mockWorld testReplies) ⟨5, []⟩ (ascii "Print hello")
        none 0).trace).length = 2 := by
  obtain ⟨-, -, res, h1, h2, h3, -, h5⟩ :=
    Completion_returns_first_final_answer (mockWorld testReplies) ⟨5, []⟩ (ascii "Print hello")
      none 0 ⟨_, 0, 0, _, rfl, rfl, rfl⟩ (fun _ => rfl) (mockWorld_replies testReplies) 2
      (ascii "FINAL(hello)")
      (by decide) (by decide) (by decide)
  exact ⟨res, h1, h2.trans (by decide), h3, h5⟩

/-- C2: with setup succeeding, no cancellation and every LLM call succeeding,
if no model reply of the run yields a non-empty `FindFinalAnswer`, then
`Completion` returns no error and a result whose `Response` is the string
`Maximum iterations reached without final answer.`, after exactly
`max(maxIterations, 0)` invocations of the client. -/
theorem Completion_budget_exhausted {ω ε δ : Type} (W : World ω ε δ) (r : RLM)
    (prompt : GoString) (contextData : Option δ) (w0 : ω)
    (hsetup : SetupSucceeds W prompt contextData w0)
    (hctx : ∀ w, W.ctxErr w = none)
    (hllm : ∀ msgs w, ∃ resp, (W.clientCompletion msgs w).1 = .ok resp)
    (hnone : ∀ x ∈ llmReplies (Completion W r prompt contextData w0).trace,
      FindFinalAnswer x = []) :
    ∃ res, (Completion W r prompt contextData w0).result = .ok res ∧
      res.Response = ascii "Maximum iterations reached without final answer." ∧
      res.Prompt = prompt ∧
      ((llmCalls (Completion W r prompt contextData w0).trace).length : Int) =
        max r.maxIterations 0 ∧
      (llmReplies (Completion W r prompt contextData w0).trace).length =
        (llmCalls (Completion W r prompt contextData w0).trace).length := by
  obtain ⟨w3, messages, hres, hcalls, hreps, -⟩ :=
    Completion_llm_of_setup W r prompt contextData w0 hsetup
  obtain ⟨hlen, hcase⟩ := mainLoop_run W r prompt hctx hllm r.maxIterations.toNat 0 w3 messages
  rw [hreps] at hnone
  rw [hres, hcalls, hreps, hlen]
  rcases hcase with ⟨init, last, w', h1, h2, h3, h4, h5, h6⟩ | ⟨h1, h2, w', h3, h4⟩
  · exact absurd (hnone last (by rw [h1]; simp)) h3
  · refine ⟨_, h3, rfl, rfl, ?_, rfl⟩
    rw [h1]
    omega

/-- C2, on the test case `Max iterations reached` of `rlm_test.go`: with
`maxIterations = 2` and replies without a final answer, the client is invoked
twice. -/
theorem Completion_budget_exhausted_witness :
    ∃ res, (Completion (mockWorld testThinking) ⟨2, []⟩ (ascii "Loop forever") none 0).result =
        .ok res ∧
      res.Response = ascii "Maximum iterations reached without final answer." ∧
      (llmCalls (Completion (mockWorld testThinking) ⟨2, []⟩ (ascii "Loop forever")
        none 0).trace).length = 2 := by
  obtain ⟨res, h1, h2, -, h4, -⟩ :=
    Completion_budget_exhausted (mockWorld testThinking) ⟨2, []⟩ (ascii "Loop forever")
      none 0 ⟨_, 0, 0, _, rfl, rfl, rfl⟩ (fun _ => rfl) (mockWorld_replies testThinking)
      (by decide)
  simp only [show max (2 : Int) 0 = 2 from rfl] at h4
  exact ⟨res, h1, h2, by omega⟩

/-! ## The conversation -/

theorem validConversation_initial (prompt sys : GoString) :
    ValidConversation prompt
      [⟨ascii "system", sys⟩, ⟨ascii "user", ascii "Query: " ++ prompt⟩] := by
  refine ⟨sys, [], rfl, by simp, ?_, rfl⟩
  simp only [List.chain'_cons, List.chain'_singleton, and_true]
  intro h
  exact absurd h.1 (by decide)

theorem validConversation_extend (prompt : GoString) (msgs us : List Message) (resp : GoString)
    (hv : ValidConversation prompt msgs) (hne : us ≠ [])
    (hus : ∀ m ∈ us, m.Role = ascii "user") :
    ValidConversation prompt (msgs ++ [⟨ascii "assistant", resp⟩] ++ us) := by
  obtain ⟨sys, rest, h1, h2, h3, h4⟩ := hv
  have hua : ascii "user" ≠ ascii "assistant" := by decide
  have hus' : ascii "user" ≠ ascii "system" := by decide
  have has : ascii "assistant" ≠ ascii "system" := by decide
  refine ⟨sys, rest ++ [⟨ascii "assistant", resp⟩] ++ us, by simp [h1], ?_, ?_, ?_⟩
  · intro m hm
    rcases List.mem_append.mp hm with hm | hm
    · rcases List.mem_append.mp hm with hm | hm
      · exact h2 m hm
      · rw [List.mem_singleton.mp hm]; exact has
    · rw [hus m hm]; exact hus'
  · have hchain : List.Chain'
        (fun a b : Message => ¬ (a.Role = ascii "assistant" ∧ b.Role = ascii "assistant")) us := by
      clear hne
      induction us with
      | nil => exact List.chain'_nil
      | cons u us ih =>
        refine (ih (fun m hm => hus m (List.mem_cons_of_mem _ hm))).cons' ?_
        intro y _ hc
        rw [hus u (List.mem_cons_self _ _)] at hc
        exact hua hc.1
    refine List.Chain'.append (List.Chain'.append h3 (List.chain'_singleton _) ?_) hchain ?_
    · intro x hx y _ hc
      have : (msgs.getLast?.map Message.Role) = some x.Role := by
        rw [Option.mem_def.mp hx]; rfl
      rw [h4] at this
      rw [← Option.some.inj this] at hc
      exact hua hc.1
    · intro x _ y hy hc
      have hyu : y ∈ us := List.mem_of_mem_head? hy
      rw [hus y hyu] at hc
      exact hua hc.2
  · rw [List.getLast?_append_of_ne_nil _ hne]
    cases hl : us.getLast? with
    | none => exact absurd (List.getLast?_eq_none_iff.mp hl) hne
    | some u =>
      have : u ∈ us := List.mem_of_mem_getLast? hl
      simp [hus u this]

/-- Every LLM invocation of the main loop, started on a valid conversation,
is made on a valid conversation that extends the starting one, and each later
invocation extends the earlier ones. -/
theorem mainLoop_conversation {ω ε δ : Type} (W : World ω ε δ) (r : RLM) (prompt : GoString) :
    ∀ (fuel i : Nat) (w : ω) (messages : List Message), ValidConversation prompt messages →
      (∀ m ∈ llmCalls (mainLoop W r prompt fuel i w messages).trace,
        messages <+: m ∧ ValidConversation prompt m) ∧
      List.Pairwise (· <+: ·) (llmCalls (mainLoop W r prompt fuel i w messages).trace) := by
  intro fuel
  induction fuel with
  | zero =>
    intro i w messages _
    simp [mainLoop, llmCalls]
  | succ fuel ih =>
    intro i w messages hv
    cases hctx : W.ctxErr w with
    | some err =>
      rw [mainLoop_cancelled W r prompt fuel i w messages err hctx]
      simp [llmCalls]
    | none =>
      rcases hllm : W.clientCompletion messages w with ⟨reply, w1⟩
      cases reply with
      | error err =>
        rw [mainLoop_client_error W r prompt fuel i w w1 messages err hctx hllm]
        simp [llmCalls, hv]
      | ok resp =>
        by_cases hfin : FindFinalAnswer resp = []
        · obtain ⟨w2, messages2, evs, e1, -, -, -, htr, us, hm2, hne, hus⟩ :=
            mainLoop_continue_shape W r prompt fuel i w w1 messages resp hctx hllm hfin
          have hv2 : ValidConversation prompt messages2 := by
            rw [hm2]; exact validConversation_extend prompt messages us resp hv hne hus
          have hpre : messages <+: messages2 := by
            rw [hm2, List.append_assoc]; exact List.prefix_append _ _
          obtain ⟨ih1, ih2⟩ := ih (i + 1) w2 messages2 hv2
          rw [htr]
          simp only [llmCalls, llmCalls_append, e1, List.nil_append]
          refine ⟨?_, List.Pairwise.cons ?_ ih2⟩
          · intro m hm
            rcases List.mem_cons.mp hm with rfl | hm
            · exact ⟨List.prefix_refl _, hv⟩
            · exact ⟨hpre.trans (ih1 m hm).1, (ih1 m hm).2⟩
          · intro m hm
            exact hpre.trans (ih1 m hm).1
        · obtain ⟨w2, evs, e1, -, -, -, htr, -⟩ :=
            mainLoop_final_shape W r prompt fuel i w w1 messages resp hctx hllm hfin
          rw [htr]
          simp [llmCalls, llmCalls_append, e1, hv]

/-- `Completion` either makes no LLM invocation (setup failed), or runs the
main loop on the two initial messages between setup and the deferred calls. -/
theorem Completion_cases {ω ε δ : Type} (W : World ω ε δ) (r : RLM) (prompt : GoString)
    (contextData : Option δ) (w0 : ω) :
    llmCalls (Completion W r prompt contextData w0).trace = [] ∨
      ∃ (w3 : ω) (sys : GoString) (pre : List (Event ε)),
        llmCalls pre = [] ∧ llmReplies pre = [] ∧
        (Completion W r prompt contextData w0).result =
          (mainLoop W r prompt r.maxIterations.toNat 0 w3
            [⟨ascii "system", sys⟩, ⟨ascii "user", ascii "Query: " ++ prompt⟩]).result ∧
        (Completion W r prompt contextData w0).trace =
          pre ++ (mainLoop W r prompt r.maxIterations.toNat 0 w3
            [⟨ascii "system", sys⟩, ⟨ascii "user", ascii "Query: " ++ prompt⟩]).trace ++
            [Event.cleanup, Event.handlerStop, Event.observeDuration] := by
  rcases h1 : W.handlerStart w0 with ⟨started, w1⟩
  cases started with
  | error err => left; simp [Completion, h1, llmCalls]
  | ok addr =>
    rcases h2 : W.newPythonREPL addr w1 with ⟨failed, w2⟩
    cases failed with
    | some err => left; simp [Completion, h1, h2, llmCalls]
    | none =>
      cases h3 : marshalTarget W prompt contextData with
      | error err => left; simp [Completion, h1, h2, h3, llmCalls]
      | ok jsonStr =>
        right
        exact Completion_of_setup W r prompt contextData w0 ⟨addr, w1, w2, jsonStr, h1, h2, h3⟩

/-- C10: at every LLM invocation made by `Completion` the message list starts
with one `system` message followed by the `user` message `Query: ` + prompt,
contains no other `system` message, never has two consecutive `assistant`
messages and ends with a `user` message; each later invocation's list extends
every earlier one as a prefix. -/
theorem Completion_conversation {ω ε δ : Type} (W : World ω ε δ) (r : RLM) (prompt : GoString)
    (contextData : Option δ) (w0 : ω) :
    (∀ m ∈ llmCalls (Completion W r prompt contextData w0).trace, ValidConversation prompt m) ∧
      List.Pairwise (· <+: ·) (llmCalls (Completion W r prompt contextData w0).trace) := by
  rcases Completion_cases W r prompt contextData w0 with h | ⟨w3, sys, pre, p1, -, -, htr⟩
  · rw [h]; simp
  · obtain ⟨h1, h2⟩ := mainLoop_conversation W r prompt r.maxIterations.toNat 0 w3 _
      (validConversation_initial prompt sys)
    rw [htr, llmCalls_append, llmCalls_append, p1, llmCalls_deferred, List.nil_append,
      List.append_nil]
    exact ⟨fun m hm => (h1 m hm).2, h2⟩

/-! ## Code blocks before the final-answer check -/

theorem llmCalls_ne_nil_of_mem {ε : Type} (tr : List (Event ε)) (msgs : List Message)
    (reply : Except ε GoString) (h : Event.clientCompletion msgs reply ∈ tr) :
    llmCalls tr ≠ [] := by
  obtain ⟨a, b, rfl⟩ := List.append_of_mem h
  rw [llmCalls_append]
  simp [llmCalls]

/-- An LLM invocation of `evs ++ rest` lies in `rest` when `evs` has none. -/
theorem split_at_llm {ε : Type} (pre post evs rest : List (Event ε)) (msgs : List Message)
    (reply : Except ε GoString)
    (h : pre ++ Event.clientCompletion msgs reply :: post = evs ++ rest)
    (hevs : llmCalls evs = []) :
    ∃ pre', pre = evs ++ pre' ∧ rest = pre' ++ Event.clientCompletion msgs reply :: post := by
  rcases List.append_eq_append_iff.mp h with ⟨a, h1, h2⟩ | ⟨c, h1, h2⟩
  · cases a with
    | nil => exact ⟨[], by simpa using h1.symm, by simpa using h2.symm⟩
    | cons x a =>
      simp only [List.cons_append, List.cons.injEq] at h2
      exfalso
      apply llmCalls_ne_nil_of_mem evs msgs reply _ hevs
      rw [h1, h2.1]
      simp
  · exact ⟨c, h1, h2⟩

/-- In a run of the main loop, a reply that carries a final answer is followed
by the execution of its code blocks, in order, and then by the return of that
answer. -/
theorem mainLoop_blocks_then_final {ω ε δ : Type} (W : World ω ε δ) (r : RLM)
    (prompt : GoString) :
    ∀ (fuel i : Nat) (w : ω) (messages : List Message) (pre post : List (Event ε))
      (msgs : List Message) (resp : GoString),
      (mainLoop W r prompt fuel i w messages).trace =
        pre ++ Event.clientCompletion msgs (.ok resp) :: post →
      FindFinalAnswer resp ≠ [] →
      ∃ (results : List REPLResult) (n : Int) (w' : ω),
        results.length = (FindCodeBlocks resp).length ∧
        post = List.zipWith Event.executeCode (FindCodeBlocks resp) results ++
          [Event.observeIterations n, Event.modelName (W.modelName w'),
            Event.getUsageSummary (W.getUsageSummary w')] ∧
        (mainLoop W r prompt fuel i w messages).result =
          .ok (completionResult W prompt (FindFinalAnswer resp) w') := by
  intro fuel
  induction fuel with
  | zero =>
    intro i w messages pre post msgs resp htr _
    exfalso
    have hmem : Event.clientCompletion msgs (.ok resp) ∈
        (mainLoop W r prompt 0 i w messages).trace := by rw [htr]; simp
    simp [mainLoop] at hmem
  | succ fuel ih =>
    intro i w messages pre post msgs resp htr hfinal
    cases hctx : W.ctxErr w with
    | some err =>
      exfalso
      rw [mainLoop_cancelled W r prompt fuel i w messages err hctx] at htr
      simp at htr
    | none =>
      rcases hllm : W.clientCompletion messages w with ⟨reply, w1⟩
      cases reply with
      | error err =>
        exfalso
        have hmem : Event.clientCompletion msgs (.ok resp) ∈
            (mainLoop W r prompt (fuel + 1) i w messages).trace := by rw [htr]; simp
        rw [mainLoop_client_error W r prompt fuel i w w1 messages err hctx hllm] at hmem
        simp at hmem
      | ok resp0 =>
        by_cases hfin : FindFinalAnswer resp0 = []
        · obtain ⟨w2, messages2, evs, e1, -, -, hres, htr0, -⟩ :=
            mainLoop_continue_shape W r prompt fuel i w w1 messages resp0 hctx hllm hfin
          rw [htr0] at htr
          cases pre with
          | nil =>
            simp only [List.nil_append, List.cons.injEq, Event.clientCompletion.injEq,
              Except.ok.injEq] at htr
            rw [htr.1.2] at hfin
            exact absurd hfin hfinal
          | cons e pre =>
            simp only [List.cons_append, List.cons.injEq] at htr
            obtain ⟨pre', -, hrest⟩ := split_at_llm pre post evs _ msgs (.ok resp) htr.2.symm e1
            rw [hres]
            exact ih (i + 1) w2 messages2 pre' post msgs resp hrest hfinal
        · obtain ⟨w2, evs, e1, -, -, hres, htr0, results, hr1, hr2⟩ :=
            mainLoop_final_shape W r prompt fuel i w w1 messages resp0 hctx hllm hfin
          rw [htr0] at htr
          cases pre with
          | nil =>
            simp only [List.nil_append, List.cons.injEq, Event.clientCompletion.injEq,
              Except.ok.injEq] at htr
            obtain ⟨⟨-, hresp⟩, hpost⟩ := htr
            subst hresp
            exact ⟨results, _, w2, hr1, by rw [← hpost, hr2], hres⟩
          | cons e pre =>
            exfalso
            simp only [List.cons_append, List.cons.injEq] at htr
            obtain ⟨pre', -, hrest⟩ := split_at_llm pre post evs _ msgs (.ok resp) htr.2.symm e1
            have hmem : Event.clientCompletion msgs (.ok resp) ∈
                ([Event.observeIterations ((i : Int) + 1), Event.modelName (W.modelName w2),
                  Event.getUsageSummary (W.getUsageSummary w2)] : List (Event ε)) := by
              rw [hrest]; simp
            simp at hmem

/-- An LLM invocation of `run ++ tail` lies in `run` when `tail` has none. -/
theorem split_at_llm_left {ε : Type} (pre post run tail : List (Event ε)) (msgs : List Message)
    (reply : Except ε GoString)
    (h : run ++ tail = pre ++ Event.clientCompletion msgs reply :: post)
    (htail : llmCalls tail = []) :
    ∃ post', run = pre ++ Event.clientCompletion msgs reply :: post' ∧ post = post' ++ tail := by
  rcases List.append_eq_append_iff.mp h with ⟨a, h1, h2⟩ | ⟨c, h1, h2⟩
  · exfalso
    apply llmCalls_ne_nil_of_mem tail msgs reply _ htail
    rw [h2]
    simp
  · cases c with
    | nil =>
      exfalso
      apply llmCalls_ne_nil_of_mem tail msgs reply _ htail
      simp only [List.nil_append] at h2
      rw [← h2]
      simp
    | cons x c =>
      simp only [List.cons_append, List.cons.injEq] at h2
      exact ⟨c, by rw [h1, h2.1], h2.2⟩

/-- C9: within one iteration all code blocks are executed before the
final-answer check.  When a model reply of the run carries a non-empty final
answer, what follows it in the trace is exactly the execution of each of its
code blocks once, in document order, and then the finalization of that same
iteration (the iteration count, the model name, the usage summary) and the
deferred calls; no further LLM call is made, and `Completion` returns the
extracted answer. -/
theorem Completion_blocks_then_final {ω ε δ : Type} (W : World ω ε δ) (r : RLM)
    (prompt : GoString) (contextData : Option δ) (w0 : ω) (pre post : List (Event ε))
    (msgs : List Message) (resp : GoString)
    (htrace : (Completion W r prompt contextData w0).trace =
      pre ++ Event.clientCompletion msgs (.ok resp) :: post)
    (hfinal : FindFinalAnswer resp ≠ []) :
    ∃ (results : List REPLResult) (n : Int) (name : GoString) (usage : UsageSummary),
      results.length = (FindCodeBlocks resp).length ∧
      post = List.zipWith Event.executeCode (FindCodeBlocks resp) results ++
        [Event.observeIterations n, Event.modelName name, Event.getUsageSummary usage,
          Event.cleanup, Event.handlerStop, Event.observeDuration] ∧
      llmCalls post = [] ∧ executed post = FindCodeBlocks resp ∧
      ∃ res, (Completion W r prompt contextData w0).result = .ok res ∧
        res.Response = FindFinalAnswer resp := by
  rcases Completion_cases W r prompt contextData w0 with h | ⟨w3, sys, pre0, p1, -, hres, htr⟩
  · exfalso
    apply llmCalls_ne_nil_of_mem _ msgs (.ok resp) _ h
    rw [htrace]
    simp
  · rw [htr, List.append_assoc] at htrace
    obtain ⟨pre', -, hrest⟩ := split_at_llm pre post pre0 _ msgs (.ok resp) htrace.symm p1
    obtain ⟨post', hrun, hpost⟩ := split_at_llm_left pre' post _ _ msgs (.ok resp) hrest
      llmCalls_deferred
    obtain ⟨results, n, w', h1, h2, h3⟩ := mainLoop_blocks_then_final W r prompt
      r.maxIterations.toNat 0 w3 _ pre' post' msgs resp hrun hfinal
    have hzip : ∀ (codes : List GoString) (rs : List REPLResult), rs.length = codes.length →
        llmCalls (List.zipWith (Event.executeCode (ε := ε)) codes rs) = [] ∧
        executed (List.zipWith (Event.executeCode (ε := ε)) codes rs) = codes := by
      intro codes
      induction codes with
      | nil => intro rs _; simp [llmCalls, executed]
      | cons c codes ih =>
        intro rs hrs
        cases rs with
        | nil => simp at hrs
        | cons x rs =>
          have := ih rs (by simpa using hrs)
          simp [llmCalls, executed, this]
    refine ⟨results, n, W.modelName w', W.getUsageSummary w', h1, ?_, ?_, ?_, _, hres.trans h3, rfl⟩
    · rw [hpost, h2, List.append_assoc]; rfl
    · rw [hpost, h2, llmCalls_append, llmCalls_append, (hzip _ _ h1).1]; rfl
    · rw [hpost, h2, executed_append, executed_append, (hzip _ _ h1).2]; simp [executed]

/-- C9, on a reply with the block `x = 1` and the marker `FINAL(done)`: the
block is executed once and `Completion` returns `done` in that iteration. -/
theorem Completion_blocks_then_final_witness :
    executed (List.drop 4 (Completion (mockWorld testBlockAndFinal) ⟨5, []⟩ (ascii "q")
        none 0).trace) = [ascii "x = 1"] ∧
      ∃ res, (Completion (mockWorld testBlockAndFinal) ⟨5, []⟩ (ascii "q") none 0).result =
          .ok res ∧ res.Response = ascii "done" := by
  obtain ⟨-, -, -, -, -, -, -, h4, res, h5, h6⟩ :=
    Completion_blocks_then_final (mockWorld testBlockAndFinal) ⟨5, []⟩ (ascii "q") none 0
      (List.take 3 (Completion (mockWorld testBlockAndFinal) ⟨5, []⟩ (ascii "q") none 0).trace)
      (List.drop 4 (Completion (mockWorld testBlockAndFinal) ⟨5, []⟩ (ascii "q") none 0).trace)
      [⟨ascii "system", []⟩, ⟨ascii "user", ascii "Query: q"⟩]
      (ascii "```repl\nx = 1\n```\nFINAL(done)") rfl (by decide)
  exact ⟨h4.trans (by decide), res, h5, h6.trans (by decide)⟩

/-! ## The code-block extractor: successive blocks -/

theorem firstBlock_bound (l r : GoString) (s : GoString) (i k : Nat)
    (h : firstBlock l r s = some (i, k)) : i + l.length + k + r.length ≤ s.length := by
  obtain ⟨h1, h2, -⟩ := (firstBlock_eq_some_iff l r s i k).mp h
  obtain ⟨-, hr, hlen, -⟩ := (blockAt_eq_some_iff l r s i k h2).mp h1
  have := hr.length_le
  simp only [List.length_drop] at this
  omega

theorem submatches_blockMatch (l r : GoString) (text : GoString) (pos i k : Nat) :
    (submatches text (blockMatch l r pos i k)).getD 1 [] =
      slice (text.drop pos) (i + l.length) (i + l.length + k) := by
  simp only [submatches, blockMatch, pairs, List.map_cons, List.map_nil, slice, List.drop_drop]
  simp only [List.getD_cons_succ, List.getD_cons_zero]
  rw [show pos + i + l.length + k - (pos + i + l.length) = k by omega,
    show i + l.length + k - (i + l.length) = k by omega,
    show pos + i + l.length = pos + (i + l.length) by omega]

/-- The loop of `allMatches` on a pattern `fence l r` delivers the successive
blocks, whatever the fuel above the length of the text left. -/
theorem allMatches_fence_of_blocks (l r : GoString) (hlr : 0 < l.length + r.length)
    (text : GoString) :
    ∀ (pos : Nat) (s : GoString) (mbs : List (Match × GoString)), Blocks l r pos s mbs →
      s = text.drop pos → pos ≤ text.length →
      ∀ (fuel : Nat) (prev : Option Nat), text.length < fuel + pos →
        allMatches (fence l r) text fuel pos prev = mbs.map Prod.fst ∧
          (mbs.map Prod.fst).map (fun m => (submatches text m).getD 1 []) = mbs.map Prod.snd := by
  intro pos s mbs h
  induction h with
  | done hf =>
    intro hs hpos fuel prev hfuel
    subst hs
    cases fuel with
    | zero => omega
    | succ fuel => simp [allMatches, hpos, search_fence, hf]
  | @step pos s i k rest hf hrest ih =>
    intro hs hpos fuel prev hfuel
    subst hs
    have hb := firstBlock_bound l r _ i k hf
    simp only [List.length_drop] at hb
    have hstop : (blockMatch l r pos i k).stop = pos + i + l.length + k + r.length := rfl
    cases fuel with
    | zero => omega
    | succ fuel =>
      have hne : ¬ (pos + i + l.length + k + r.length = pos) := by omega
      obtain ⟨ih1, ih2⟩ := ih (by rw [List.drop_drop, hstop]; congr 1; omega)
        (by rw [hstop]; omega) fuel (some (blockMatch l r pos i k).stop) (by rw [hstop]; omega)
      constructor
      · simp only [allMatches, hpos, if_true, search_fence, hf, Option.map_some', hstop, hne,
          if_false, List.map_cons, List.cons.injEq, true_and]
        rw [← hstop]
        exact ih1
      · simp only [List.map_cons, List.cons.injEq]
        exact ⟨submatches_blockMatch l r text pos i k, ih2⟩

theorem Blocks_unique (l r : GoString) :
    ∀ (pos : Nat) (s : GoString) (m1 : List (Match × GoString)), Blocks l r pos s m1 →
      ∀ m2, Blocks l r pos s m2 → m1 = m2 := by
  intro pos s m1 h
  induction h with
  | done hf =>
    intro m2 h2
    cases h2 with
    | done _ => rfl
    | step hf2 _ => rw [hf] at hf2; simp at hf2
  | @step pos s i k rest hf hrest ih =>
    intro m2 h2
    cases h2 with
    | done hf2 => rw [hf] at hf2; simp at hf2
    | @step _ _ i2 k2 rest2 hf2 hrest2 =>
      rw [hf] at hf2
      simp only [Option.some.injEq, Prod.mk.injEq] at hf2
      obtain ⟨rfl, rfl⟩ := hf2
      rw [ih rest2 hrest2]

theorem Blocks_total (l r : GoString) (hlr : 0 < l.length + r.length) :
    ∀ (n : Nat) (s : GoString) (pos : Nat), s.length ≤ n → ∃ mbs, Blocks l r pos s mbs := by
  intro n
  induction n with
  | zero =>
    intro s pos hs
    cases hf : firstBlock l r s with
    | none => exact ⟨[], Blocks.done hf⟩
    | some ik =>
      obtain ⟨i, k⟩ := ik
      have := firstBlock_bound l r s i k hf
      omega
  | succ n ih =>
    intro s pos hs
    cases hf : firstBlock l r s with
    | none => exact ⟨[], Blocks.done hf⟩
    | some ik =>
      obtain ⟨i, k⟩ := ik
      have hb := firstBlock_bound l r s i k hf
      obtain ⟨rest, hrest⟩ := ih (s.drop (i + l.length + k + r.length))
        (blockMatch l r pos i k).stop (by simp only [List.length_drop]; omega)
      exact ⟨_, Blocks.step hf hrest⟩

/-! ## Blocks of a concatenation -/

theorem prefix_append_iff_of_length_le (p a b : GoString) (h : p.length ≤ a.length) :
    p <+: a ++ b ↔ p <+: a :=
  ⟨fun hp => List.prefix_of_prefix_length_le hp (List.prefix_append a b) h,
    fun hp => hp.trans (List.prefix_append a b)⟩

theorem prefix_drop_append_iff (p x y : GoString) (n : Nat) (h : n + p.length ≤ x.length) :
    p <+: (x ++ y).drop n ↔ p <+: x.drop n := by
  rw [List.drop_append_of_le_length (by omega)]
  exact prefix_append_iff_of_length_le p _ y (by simp only [List.length_drop]; omega)

theorem drop_append_of_length_le (x y : GoString) (n : Nat) (h : x.length ≤ n) :
    (x ++ y).drop n = y.drop (n - x.length) := by
  rw [List.drop_append_eq_append_drop, List.drop_eq_nil_of_le h, List.nil_append]

theorem blockAt_append (l r : GoString) (x y : GoString) (j k : Nat) (hj : j ≤ x.length)
    (h : blockAt l r (x.drop j) = some k) : blockAt l r ((x ++ y).drop j) = some k := by
  obtain ⟨h1, h2, h3, h4⟩ := (blockAt_eq_some_iff l r x j k hj).mp h
  have hr := h2.length_le
  simp only [List.length_drop] at hr
  have hl := h1.length_le
  simp only [List.length_drop] at hl
  rw [blockAt_eq_some_iff l r (x ++ y) j k (by simp; omega)]
  refine ⟨?_, ?_, by simp; omega, ?_⟩
  · exact (prefix_drop_append_iff l x y j (by omega)).mpr h1
  · exact (prefix_drop_append_iff r x y _ (by omega)).mpr h2
  · intro m hm hp
    exact h4 m hm ((prefix_drop_append_iff r x y _ (by omega)).mp hp)

theorem blockAt_of_append (l r : GoString) (x y : GoString) (j k : Nat)
    (hb : j + l.length + k + r.length ≤ x.length)
    (h : blockAt l r ((x ++ y).drop j) = some k) : blockAt l r (x.drop j) = some k := by
  obtain ⟨h1, h2, h3, h4⟩ := (blockAt_eq_some_iff l r (x ++ y) j k (by simp; omega)).mp h
  rw [blockAt_eq_some_iff l r x j k (by omega)]
  refine ⟨?_, ?_, by omega, ?_⟩
  · exact (prefix_drop_append_iff l x y j (by omega)).mp h1
  · exact (prefix_drop_append_iff r x y _ (by omega)).mp h2
  · intro m hm hp
    exact h4 m hm ((prefix_drop_append_iff r x y _ (by omega)).mpr hp)

/-- The leftmost block of `x` is the leftmost block of `x ++ y`. -/
theorem firstBlock_append (l r : GoString) (x y : GoString) (i k : Nat)
    (h : firstBlock l r x = some (i, k)) : firstBlock l r (x ++ y) = some (i, k) := by
  have hb := firstBlock_bound l r x i k h
  have hno := firstBlock_no_earlier_opener l r x i k h
  obtain ⟨h1, h2, -⟩ := (firstBlock_eq_some_iff l r x i k).mp h
  rw [firstBlock_eq_some_iff]
  refine ⟨blockAt_append l r x y i k h2 h1, by simp; omega, ?_⟩
  intro j hj
  rw [blockAt_drop]
  rw [if_neg]
  intro hp
  exact hno j hj ((prefix_drop_append_iff l x y j (by omega)).mp hp)

/-- A leftmost block of `x ++ y` that ends inside `x` is the leftmost block of
`x`. -/
theorem firstBlock_of_append_left (l r : GoString) (x y : GoString) (i k : Nat)
    (h : firstBlock l r (x ++ y) = some (i, k)) (hb : i + l.length + k + r.length ≤ x.length) :
    firstBlock l r x = some (i, k) := by
  obtain ⟨h1, h2, h3⟩ := (firstBlock_eq_some_iff l r (x ++ y) i k).mp h
  rw [firstBlock_eq_some_iff]
  refine ⟨blockAt_of_append l r x y i k hb h1, by omega, ?_⟩
  intro j hj
  cases hc : blockAt l r (x.drop j) with
  | none => rfl
  | some k' =>
    have := blockAt_append l r x y j k' (by omega) hc
    rw [h3 j hj] at this
    simp at this

/-- A leftmost block of `x ++ y` that starts in `y` is the leftmost block of
`y`. -/
theorem firstBlock_of_append_right (l r : GoString) (x y : GoString) (i k : Nat)
    (h : firstBlock l r (x ++ y) = some (i, k)) (hi : x.length ≤ i) :
    firstBlock l r y = some (i - x.length, k) := by
  obtain ⟨h1, h2, h3⟩ := (firstBlock_eq_some_iff l r (x ++ y) i k).mp h
  rw [firstBlock_eq_some_iff]
  refine ⟨?_, by simp at h2; omega, ?_⟩
  · rw [← drop_append_of_length_le x y i hi]; exact h1
  · intro j hj
    have := h3 (x.length + j) (by omega)
    rw [drop_append_of_length_le x y _ (by omega)] at this
    rw [show x.length + j - x.length = j by omega] at this
    exact this

theorem firstBlock_none_of_append (l r : GoString) (x y : GoString)
    (h : firstBlock l r (x ++ y) = none) : firstBlock l r y = none := by
  rw [firstBlock_eq_none_iff] at h ⊢
  intro j hj
  have := h (x.length + j) (by simp; omega)
  rw [drop_append_of_length_le x y _ (by omega)] at this
  rw [show x.length + j - x.length = j by omega] at this
  exact this

/-- The bodies of the successive blocks do not depend on the position at
which the text is placed. -/
theorem Blocks_bodies (l r : GoString) :
    ∀ (pos : Nat) (s : GoString) (m1 : List (Match × GoString)), Blocks l r pos s m1 →
      ∀ pos' m2, Blocks l r pos' s m2 → m1.map Prod.snd = m2.map Prod.snd := by
  intro pos s m1 h
  induction h with
  | done hf =>
    intro pos' m2 h2
    cases h2 with
    | done _ => rfl
    | step hf2 _ => rw [hf] at hf2; simp at hf2
  | @step pos s i k rest hf hrest ih =>
    intro pos' m2 h2
    cases h2 with
    | done hf2 => rw [hf] at hf2; simp at hf2
    | @step _ _ i2 k2 rest2 hf2 hrest2 =>
      rw [hf] at hf2
      simp only [Option.some.injEq, Prod.mk.injEq] at hf2
      obtain ⟨rfl, rfl⟩ := hf2
      simp only [List.map_cons, List.cons.injEq, true_and]
      exact ih _ rest2 hrest2

/-- The blocks of `sA ++ B`, when none of them spans the split, are the
blocks of `sA` followed by the blocks of `B`. -/
theorem Blocks_append (l r : GoString) (B : GoString) (a : Nat)
    (mB : List (Match × GoString)) (hB : Blocks l r a B mB) :
    ∀ (pos : Nat) (sA : GoString) (mA : List (Match × GoString)), Blocks l r pos sA mA →
      pos + sA.length = a →
      ∀ mT, Blocks l r pos (sA ++ B) mT →
        (∀ mb ∈ mT, mb.1.stop ≤ a ∨ a ≤ mb.1.start) → mT = mA ++ mB := by
  intro pos sA mA h
  induction h with
  | @done pos sA hf =>
    intro ha mT hT hsplit
    cases hT with
    | done hfT =>
      have hfB := firstBlock_none_of_append l r sA B hfT
      cases hB with
      | done _ => rfl
      | step hfB' _ => rw [hfB] at hfB'; simp at hfB'
    | @step _ _ i k restT hfT hrestT =>
      have hstop : (blockMatch l r pos i k).stop = pos + i + l.length + k + r.length := rfl
      have hstart : (blockMatch l r pos i k).start = pos + i := rfl
      rcases hsplit _ (List.mem_cons_self _ _) with h1 | h1
      · simp only [hstop] at h1
        have := firstBlock_of_append_left l r sA B i k hfT (by omega)
        rw [hf] at this
        simp at this
      · simp only [hstart] at h1
        have hi : sA.length ≤ i := by omega
        have hfB := firstBlock_of_append_right l r sA B i k hfT hi
        cases hB with
        | done hfB' => rw [hfB] at hfB'; simp at hfB'
        | @step _ _ i' k' restB hfB' hrestB =>
          rw [hfB] at hfB'
          simp only [Option.some.injEq, Prod.mk.injEq] at hfB'
          obtain ⟨rfl, rfl⟩ := hfB'
          have hm : blockMatch l r a (i - sA.length) k = blockMatch l r pos i k := by
            simp only [blockMatch, Match.mk.injEq, List.cons.injEq, and_true]
            omega
          have hd : (sA ++ B).drop (i + l.length + k + r.length) =
              B.drop (i - sA.length + l.length + k + r.length) := by
            rw [drop_append_of_length_le sA B _ (by omega)]
            congr 1
            omega
          have hbody : slice (sA ++ B) (i + l.length) (i + l.length + k) =
              slice B (i - sA.length + l.length) (i - sA.length + l.length + k) := by
            simp only [slice]
            rw [drop_append_of_length_le sA B _ (by omega)]
            congr 1
            · omega
            · congr 1; omega
          rw [hm, ← hd] at hrestB
          rw [Blocks_unique l r _ _ restT hrestT restB hrestB, hm, hbody]
          rfl
  | @step pos sA i k rest hf hrest ih =>
    intro ha mT hT hsplit
    have hb := firstBlock_bound l r sA i k hf
    have hfT := firstBlock_append l r sA B i k hf
    cases hT with
    | done hfT' => rw [hfT] at hfT'; simp at hfT'
    | @step _ _ i2 k2 restT hfT' hrestT =>
      rw [hfT] at hfT'
      simp only [Option.some.injEq, Prod.mk.injEq] at hfT'
      obtain ⟨rfl, rfl⟩ := hfT'
      have hstop : (blockMatch l r pos i k).stop = pos + i + l.length + k + r.length := rfl
      rw [List.drop_append_of_le_length (by omega)] at hrestT
      have hrec := ih (by rw [hstop]; simp only [List.length_drop]; omega) restT hrestT
        (fun mb hmb => hsplit mb (List.mem_cons_of_mem _ hmb))
      have hbody : slice (sA ++ B) (i + l.length) (i + l.length + k) =
          slice sA (i + l.length) (i + l.length + k) := by
        simp only [slice]
        rw [List.drop_append_of_le_length (by omega),
          List.take_append_of_le_length (by simp only [List.length_drop]; omega)]
      rw [hrec, hbody]
      rfl

/-! ## `FindCodeBlocks` -/

theorem replRegex_eq : replRegex = fence (ascii "```repl\n") (ascii "\n```") := rfl

theorem FindCodeBlocks_of_blocks (text : GoString) (mbs : List (Match × GoString))
    (h : Blocks (ascii "```repl\n") (ascii "\n```") 0 text mbs) :
    FindAllStringSubmatchIndex replRegex text = mbs.map Prod.fst ∧
      FindCodeBlocks text = mbs.map Prod.snd := by
  obtain ⟨h1, h2⟩ := allMatches_fence_of_blocks (ascii "```repl\n") (ascii "\n```") (by decide)
    text 0 text mbs h rfl (Nat.zero_le _) (text.length + 2) none (by omega)
  rw [← replRegex_eq] at h1
  refine ⟨h1, ?_⟩
  unfold FindCodeBlocks FindAllStringSubmatch FindAllStringSubmatchIndex
  rw [h1, ← h2]
  simp only [List.map_map]
  rfl

/-- C6 as stated fails: split the text of one block between its body and its
closing fence.  Neither fence spans the split, the whole text has the block
`x`, and neither part has a block. -/
theorem FindCodeBlocks_append_fails :
    ¬ FenceSpansSplit (ascii "```repl\nx") (ascii "\n```") ∧
      FindCodeBlocks (ascii "```repl\nx" ++ ascii "\n```") = [ascii "x"] ∧
      FindCodeBlocks (ascii "```repl\nx") ++ FindCodeBlocks (ascii "\n```") = [] := by
  decide

/-- C6, amended: for all texts `A` and `B` such that no fenced block matched
in `A ++ B` spans the split point (each match ends within `A` or starts within
`B`), `FindCodeBlocks (A ++ B) = FindCodeBlocks A ++ FindCodeBlocks B`. -/
theorem FindCodeBlocks_append (A B : GoString)
    (hsplit : ∀ m ∈ FindAllStringSubmatchIndex replRegex (A ++ B),
      m.stop ≤ A.length ∨ A.length ≤ m.start) :
    FindCodeBlocks (A ++ B) = FindCodeBlocks A ++ FindCodeBlocks B := by
  have hlr : 0 < (ascii "```repl\n").length + (ascii "\n```").length := by decide
  obtain ⟨mA, hA⟩ := Blocks_total _ _ hlr A.length A 0 (Nat.le_refl _)
  obtain ⟨mB, hB⟩ := Blocks_total _ _ hlr B.length B A.length (Nat.le_refl _)
  obtain ⟨mB0, hB0⟩ := Blocks_total _ _ hlr B.length B 0 (Nat.le_refl _)
  obtain ⟨mT, hT⟩ := Blocks_total _ _ hlr (A ++ B).length (A ++ B) 0 (Nat.le_refl _)
  obtain ⟨hTi, hTb⟩ := FindCodeBlocks_of_blocks (A ++ B) mT hT
  rw [hTi] at hsplit
  have hcat := Blocks_append _ _ B A.length mB hB 0 A mA hA (by omega) mT hT
    (fun mb hmb => hsplit mb.1 (List.mem_map_of_mem _ hmb))
  rw [hTb, (FindCodeBlocks_of_blocks A mA hA).2, (FindCodeBlocks_of_blocks B mB0 hB0).2, hcat,
    List.map_append, Blocks_bodies _ _ _ _ mB hB 0 mB0 hB0]

/-- C6, amended, at a split between two blocks. -/
theorem FindCodeBlocks_append_witness :
    FindCodeBlocks (ascii "a\n```repl\nx\n```\n" ++ ascii "b\n```repl\ny\n```") =
        FindCodeBlocks (ascii "a\n```repl\nx\n```\n") ++ FindCodeBlocks (ascii "b\n```repl\ny\n```") ∧
      FindCodeBlocks (ascii "a\n```repl\nx\n```\n") ++ FindCodeBlocks (ascii "b\n```repl\ny\n```") =
        [ascii "x", ascii "y"] :=
  ⟨FindCodeBlocks_append (ascii "a\n```repl\nx\n```\n") (ascii "b\n```repl\ny\n```") (by decide),
    by decide⟩

/-! ## Blocks of a fenced text -/

theorem ascii_open_eq : ascii "```repl\n" = [96, 96, 96, 114, 101, 112, 108, 10] := rfl

theorem ascii_close4_eq : ascii "\n```" = [10, 96, 96, 96] := rfl

/-- No opening fence starts inside a text without backtick. -/
theorem no_opener_of_no_backtick (x y : GoString) (hx : backtick ∉ x) (j : Nat)
    (hj : j < x.length) : ¬ ascii "```repl\n" <+: (x ++ y).drop j := by
  rw [List.drop_append_of_le_length (by omega)]
  cases hd : x.drop j with
  | nil =>
    have := List.drop_eq_nil_iff.mp hd
    omega
  | cons c d =>
    intro hp
    rw [ascii_open_eq, List.cons_append, List.cons_prefix_cons] at hp
    apply hx
    have hc : c ∈ x := List.mem_of_mem_drop (by rw [hd]; exact List.mem_cons_self _ _)
    rw [← hp.1] at hc
    exact hc

theorem no_opener_in_tail (t : GoString) (ht : backtick ∉ t) (j : Nat) :
    ¬ ascii "```repl\n" <+: t.drop j := by
  intro hp
  apply ht
  have h96 : backtick ∈ ascii "```repl\n" := by decide
  exact List.mem_of_mem_drop (hp.subset h96)

/-- The closing fence does not start inside a body that does not contain it,
also when the closing fence follows. -/
theorem no_closer_in_body (b X : GoString) (hb : ¬ ascii "\n```" <:+: b) (j : Nat)
    (hj : j < b.length) : ¬ ascii "\n```" <+: (b ++ (ascii "\n```" ++ X)).drop j := by
  rw [List.drop_append_of_le_length (by omega)]
  intro hp
  by_cases hlen : 4 ≤ (b.drop j).length
  · apply hb
    have h1 : ascii "\n```" <+: b.drop j :=
      (prefix_append_iff_of_length_le _ _ _ (by rw [ascii_close4_eq]; exact hlen)).mp hp
    exact h1.isInfix.trans (List.drop_suffix j b).isInfix
  · rw [ascii_close4_eq] at hp
    have hpos : 0 < (b.drop j).length := by simp only [List.length_drop]; omega
    match hd : b.drop j with
    | [] => rw [hd] at hpos; simp at hpos
    | [x] => rw [hd] at hp; simp [List.cons_prefix_cons] at hp
    | [x, y] => rw [hd] at hp; simp [List.cons_prefix_cons] at hp
    | [x, y, z] => rw [hd] at hp; simp [List.cons_prefix_cons] at hp
    | _ :: _ :: _ :: _ :: _ => rw [hd] at hlen; simp at hlen

/-- The leftmost block of `p ++ open ++ b ++ close ++ X` is the one with the
body `b`. -/
theorem firstBlock_fenced (p b X : GoString) (hp : backtick ∉ p)
    (hb : ¬ ascii "\n```" <:+: b) :
    firstBlock (ascii "```repl\n") (ascii "\n```")
        (p ++ (ascii "```repl\n" ++ (b ++ (ascii "\n```" ++ X)))) =
      some (p.length, b.length) := by
  rw [firstBlock_eq_some_iff]
  refine ⟨?_, by simp, ?_⟩
  · rw [blockAt_eq_some_iff _ _ _ _ _ (by simp)]
    refine ⟨?_, ?_, ?_, ?_⟩
    · rw [List.drop_left]; exact List.prefix_append _ _
    · rw [Nat.add_assoc, List.drop_append, List.drop_append, List.drop_left]
      exact List.prefix_append _ _
    · simp only [List.length_append]; omega
    · intro j hj
      rw [Nat.add_assoc, List.drop_append, List.drop_append]
      exact no_closer_in_body b X hb j hj
  · intro j hj
    rw [blockAt_drop, if_neg (no_opener_of_no_backtick p _ hp j hj)]

theorem firstBlock_tail (t : GoString) (ht : backtick ∉ t) :
    firstBlock (ascii "```repl\n") (ascii "\n```") t = none := by
  rw [firstBlock_eq_none_iff]
  intro j _
  rw [blockAt_drop, if_neg (no_opener_in_tail t ht j)]

/-- The successive blocks of a fenced text have the given bodies. -/
theorem Blocks_fenced (t : GoString) (ht : backtick ∉ t) :
    ∀ (segs : List (GoString × GoString)) (pos : Nat),
      (∀ pb ∈ segs, backtick ∉ pb.1) → (∀ pb ∈ segs, ¬ ascii "\n```" <:+: pb.2) →
      ∃ mbs, Blocks (ascii "```repl\n") (ascii "\n```") pos (fenced segs t) mbs ∧
        mbs.map Prod.snd = segs.map Prod.snd := by
  intro segs
  induction segs with
  | nil =>
    intro pos _ _
    exact ⟨[], Blocks.done (firstBlock_tail t ht), rfl⟩
  | cons pb segs ih =>
    intro pos hsep hbody
    obtain ⟨p, b⟩ := pb
    have hp : backtick ∉ p := hsep (p, b) (List.mem_cons_self _ _)
    have hb : ¬ ascii "\n```" <:+: b := hbody (p, b) (List.mem_cons_self _ _)
    have htext : fenced ((p, b) :: segs) t =
        p ++ (ascii "```repl\n" ++ (b ++ (ascii "\n```" ++ fenced segs t))) := by
      simp only [fenced, List.append_assoc]
    have hf := firstBlock_fenced p b (fenced segs t) hp hb
    obtain ⟨rest, hrest, hbodies⟩ := ih
      (blockMatch (ascii "```repl\n") (ascii "\n```") pos p.length b.length).stop
      (fun x hx => hsep x (List.mem_cons_of_mem _ hx))
      (fun x hx => hbody x (List.mem_cons_of_mem _ hx))
    have hdrop : (p ++ (ascii "```repl\n" ++ (b ++ (ascii "\n```" ++ fenced segs t)))).drop
        (p.length + (ascii "```repl\n").length + b.length + (ascii "\n```").length) =
        fenced segs t := by
      rw [Nat.add_assoc, Nat.add_assoc, List.drop_append, List.drop_append, List.drop_append,
        List.drop_left]
    have hslice : slice (p ++ (ascii "```repl\n" ++ (b ++ (ascii "\n```" ++ fenced segs t))))
        (p.length + (ascii "```repl\n").length)
        (p.length + (ascii "```repl\n").length + b.length) = b := by
      simp only [slice]
      rw [List.drop_append, List.drop_left, Nat.add_sub_cancel_left, List.take_left]
    rw [htext]
    rw [← hdrop] at hrest
    refine ⟨_, Blocks.step hf hrest, ?_⟩
    simp only [List.map_cons, hslice, hbodies]

/-- C3: `FindCodeBlocks` returns the block bodies in document order and
verbatim.  For separators `p1..pn` and a tail `t` without backtick and bodies
`b1..bn` none of which contains a line feed followed by three backticks,
`FindCodeBlocks` of `p1 ++ open ++ b1 ++ close ++ ... ++ pn ++ open ++ bn ++
close ++ t` is `[b1, ..., bn]`. -/
theorem FindCodeBlocks_fenced (segs : List (GoString × GoString)) (t : GoString)
    (hsep : ∀ pb ∈ segs, backtick ∉ pb.1)
    (hbody : ∀ pb ∈ segs, ¬ ascii "\n```" <:+: pb.2)
    (htail : backtick ∉ t) :
    FindCodeBlocks (fenced segs t) = segs.map Prod.snd := by
  obtain ⟨mbs, h1, h2⟩ := Blocks_fenced t htail segs 0 hsep hbody
  rw [(FindCodeBlocks_of_blocks _ mbs h1).2, h2]

/-- C3, on the test case `Multiple blocks` of `utils_test.go`. -/
theorem FindCodeBlocks_fenced_witness :
    fenced [(ascii "One:\n", ascii "a=1"), (ascii "\nTwo:\n", ascii "b=2")] [] =
        ascii "One:\n```repl\na=1\n```\nTwo:\n```repl\nb=2\n```" ∧
      FindCodeBlocks (fenced [(ascii "One:\n", ascii "a=1"), (ascii "\nTwo:\n", ascii "b=2")] []) =
        [ascii "a=1", ascii "b=2"] :=
  ⟨by decide, FindCodeBlocks_fenced [(ascii "One:\n", ascii "a=1"), (ascii "\nTwo:\n", ascii "b=2")]
    [] (by decide) (by decide) (by decide)⟩

/-! ## The exit paths of `Completion` -/

theorem mainLoop_continue_events {ω ε δ : Type} (W : World ω ε δ) (r : RLM) (prompt : GoString)
    (fuel i : Nat) (w w1 : ω) (messages : List Message) (resp : GoString)
    (hctx : W.ctxErr w = none) (hllm : W.clientCompletion messages w = (.ok resp, w1))
    (hfinal : FindFinalAnswer resp = []) :
    ∃ (w2 : ω) (messages2 : List Message) (results : List REPLResult),
      results.length = (FindCodeBlocks resp).length ∧
      (mainLoop W r prompt (fuel + 1) i w messages).result =
        (mainLoop W r prompt fuel (i + 1) w2 messages2).result ∧
      (mainLoop W r prompt (fuel + 1) i w messages).trace =
        Event.clientCompletion messages (.ok resp) ::
          (List.zipWith Event.executeCode (FindCodeBlocks resp) results ++
            (mainLoop W r prompt fuel (i + 1) w2 messages2).trace) := by
  rw [mainLoop_continue W r prompt fuel i w w1 messages resp hctx hllm hfinal]
  obtain ⟨results, h1, h2⟩ := execBlocks_events W (FindCodeBlocks resp) w1
    (messages ++ [⟨ascii "assistant", resp⟩])
  exact ⟨_, _, results, h1, rfl, by simp only [h2, List.cons_append]⟩

theorem zipWith_executeCode_forall {ε : Type} (P : Event ε → Prop)
    (hexec : ∀ c res, P (Event.executeCode c res)) :
    ∀ (codes : List GoString) (results : List REPLResult),
      ∀ e ∈ List.zipWith (Event.executeCode (ε := ε)) codes results, P e := by
  intro codes
  induction codes with
  | nil => intro results e he; simp at he
  | cons c codes ih =>
    intro results e he
    cases results with
    | nil => simp at he
    | cons x results =>
      simp only [List.zipWith_cons_cons, List.mem_cons] at he
      rcases he with rfl | he
      · exact hexec c x
      · exact ih results e he

/-- A property of the events that the main loop can record holds for every
event of its trace. -/
theorem mainLoop_trace_forall {ω ε δ : Type} (W : World ω ε δ) (r : RLM) (prompt : GoString)
    (P : Event ε → Prop)
    (hllm : ∀ m reply, P (Event.clientCompletion m reply))
    (hexec : ∀ c res, P (Event.executeCode c res))
    (hinc : P Event.errorsInc)
    (hobs : ∀ n, P (Event.observeIterations n))
    (hname : ∀ n, P (Event.modelName n))
    (husage : ∀ u, P (Event.getUsageSummary u)) :
    ∀ (fuel i : Nat) (w : ω) (messages : List Message),
      ∀ e ∈ (mainLoop W r prompt fuel i w messages).trace, P e := by
  intro fuel
  induction fuel with
  | zero =>
    intro i w messages e he
    simp only [mainLoop, List.mem_cons, List.mem_singleton, List.not_mem_nil, or_false] at he
    rcases he with rfl | rfl | rfl
    · exact hobs _
    · exact hname _
    · exact husage _
  | succ fuel ih =>
    intro i w messages e he
    cases hctx : W.ctxErr w with
    | some err =>
      rw [mainLoop_cancelled W r prompt fuel i w messages err hctx] at he
      simp at he
    | none =>
      rcases hcc : W.clientCompletion messages w with ⟨reply, w1⟩
      cases reply with
      | error err =>
        rw [mainLoop_client_error W r prompt fuel i w w1 messages err hctx hcc] at he
        simp only [List.mem_cons, List.mem_singleton, List.not_mem_nil, or_false] at he
        rcases he with rfl | rfl
        · exact hllm _ _
        · exact hinc
      | ok resp =>
        by_cases hfin : FindFinalAnswer resp = []
        · obtain ⟨w2, messages2, results, -, -, htr⟩ :=
            mainLoop_continue_events W r prompt fuel i w w1 messages resp hctx hcc hfin
          rw [htr] at he
          rcases List.mem_cons.mp he with rfl | he
          · exact hllm _ _
          · rcases List.mem_append.mp he with he | he
            · exact zipWith_executeCode_forall P hexec _ _ e he
            · exact ih (i + 1) w2 messages2 e he
        · obtain ⟨w2, evs, -, -, -, -, htr, results, -, hr2⟩ :=
            mainLoop_final_shape W r prompt fuel i w w1 messages resp hctx hcc hfin
          rw [htr, hr2] at he
          rcases List.mem_cons.mp he with rfl | he
          · exact hllm _ _
          · rcases List.mem_append.mp he with he | he
            · exact zipWith_executeCode_forall P hexec _ _ e he
            · simp only [List.mem_cons, List.mem_singleton, List.not_mem_nil, or_false] at he
              rcases he with rfl | rfl | rfl
              · exact hobs _
              · exact hname _
              · exact husage _

/-- C15: the Sandbox and the Bridge are released on every exit path of
`Completion`.  Once the handler has started: when the sandbox starts too, the
trace ends, on every return, with `Cleanup`, then `Stop`, then the duration
observation, and has no other `Cleanup` or `Stop`; when the sandbox fails to
start, the handler is still stopped, once. -/
theorem Completion_releases {ω ε δ : Type} (W : World ω ε δ) (r : RLM) (prompt : GoString)
    (contextData : Option δ) (w0 : ω) (addr : GoString) (w1 : ω)
    (hstart : W.handlerStart w0 = (.ok addr, w1)) :
    match (W.newPythonREPL addr w1).1 with
    | none =>
      ∃ mid, (Completion W r prompt contextData w0).trace =
          [Event.handlerStart, Event.newPythonREPL addr] ++ mid ++
            [Event.cleanup, Event.handlerStop, Event.observeDuration] ∧
        ∀ e ∈ mid, e.isRelease = false
    | some _ =>
      (Completion W r prompt contextData w0).trace =
        [Event.handlerStart, Event.newPythonREPL addr, Event.errorsInc, Event.handlerStop,
          Event.observeDuration] := by
  rcases h2 : W.newPythonREPL addr w1 with ⟨failed, w2⟩
  cases failed with
  | some err => simp only [Completion, hstart, h2]
  | none =>
    simp only
    cases h3 : marshalTarget W prompt contextData with
    | error err =>
      refine ⟨[], ?_, by simp⟩
      simp only [Completion, hstart, h2, h3]
      rfl
    | ok jsonStr =>
      simp only [Completion, hstart, h2, h3]
      refine ⟨_ :: (mainLoop W r prompt r.maxIterations.toNat 0 _ _).trace, rfl, ?_⟩
      intro e he
      rcases List.mem_cons.mp he with rfl | he
      · rfl
      · exact mainLoop_trace_forall W r prompt (fun e => e.isRelease = false)
          (fun _ _ => rfl) (fun _ _ => rfl) rfl (fun _ => rfl) (fun _ => rfl) (fun _ => rfl)
          _ _ _ _ e he

/-- C15, on the test case `Simple answer` of `rlm_test.go`, and on a host
where the sandbox does not start. -/
theorem Completion_releases_witness :
    (∃ mid, (Completion (mockWorld [ascii "FINAL(42)"]) ⟨5, []⟩ (ascii "What is the answer?")
          none 0).trace =
        [Event.handlerStart, Event.newPythonREPL (ascii "127.0.0.1:0")] ++ mid ++
          [Event.cleanup, Event.handlerStop, Event.observeDuration] ∧
        ∀ e ∈ mid, e.isRelease = false) ∧
      (Completion (mockWorldNoPython [ascii "FINAL(42)"]) ⟨5, []⟩ (ascii "What is the answer?")
          none 0).trace =
        [Event.handlerStart, Event.newPythonREPL (ascii "127.0.0.1:0"), Event.errorsInc,
          Event.handlerStop, Event.observeDuration] :=
  ⟨Completion_releases (mockWorld [ascii "FINAL(42)"]) ⟨5, []⟩ (ascii "What is the answer?")
      none 0 (ascii "127.0.0.1:0") 0 rfl,
    Completion_releases (mockWorldNoPython [ascii "FINAL(42)"]) ⟨5, []⟩
      (ascii "What is the answer?") none 0 (ascii "127.0.0.1:0") 0 rfl⟩

theorem llmCalls_zipWith_executeCode {ε : Type} :
    ∀ (codes : List GoString) (results : List REPLResult),
      llmCalls (List.zipWith (Event.executeCode (ε := ε)) codes results) = [] := by
  intro codes
  induction codes with
  | nil => intro results; simp [llmCalls]
  | cons c codes ih =>
    intro results
    cases results with
    | nil => simp [llmCalls]
    | cons x results => simp [llmCalls, ih]

/-- After a successful setup the trace of `Completion` is the three calls of
setup, the trace of the main loop and the deferred calls; otherwise it has no
LLM invocation. -/
theorem Completion_cases_events {ω ε δ : Type} (W : World ω ε δ) (r : RLM) (prompt : GoString)
    (contextData : Option δ) (w0 : ω) :
    llmCalls (Completion W r prompt contextData w0).trace = [] ∨
      ∃ (w3 : ω) (messages : List Message) (addr code : GoString) (res : REPLResult),
        (Completion W r prompt contextData w0).result =
          (mainLoop W r prompt r.maxIterations.toNat 0 w3 messages).result ∧
        (Completion W r prompt contextData w0).trace =
          [Event.handlerStart, Event.newPythonREPL addr, Event.executeCode code res] ++
            ((mainLoop W r prompt r.maxIterations.toNat 0 w3 messages).trace ++
              [Event.cleanup, Event.handlerStop, Event.observeDuration]) := by
  rcases h1 : W.handlerStart w0 with ⟨started, w1⟩
  cases started with
  | error err => left; simp [Completion, h1, llmCalls]
  | ok addr =>
    rcases h2 : W.newPythonREPL addr w1 with ⟨failed, w2⟩
    cases failed with
    | some err => left; simp [Completion, h1, h2, llmCalls]
    | none =>
      cases h3 : marshalTarget W prompt contextData with
      | error err => left; simp [Completion, h1, h2, h3, llmCalls]
      | ok jsonStr =>
        right
        simp only [Completion, h1, h2, h3]
        exact ⟨_, _, addr, _, _, rfl, List.append_assoc _ _ _⟩

/-- In a run of the main loop, a failed LLM invocation is followed by the
increment of the error counter and the return of its error; the counter is
not incremented before. -/
theorem mainLoop_error_reply {ω ε δ : Type} (W : World ω ε δ) (r : RLM) (prompt : GoString) :
    ∀ (fuel i : Nat) (w : ω) (messages : List Message) (pre post : List (Event ε))
      (msgs : List Message) (err : ε),
      (mainLoop W r prompt fuel i w messages).trace =
        pre ++ Event.clientCompletion msgs (.error err) :: post →
      post = [Event.errorsInc] ∧
        (mainLoop W r prompt fuel i w messages).result = .error err ∧
        ∀ e ∈ pre, e.isErrorsInc = false := by
  intro fuel
  induction fuel with
  | zero =>
    intro i w messages pre post msgs err htr
    exfalso
    have hmem : Event.clientCompletion msgs (.error err) ∈
        (mainLoop W r prompt 0 i w messages).trace := by rw [htr]; simp
    simp [mainLoop] at hmem
  | succ fuel ih =>
    intro i w messages pre post msgs err htr
    cases hctx : W.ctxErr w with
    | some e0 =>
      exfalso
      rw [mainLoop_cancelled W r prompt fuel i w messages e0 hctx] at htr
      simp at htr
    | none =>
      rcases hllm : W.clientCompletion messages w with ⟨reply, w1⟩
      cases reply with
      | error err0 =>
        rw [mainLoop_client_error W r prompt fuel i w w1 messages err0 hctx hllm] at htr ⊢
        cases pre with
        | nil =>
          simp only [List.nil_append, List.cons.injEq, Event.clientCompletion.injEq,
            Except.error.injEq] at htr
          obtain ⟨⟨-, herr⟩, hpost⟩ := htr
          subst herr
          exact ⟨hpost.symm, rfl, by simp⟩
        | cons e pre =>
          exfalso
          simp only [List.cons_append, List.cons.injEq] at htr
          have hmem : Event.clientCompletion msgs (.error err) ∈
              ([Event.errorsInc] : List (Event ε)) := by rw [htr.2]; simp
          simp at hmem
      | ok resp =>
        by_cases hfin : FindFinalAnswer resp = []
        · obtain ⟨w2, messages2, results, -, hres, htr0⟩ :=
            mainLoop_continue_events W r prompt fuel i w w1 messages resp hctx hllm hfin
          rw [htr0] at htr
          cases pre with
          | nil => simp at htr
          | cons e pre =>
            simp only [List.cons_append, List.cons.injEq] at htr
            obtain ⟨pre', hpre, hrest⟩ := split_at_llm pre post _ _ msgs (.error err) htr.2.symm
              (llmCalls_zipWith_executeCode _ _)
            obtain ⟨h1, h2, h3⟩ := ih (i + 1) w2 messages2 pre' post msgs err hrest
            refine ⟨h1, hres.trans h2, ?_⟩
            intro x hx
            rcases List.mem_cons.mp hx with rfl | hx
            · rw [← htr.1]; rfl
            · rw [hpre] at hx
              rcases List.mem_append.mp hx with hx | hx
              · exact zipWith_executeCode_forall (fun e => e.isErrorsInc = false)
                  (fun _ _ => rfl) _ _ x hx
              · exact h3 x hx
        · obtain ⟨w2, evs, e1, -, -, -, htr0, -⟩ :=
            mainLoop_final_shape W r prompt fuel i w w1 messages resp hctx hllm hfin
          rw [htr0] at htr
          exfalso
          cases pre with
          | nil => simp at htr
          | cons e pre =>
            simp only [List.cons_append, List.cons.injEq] at htr
            obtain ⟨pre', -, hrest⟩ := split_at_llm pre post evs _ msgs (.error err)
              htr.2.symm e1
            have hmem : Event.clientCompletion msgs (.error err) ∈
                ([Event.observeIterations ((i : Int) + 1), Event.modelName (W.modelName w2),
                  Event.getUsageSummary (W.getUsageSummary w2)] : List (Event ε)) := by
              rw [hrest]; simp
            simp at hmem

/-- C17: an LLM client error is surfaced upward.  If an LLM invocation of the
run returns an error `err`, `Completion` returns no result and that same
error; what follows the invocation in the trace is the increment of the error
counter and the deferred calls only, so there is no further LLM invocation or
sandbox execution, and the counter is not incremented before it. -/
theorem Completion_client_error {ω ε δ : Type} (W : World ω ε δ) (r : RLM) (prompt : GoString)
    (contextData : Option δ) (w0 : ω) (pre post : List (Event ε)) (msgs : List Message)
    (err : ε)
    (htrace : (Completion W r prompt contextData w0).trace =
      pre ++ Event.clientCompletion msgs (.error err) :: post) :
    (Completion W r prompt contextData w0).result = .error err ∧
      post = [Event.errorsInc, Event.cleanup, Event.handlerStop, Event.observeDuration] ∧
      (∀ e ∈ pre, e.isErrorsInc = false) ∧
      llmCalls post = [] ∧ executed post = [] := by
  rcases Completion_cases_events W r prompt contextData w0 with
    h | ⟨w3, messages, addr, code, res, hres, htr⟩
  · exfalso
    apply llmCalls_ne_nil_of_mem _ msgs (.error err) _ h
    rw [htrace]
    simp
  · rw [htr] at htrace
    obtain ⟨pre', hpre, hrest⟩ := split_at_llm pre post _ _ msgs (.error err) htrace.symm rfl
    obtain ⟨post', hrun, hpost⟩ := split_at_llm_left pre' post _ _ msgs (.error err) hrest
      llmCalls_deferred
    obtain ⟨h1, h2, h3⟩ := mainLoop_error_reply W r prompt r.maxIterations.toNat 0 w3 messages
      pre' post' msgs err hrun
    have hp : post = [Event.errorsInc, Event.cleanup, Event.handlerStop,
        Event.observeDuration] := by rw [hpost, h1]; rfl
    refine ⟨hres.trans h2, hp, ?_, by rw [hp]; rfl, by rw [hp]; rfl⟩
    intro e he
    rw [hpre] at he
    rcases List.mem_append.mp he with he | he
    · simp only [List.mem_cons, List.mem_singleton, List.not_mem_nil, or_false] at he
      rcases he with rfl | rfl | rfl <;> rfl
    · exact h3 e he

/-- C17, on a client that answers `Thinking...` and then fails with
`quota exceeded`: `Completion` returns that error. -/
theorem Completion_client_error_witness :
    (Completion (mockWorldError [ascii "Thinking..."] (ascii "quota exceeded")) ⟨5, []⟩
        (ascii "q") none 0).result = .error (ascii "quota exceeded") ∧
      List.drop 5 (Completion (mockWorldError [ascii "Thinking..."] (ascii "quota exceeded"))
          ⟨5, []⟩ (ascii "q") none 0).trace =
        [Event.errorsInc, Event.cleanup, Event.handlerStop, Event.observeDuration] := by
  obtain ⟨h1, h2, -⟩ :=
    Completion_client_error (mockWorldError [ascii "Thinking..."] (ascii "quota exceeded"))
      ⟨5, []⟩ (ascii "q") none 0
      (List.take 4 (Completion (mockWorldError [ascii "Thinking..."] (ascii "quota exceeded"))
        ⟨5, []⟩ (ascii "q") none 0).trace)
      (List.drop 5 (Completion (mockWorldError [ascii "Thinking..."] (ascii "quota exceeded"))
        ⟨5, []⟩ (ascii "q") none 0).trace)
      [⟨ascii "system", []⟩, ⟨ascii "user", ascii "Query: q"⟩,
        ⟨ascii "assistant", ascii "Thinking..."⟩,
        ⟨ascii "user", ascii "Please continue or provide a FINAL(answer)."⟩]
      (ascii "quota exceeded") rfl
  exact ⟨h1, h2⟩

/-! ## Cancellation at an iteration boundary -/

/-- Whole iterations that do not return leave to the loop, from the state
they reach, the result to return; their calls come first in the trace, one LLM
invocation per iteration. -/
theorem mainLoop_iterates {ω ε δ : Type} (W : World ω ε δ) (r : RLM) (prompt : GoString) :
    ∀ (s : LoopState ω) (tr : List (Event ε)) (t : LoopState ω), Iterates W s tr t →
      (mainLoop W r prompt s.fuel s.i s.world s.messages).result =
          (mainLoop W r prompt t.fuel t.i t.world t.messages).result ∧
        (mainLoop W r prompt s.fuel s.i s.world s.messages).trace =
          tr ++ (mainLoop W r prompt t.fuel t.i t.world t.messages).trace ∧
        s.i + (llmCalls tr).length = t.i ∧
        executed tr = (llmReplies tr).flatMap FindCodeBlocks := by
  intro s tr t h
  induction h with
  | refl s => exact ⟨rfl, rfl, rfl, rfl⟩
  | @step fuel i w w1 messages resp tr t hctx hllm hfinal hrest ih =>
    obtain ⟨ih1, ih2, ih3, ih4⟩ := ih
    simp only at ih1 ih2 ih3 ⊢
    rw [mainLoop_continue W r prompt fuel i w w1 messages resp hctx hllm hfinal]
    refine ⟨ih1, ?_, ?_, ?_⟩
    · simp only [ih2, List.cons_append, List.append_assoc]
    · simp only [llmCalls, llmCalls_append, execBlocks_llmCalls, List.nil_append,
        List.length_cons]
      omega
    · simp only [executed, llmReplies, executed_append, llmReplies_append,
        execBlocks_executed, execBlocks_llmReplies, List.nil_append, List.flatMap_cons, ih4]

/-- C16: cancellation is checked at each iteration boundary.  After a
successful setup, if whole iterations lead the loop to the beginning of an
iteration at which the cancellation signal is set, `Completion` returns no
result and the cancellation error `ctx.Err()`; its trace is the calls of
setup, the calls of the iterations before, and the deferred calls, so neither
the LLM client nor the sandbox is invoked in that or any later iteration. -/
theorem Completion_cancelled_at_boundary {ω ε δ : Type} (W : World ω ε δ) (r : RLM)
    (prompt : GoString) (contextData : Option δ) (w0 w1 w2 : ω) (addr jsonStr : GoString)
    (hstart : W.handlerStart w0 = (.ok addr, w1))
    (hrepl : W.newPythonREPL addr w1 = (none, w2))
    (hjson : marshalTarget W prompt contextData = .ok jsonStr)
    (tr : List (Event ε)) (fuel i : Nat) (w : ω) (messages : List Message) (err : ε)
    (hiter : Iterates W
      ⟨r.maxIterations.toNat, 0, (W.executeCode (initCode W jsonStr) w2).2,
        initialMessages W r prompt contextData jsonStr⟩ tr ⟨fuel + 1, i, w, messages⟩)
    (hctx : W.ctxErr w = some err) :
    (Completion W r prompt contextData w0).result = .error err ∧
      (Completion W r prompt contextData w0).trace =
        [Event.handlerStart, Event.newPythonREPL addr,
          Event.executeCode (initCode W jsonStr) (W.executeCode (initCode W jsonStr) w2).1] ++
          tr ++ [Event.cleanup, Event.handlerStop, Event.observeDuration] ∧
      (llmCalls tr).length = i ∧
      executed tr = (llmReplies tr).flatMap FindCodeBlocks := by
  obtain ⟨h1, h2, h3, h4⟩ := mainLoop_iterates W r prompt _ tr _ hiter
  simp only at h1 h2 h3
  rw [mainLoop_cancelled W r prompt fuel i w messages err hctx] at h1 h2
  simp only [List.append_nil] at h2
  have hres : (Completion W r prompt contextData w0).result =
      (mainLoop W r prompt r.maxIterations.toNat 0 (W.executeCode (initCode W jsonStr) w2).2
        (initialMessages W r prompt contextData jsonStr)).result := by
    simp only [Completion, hstart, hrepl, hjson]
    rfl
  have htr : (Completion W r prompt contextData w0).trace =
      [Event.handlerStart, Event.newPythonREPL addr,
        Event.executeCode (initCode W jsonStr) (W.executeCode (initCode W jsonStr) w2).1] ++
        (mainLoop W r prompt r.maxIterations.toNat 0 (W.executeCode (initCode W jsonStr) w2).2
          (initialMessages W r prompt contextData jsonStr)).trace ++
        [Event.cleanup, Event.handlerStop, Event.observeDuration] := by
    simp only [Completion, hstart, hrepl, hjson]
    rfl
  refine ⟨hres.trans h1, by rw [htr, h2], by omega, h4⟩

/-- C16, on a context cancelled during the first LLM invocation: the first
iteration runs, the second begins cancelled, and `Completion` returns the
cancellation error after one LLM invocation. -/
theorem Completion_cancelled_at_boundary_witness :
    (Completion (mockWorldCancelled testThinking) ⟨5, []⟩ (ascii "Loop forever")
        none 0).result = .error (ascii "context canceled") ∧
      (llmCalls (Completion (mockWorldCancelled testThinking) ⟨5, []⟩ (ascii "Loop forever")
        none 0).trace).length = 1 := by
  have hiter : Iterates (mockWorldCancelled testThinking)
      ⟨(5 : Int).toNat, 0,
        ((mockWorldCancelled testThinking).executeCode
          (initCode (mockWorldCancelled testThinking) (ascii "Loop forever")) 0).2,
        initialMessages (mockWorldCancelled testThinking) ⟨5, []⟩ (ascii "Loop forever") none
          (ascii "Loop forever")⟩
      [Event.clientCompletion
        [⟨ascii "system", []⟩, ⟨ascii "user", ascii "Query: Loop forever"⟩]
        (.ok (ascii "Thinking..."))]
      ⟨3 + 1, 1, 1,
        [⟨ascii "system", []⟩, ⟨ascii "user", ascii "Query: Loop forever"⟩,
          ⟨ascii "assistant", ascii "Thinking..."⟩,
          ⟨ascii "user", ascii "Please continue or provide a FINAL(answer)."⟩]⟩ :=
    @Iterates.step _ _ _ _ 4 _ _ 1 _ (ascii "Thinking...") _ _ rfl rfl (by decide)
      (Iterates.refl _)
  obtain ⟨h1, h2, h3, -⟩ :=
    Completion_cancelled_at_boundary (mockWorldCancelled testThinking) ⟨5, []⟩
      (ascii "Loop forever") none 0 0 0 (ascii "127.0.0.1:0") (ascii "Loop forever") rfl rfl rfl
      _ 3 1 1 _ (ascii "context canceled") hiter rfl
  refine ⟨h1, ?_⟩
  rw [h2]
  rfl

/-! ## What `FindCodeBlocks` takes for a fence -/

theorem infix_of_prefix_drop (p s : GoString) (j : Nat) (h : p <+: s.drop j) : p <:+: s :=
  h.isInfix.trans (List.drop_suffix j s).isInfix

/-- Every block of `Blocks` lies in the text between the opening literal `l`
and the first closing literal `r` after it. -/
theorem Blocks_mem (l r : GoString) (hr : r ≠ []) :
    ∀ (pos : Nat) (s : GoString) (mbs : List (Match × GoString)), Blocks l r pos s mbs →
      ∀ mb ∈ mbs, ∃ pre post, s = pre ++ l ++ mb.2 ++ r ++ post ∧ ¬ r <:+: mb.2 := by
  intro pos s mbs h
  induction h with
  | done hf => intro mb hmb; simp at hmb
  | @step pos s i k rest hf hrest ih =>
    intro mb hmb
    rcases List.mem_cons.mp hmb with rfl | hmb
    · obtain ⟨h1, h2, -⟩ := (firstBlock_eq_some_iff l r s i k).mp hf
      obtain ⟨hl, hrp, hlen, hmin⟩ := (blockAt_eq_some_iff l r s i k h2).mp h1
      refine ⟨s.take i, s.drop (i + l.length + k + r.length), ?_, ?_⟩
      · have e1 : s = s.take i ++ s.drop i := (List.take_append_drop i s).symm
        have e2 : s.drop i = l ++ s.drop (i + l.length) := by
          have := List.prefix_iff_eq_append.mp hl
          rw [List.drop_drop] at this
          exact this.symm
        have e3 : s.drop (i + l.length) =
            slice s (i + l.length) (i + l.length + k) ++ s.drop (i + l.length + k) := by
          simp only [slice]
          rw [Nat.add_sub_cancel_left]
          have := (List.take_append_drop k (s.drop (i + l.length))).symm
          rw [List.drop_drop] at this
          exact this
        have e4 : s.drop (i + l.length + k) = r ++ s.drop (i + l.length + k + r.length) := by
          have := List.prefix_iff_eq_append.mp hrp
          rw [List.drop_drop] at this
          exact this.symm
        calc s = s.take i ++ s.drop i := e1
          _ = s.take i ++ (l ++ (slice s (i + l.length) (i + l.length + k) ++
                (r ++ s.drop (i + l.length + k + r.length)))) := by rw [e2, e3, e4]
          _ = _ := by simp only [List.append_assoc]
      · rintro ⟨a, c, hac⟩
        simp only at hac
        have hk : a.length + r.length ≤ k := by
          have := congrArg List.length hac
          simp only [slice, List.length_append, List.length_take, List.length_drop] at this
          omega
        have hrpos : 0 < r.length := List.length_pos.mpr hr
        apply hmin a.length (by omega)
        have hp : r <+: (slice s (i + l.length) (i + l.length + k)).drop a.length := by
          rw [← hac, List.append_assoc, List.drop_left]
          exact List.prefix_append _ _
        simp only [slice, List.drop_take, List.drop_drop] at hp
        have := hp.trans (List.take_prefix _ _)
        convert this using 2
    · obtain ⟨pre, post, hs, hn⟩ := ih mb hmb
      refine ⟨s.take (i + l.length + k + r.length) ++ pre, post, ?_, hn⟩
      have := (List.take_append_drop (i + l.length + k + r.length) s).symm
      rw [hs] at this
      simp only [List.append_assoc] at this ⊢
      exact this

/-- C18 as stated fails: in the text `x` + three backticks + `repl`, a line
with `code`, and three backticks + `python`, the opener is preceded by `x` on
its line and the closing backticks are followed by `python`, and the block
`code` is returned. -/
theorem FindCodeBlocks_fence_within_line :
    FindCodeBlocks (ascii "x```repl\ncode\n```python") = [ascii "code"] := by
  decide

/-- C18, amended: `FindCodeBlocks` takes for an opening fence the literal
three backticks + `repl` + line feed and for a closing fence the literal line
feed + three backticks, wherever they occur.  Every returned body lies in the
text between an opening literal and the first closing literal after it; and a
text in which the opening literal does not occur, as when the fences carry
another language tag, yields no block. -/
theorem FindCodeBlocks_fences (text : GoString) :
    (∀ b ∈ FindCodeBlocks text,
        ∃ pre post, text = pre ++ ascii "```repl\n" ++ b ++ ascii "\n```" ++ post ∧
          ¬ ascii "\n```" <:+: b) ∧
      (¬ ascii "```repl\n" <:+: text → FindCodeBlocks text = []) := by
  constructor
  · intro b hb
    obtain ⟨mbs, hB⟩ := Blocks_total (ascii "```repl\n") (ascii "\n```") (by decide)
      text.length text 0 (Nat.le_refl _)
    rw [(FindCodeBlocks_of_blocks text mbs hB).2] at hb
    obtain ⟨mb, hmb, rfl⟩ := List.mem_map.mp hb
    exact Blocks_mem _ _ (by decide) 0 text mbs hB mb hmb
  · intro hno
    have hf : firstBlock (ascii "```repl\n") (ascii "\n```") text = none := by
      rw [firstBlock_eq_none_iff]
      intro j _
      rw [blockAt_drop, if_neg (fun hp => hno (infix_of_prefix_drop _ _ j hp))]
    exact (FindCodeBlocks_of_blocks text [] (Blocks.done hf)).2

/-- C18, amended, on a text whose fence carries the tag `python`: no block. -/
theorem FindCodeBlocks_fences_witness :
    FindCodeBlocks (ascii "```python\ncode\n```") = [] :=
  (FindCodeBlocks_fences (ascii "```python\ncode\n```")).2 (by decide)

/-! ## The sandbox -/

theorem sandboxRun_start (decode : GoString → Except GoString replResponse) (r : PythonREPL)
    (steps : List SandboxStep) :
    sandboxRun decode r (SandboxStep.start :: steps) = sandboxRun decode r.executeStart steps :=
  rfl

theorem sandboxRun_add (decode : GoString → Except GoString replResponse) (r : PythonREPL)
    (call : RLMChatCompletion) (steps : List SandboxStep) :
    sandboxRun decode r (SandboxStep.add call :: steps) =
      sandboxRun decode (r.AddPendingCall call) steps :=
  rfl

theorem sandboxRun_finish (decode : GoString → Except GoString replResponse) (r : PythonREPL)
    (read : Except GoString GoString) (steps : List SandboxStep) :
    sandboxRun decode r (SandboxStep.finish read :: steps) =
      ((sandboxRun decode r steps).1,
        r.executeFinish decode read :: (sandboxRun decode r steps).2) :=
  rfl

theorem sandboxRun_append (decode : GoString → Except GoString replResponse) :
    ∀ (a b : List SandboxStep) (r : PythonREPL),
      sandboxRun decode r (a ++ b) =
        ((sandboxRun decode (sandboxRun decode r a).1 b).1,
          (sandboxRun decode r a).2 ++ (sandboxRun decode (sandboxRun decode r a).1 b).2) := by
  intro a
  induction a with
  | nil => intro b r; simp [sandboxRun]
  | cons s a ih =>
    intro b r
    cases s with
    | start => rw [List.cons_append, sandboxRun_start, sandboxRun_start, ih]
    | add call => rw [List.cons_append, sandboxRun_add, sandboxRun_add, ih]
    | finish read =>
      rw [List.cons_append, sandboxRun_finish, sandboxRun_finish, ih]
      rfl

theorem sandboxRun_adds (decode : GoString → Except GoString replResponse) :
    ∀ (calls : List RLMChatCompletion) (steps : List SandboxStep) (r : PythonREPL),
      sandboxRun decode r (calls.map SandboxStep.add ++ steps) =
        sandboxRun decode { r with pendingCalls := r.pendingCalls ++ calls } steps := by
  intro calls
  induction calls with
  | nil => intro steps r; simp
  | cons c calls ih =>
    intro steps r
    rw [List.map_cons, List.cons_append, sandboxRun_add, ih]
    simp only [PythonREPL.AddPendingCall, List.append_assoc, List.singleton_append]

/-- C11: sub-call attribution.  Whatever steps came before (earlier
executions, calls added during or after them), an `ExecuteCode` that starts,
during which the calls `calls` are passed to `AddPendingCall` in that order,
and that ends on a decodable frame, returns exactly `calls` as its
`RLMCalls`. -/
theorem sandboxRun_attribution (decode : GoString → Except GoString replResponse)
    (r : PythonREPL) (pre : List SandboxStep) (calls : List RLMChatCompletion)
    (line : GoString) (frame : replResponse) (hdecode : decode line = .ok frame) :
    (sandboxRun decode r
        (pre ++ SandboxStep.start ::
          (calls.map SandboxStep.add ++ [SandboxStep.finish (.ok line)]))).2.getLast? =
      some { Stdout := frame.Stdout, Stderr := frame.Stderr ++ frame.Error, RLMCalls := calls } := by
  rw [sandboxRun_append, sandboxRun_start, sandboxRun_adds, sandboxRun_finish]
  simp only [sandboxRun, PythonREPL.executeStart, PythonREPL.executeFinish, hdecode,
    List.nil_append]
  rw [List.getLast?_append_of_ne_nil _ (by simp)]
  rfl

/-- C11, on a sandbox in which an earlier execution received the call `a`
and the call `b` arrived between the executions: the next execution, which
receives `c` and `d`, returns `[c, d]`. -/
theorem sandboxRun_attribution_witness :
    (sandboxRun testDecode testRepl
        ([SandboxStep.start, SandboxStep.add (testCall (ascii "a")),
            SandboxStep.finish (.ok (ascii "ok\n")), SandboxStep.add (testCall (ascii "b"))] ++
          SandboxStep.start ::
            ([testCall (ascii "c"), testCall (ascii "d")].map SandboxStep.add ++
              [SandboxStep.finish (.ok (ascii "ok\n"))]))).2.getLast? =
      some { Stdout := ascii "hello\n", Stderr := [] ++ [],
             RLMCalls := [testCall (ascii "c"), testCall (ascii "d")] } :=
  sandboxRun_attribution testDecode testRepl _ [testCall (ascii "c"), testCall (ascii "d")]
    (ascii "ok\n") ⟨ascii "hello\n", [], [], true⟩ rfl

/-- C14: `ExecuteCode` on a started sandbox always returns a result, and
reports infrastructure errors in `Stderr`: a failed read gives
`Failed to read from REPL: ` and the error text, a line that does not decode
gives `Failed to parse REPL response: ` and the error text, both with empty
`Stdout` and no sub-calls; a decodable frame gives its `stdout` and its
`stderr` followed by its `error`. -/
theorem ExecuteCode_result (decode : GoString → Except GoString replResponse)
    (r : PythonREPL) (code : GoString) (read : Except GoString GoString)
    (hin : r.stdin ≠ none) (hout : r.stdout = true) :
    ∃ res r', r.ExecuteCode decode code read = some (res, r') ∧
      match read with
      | .error err =>
        res = { Stdout := [], Stderr := ascii "Failed to read from REPL: " ++ err, RLMCalls := [] }
      | .ok line =>
        match decode line with
        | .error err =>
          res = { Stdout := [], Stderr := ascii "Failed to parse REPL response: " ++ err,
                  RLMCalls := [] }
        | .ok frame => res.Stdout = frame.Stdout ∧ res.Stderr = frame.Stderr ++ frame.Error := by
  cases hs : r.stdin with
  | none => exact absurd hs hin
  | some p =>
    refine ⟨r.executeStart.executeFinish decode read, r.executeStart, ?_, ?_⟩
    · simp only [PythonREPL.ExecuteCode, hs, hout]
    · cases read with
      | error err => simp only [PythonREPL.executeFinish]
      | ok line =>
        simp only [PythonREPL.executeFinish]
        cases decode line with
        | error err => simp only
        | ok frame => simp only [and_self]

/-- C14, on a child that died (the read fails with `EOF`) and on a line that
is not a frame. -/
theorem ExecuteCode_result_witness :
    testRepl.ExecuteCode testDecode (ascii "print(1)") (.error (ascii "EOF")) =
        some ({ Stdout := [], Stderr := ascii "Failed to read from REPL: EOF", RLMCalls := [] },
          testRepl) ∧
      testRepl.ExecuteCode testDecode (ascii "print(1)") (.ok (ascii "Traceback\n")) =
        some ({ Stdout := [],
                Stderr := ascii "Failed to parse REPL response: invalid character",
                RLMCalls := [] }, testRepl) := by
  obtain ⟨res1, r1, h1, h1'⟩ := ExecuteCode_result testDecode testRepl (ascii "print(1)")
    (.error (ascii "EOF")) (by decide) rfl
  obtain ⟨res2, r2, h2, h2'⟩ := ExecuteCode_result testDecode testRepl (ascii "print(1)")
    (.ok (ascii "Traceback\n")) (by decide) rfl
  exact ⟨by decide, by decide⟩

/-- C19: `Cleanup` is safe and idempotent.  On the zero value it does not
panic and changes nothing; and after a `Cleanup` that returned, a second
`Cleanup` returns too and changes nothing further, neither in the sandbox nor
on the host. -/
theorem Cleanup_idempotent :
    (∀ host : Host, PythonREPL.zero.Cleanup host = some (PythonREPL.zero, host)) ∧
      ∀ (r r' : PythonREPL) (host host' : Host), r.Cleanup host = some (r', host') →
        r'.Cleanup host' = some (r', host') := by
  have hrem : ∀ (p : GoString) (h : Host), removeAll p (removeAll p h) = removeAll p h := by
    intro p h
    unfold removeAll
    by_cases hp : p = []
    · simp [hp]
    · simp only [hp, if_false, List.filter_filter, Bool.and_self]
  constructor
  · intro host
    rfl
  · intro r r' host host' h
    obtain ⟨cmd, stdin, stdout, addr, pending, dir⟩ := r
    cases cmd with
    | none =>
      simp only [PythonREPL.Cleanup, Option.some.injEq, Prod.mk.injEq] at h
      obtain ⟨rfl, rfl⟩ := h
      cases stdin <;> simp [PythonREPL.Cleanup, hrem]
    | some c =>
      obtain ⟨proc⟩ := c
      cases proc with
      | none => simp [PythonREPL.Cleanup] at h
      | some p =>
        simp only [PythonREPL.Cleanup, Option.some.injEq, Prod.mk.injEq] at h
        obtain ⟨rfl, rfl⟩ := h
        cases stdin <;> simp [PythonREPL.Cleanup, hrem]

/-- C19, on a started sandbox with its temporary directory: the second
`Cleanup` changes nothing. -/
theorem Cleanup_idempotent_witness :
    testRepl.Cleanup [ascii "/tmp/rlm-repl-1", ascii "/tmp/rlm-repl-1/wrapper.py", ascii "/home"] =
        some ({ testRepl with stdin := some PipeState.closed,
                              cmd := some ⟨some ProcessState.killed⟩ }, [ascii "/home"]) ∧
      PythonREPL.Cleanup { testRepl with stdin := some PipeState.closed,
                                         cmd := some ⟨some ProcessState.killed⟩ }
          [ascii "/home"] =
        some ({ testRepl with stdin := some PipeState.closed,
                              cmd := some ⟨some ProcessState.killed⟩ }, [ascii "/home"]) :=
  ⟨by decide, Cleanup_idempotent.2 testRepl _
    [ascii "/tmp/rlm-repl-1", ascii "/tmp/rlm-repl-1/wrapper.py", ascii "/home"] _ (by decide)⟩

/-! ## The callback handler -/

/-- C13: for a well-formed `/query` request the client is invoked with one
`user` message holding the prompt.  On success with text `resp` the handler
responds with `resp` and records one sub-call with the client's model name,
the prompt and `resp`, whatever model the request named; on a client error it
responds with status 500 and the error text, and records nothing. -/
theorem handleQuery_records {ω ε δ ρ : Type} (W : World ω ε δ) (errText : ε → GoString)
    (record : RLMChatCompletion → ρ → ρ) (req : queryRequest) (w : ω) (repl : ρ) :
    match W.clientCompletion [⟨ascii "user", req.Prompt⟩] w with
    | (.ok resp, w1) =>
      (handleQuery W errText record (.ok req) w repl).reply = HttpReply.queryResponse resp ∧
        (handleQuery W errText record (.ok req) w repl).trace =
          [HandlerEvent.clientCompletion [⟨ascii "user", req.Prompt⟩] (.ok resp),
            HandlerEvent.modelName (W.modelName w1),
            HandlerEvent.addPendingCall
              { RootModel := W.modelName w1, Prompt := req.Prompt, Response := resp,
                UsageSummary := ⟨0, 0, 0⟩ }] ∧
        (handleQuery W errText record (.ok req) w repl).repl =
          record { RootModel := W.modelName w1, Prompt := req.Prompt, Response := resp,
                   UsageSummary := ⟨0, 0, 0⟩ } repl
    | (.error err, _) =>
      (handleQuery W errText record (.ok req) w repl).reply =
          HttpReply.error 500 (errText err ++ ascii "\n") ∧
        (handleQuery W errText record (.ok req) w repl).trace =
          [HandlerEvent.clientCompletion [⟨ascii "user", req.Prompt⟩] (.error err)] ∧
        (handleQuery W errText record (.ok req) w repl).repl = repl := by
  simp only [handleQuery, userMessage, subCall, httpError, StatusInternalServerError]
  rcases h : W.clientCompletion [⟨ascii "user", req.Prompt⟩] w with ⟨reply, w1⟩
  cases reply with
  | error err => simp only [and_self]
  | ok resp => simp only [and_self]

theorem batchStep_lengths {ω ε δ ρ : Type} (W : World ω ε δ)
    (record : RLMChatCompletion → ρ → ρ) (prompts : List GoString) (st : BatchState ω ε ρ)
    (s : BatchStep) :
    (batchStep W record prompts st s).replies.length = st.replies.length ∧
      (batchStep W record prompts st s).responses.length = st.responses.length := by
  cases s with
  | call i =>
    simp only [batchStep]
    split <;> simp
  | store i =>
    simp only [batchStep]
    split <;> simp

theorem batchStep_frame {ω ε δ ρ : Type} (W : World ω ε δ)
    (record : RLMChatCompletion → ρ → ρ) (prompts : List GoString) (st : BatchState ω ε ρ)
    (s : BatchStep) (i : Nat) :
    (s ≠ BatchStep.call i → (batchStep W record prompts st s).replies[i]? = st.replies[i]?) ∧
      (s ≠ BatchStep.store i →
        (batchStep W record prompts st s).responses[i]? = st.responses[i]?) ∧
      ∀ e ∈ st.trace, e ∈ (batchStep W record prompts st s).trace := by
  cases s with
  | call j =>
    simp only [batchStep]
    split
    · simp
    · refine ⟨?_, by simp, ?_⟩
      · intro hne
        have hji : j ≠ i := fun h => hne (by rw [h])
        simp only [List.getElem?_set_ne hji]
      · intro e he
        exact List.mem_append_left _ he
  | store j =>
    simp only [batchStep]
    split
    · refine ⟨by simp, ?_, ?_⟩
      · intro hne
        have hji : j ≠ i := fun h => hne (by rw [h])
        simp only [List.getElem?_set_ne hji]
      · intro e he
        exact List.mem_append_left _ he
    · simp

theorem batchRun_lengths {ω ε δ ρ : Type} (W : World ω ε δ)
    (record : RLMChatCompletion → ρ → ρ) (prompts : List GoString) :
    ∀ (steps : List BatchStep) (st : BatchState ω ε ρ),
      (steps.foldl (batchStep W record prompts) st).replies.length = st.replies.length ∧
        (steps.foldl (batchStep W record prompts) st).responses.length =
          st.responses.length := by
  intro steps
  induction steps with
  | nil => intro st; exact ⟨rfl, rfl⟩
  | cons s steps ih =>
    intro st
    rw [List.foldl_cons]
    obtain ⟨h1, h2⟩ := ih (batchStep W record prompts st s)
    obtain ⟨h3, h4⟩ := batchStep_lengths W record prompts st s
    exact ⟨h1.trans h3, h2.trans h4⟩

theorem batchRun_frame {ω ε δ ρ : Type} (W : World ω ε δ)
    (record : RLMChatCompletion → ρ → ρ) (prompts : List GoString) (i : Nat) :
    ∀ (steps : List BatchStep) (st : BatchState ω ε ρ),
      (BatchStep.call i ∉ steps →
          (steps.foldl (batchStep W record prompts) st).replies[i]? = st.replies[i]?) ∧
        (BatchStep.store i ∉ steps →
          (steps.foldl (batchStep W record prompts) st).responses[i]? = st.responses[i]?) ∧
        ∀ e ∈ st.trace, e ∈ (steps.foldl (batchStep W record prompts) st).trace := by
  intro steps
  induction steps with
  | nil => intro st; exact ⟨fun _ => rfl, fun _ => rfl, fun _ he => he⟩
  | cons s steps ih =>
    intro st
    rw [List.foldl_cons]
    obtain ⟨h1, h2, h3⟩ := ih (batchStep W record prompts st s)
    obtain ⟨f1, f2, f3⟩ := batchStep_frame W record prompts st s i
    refine ⟨?_, ?_, fun e he => h3 e (f3 e he)⟩
    · intro hn
      rw [h1 (fun h => hn (List.mem_cons_of_mem _ h)),
        f1 (fun h => hn (by rw [h]; exact List.mem_cons_self _ _))]
    · intro hn
      rw [h2 (fun h => hn (List.mem_cons_of_mem _ h)),
        f2 (fun h => hn (by rw [h]; exact List.mem_cons_self _ _))]

/-- C12: for every list of prompts sent to `/query_batched` and every
schedule of the goroutines, the `responses` of the reply have the length of
the prompts, and slot `i` holds what the client returned to goroutine `i`,
the one that calls it with prompt `i`: the text of that very invocation when
it succeeded, the empty string when it failed, whatever the other invocations
were given and returned.  The invocation of goroutine `i` is the step
`call i` of the schedule, made in the world that the steps before it left. -/
theorem handleQueryBatched_slots {ω ε δ ρ : Type} (W : World ω ε δ)
    (record : RLMChatCompletion → ρ → ρ) (prompts : List GoString) (model : Option GoString)
    (schedule : List BatchStep) (w : ω) (repl : ρ)
    (hs : CompleteSchedule prompts.length schedule) :
    ∃ responses,
      (handleQueryBatched W record (.ok ⟨prompts, model⟩) schedule w repl).reply =
        HttpReply.batchedQueryResponse responses ∧
      responses.length = prompts.length ∧
      ∀ (i : Nat) (p : GoString), prompts[i]? = some p →
        (∃ a b c, schedule = a ++ BatchStep.call i :: (b ++ BatchStep.store i :: c) ∧
          BatchStep.call i ∉ a ++ b ++ c ∧ BatchStep.store i ∉ a ++ b ++ c) ∧
        ∀ a b c, schedule = a ++ BatchStep.call i :: (b ++ BatchStep.store i :: c) →
          BatchStep.call i ∉ a ++ b ++ c → BatchStep.store i ∉ a ++ b ++ c →
          HandlerEvent.clientCompletion [⟨ascii "user", p⟩]
              (batchReply W record prompts w repl a p) ∈
            (handleQueryBatched W record (.ok ⟨prompts, model⟩) schedule w repl).trace ∧
          responses[i]? = some (slotOf (batchReply W record prompts w repl a p)) := by
  simp only [handleQueryBatched]
  refine ⟨_, rfl, ?_, ?_⟩
  · rw [(batchRun_lengths W record prompts schedule _).2]
    simp
  · intro i p hp
    have hi : i < prompts.length := by
      by_contra hc
      rw [List.getElem?_eq_none (by omega)] at hp
      simp at hp
    refine ⟨hs i hi, ?_⟩
    intro a b c hsched hcall hstore
    have hcb : BatchStep.call i ∉ b := fun h => hcall (by simp [h])
    have hsa : BatchStep.store i ∉ a := fun h => hstore (by simp [h])
    have hsb : BatchStep.store i ∉ b := fun h => hstore (by simp [h])
    have hsc : BatchStep.store i ∉ c := fun h => hstore (by simp [h])
    rw [hsched]
    simp only [List.foldl_append, List.foldl_cons, batchReply, userMessage]
    have hinit : (batchInit prompts w repl : BatchState ω ε ρ) =
        BatchState.mk w repl (List.replicate prompts.length none)
          (List.replicate prompts.length ([] : GoString)) ([] : List (HandlerEvent ε)) := rfl
    rw [hinit]
    generalize hst0 : BatchState.mk w repl (List.replicate prompts.length none)
      (List.replicate prompts.length ([] : GoString)) ([] : List (HandlerEvent ε)) = st0
    have h0 : st0.responses[i]? = some [] ∧ st0.responses.length = prompts.length := by
      rw [← hst0]; simp [hi]
    generalize hst1 : a.foldl (batchStep W record prompts) st0 = st1
    have h1 : st1.responses[i]? = some [] ∧ st1.responses.length = prompts.length ∧
        st1.replies.length = prompts.length := by
      rw [← hst1]
      refine ⟨((batchRun_frame W record prompts i a st0).2.1 hsa).trans h0.1,
        (batchRun_lengths W record prompts a st0).2.trans h0.2, ?_⟩
      rw [(batchRun_lengths W record prompts a st0).1, ← hst0]
      simp
    generalize hst2 : batchStep W record prompts st1 (BatchStep.call i) = st2
    have h2 : st2.responses[i]? = some [] ∧ st2.responses.length = prompts.length ∧
        st2.replies[i]? = some (some (W.clientCompletion [⟨ascii "user", p⟩] st1.world).1) ∧
        HandlerEvent.clientCompletion [⟨ascii "user", p⟩]
          (W.clientCompletion [⟨ascii "user", p⟩] st1.world).1 ∈ st2.trace := by
      rw [← hst2]
      simp only [batchStep, hp, userMessage]
      refine ⟨h1.1, h1.2.1, ?_, by simp⟩
      rw [List.getElem?_set_self (by omega)]
    generalize hst3 : b.foldl (batchStep W record prompts) st2 = st3
    have h3 : st3.responses[i]? = some [] ∧ st3.responses.length = prompts.length ∧
        st3.replies[i]? = some (some (W.clientCompletion [⟨ascii "user", p⟩] st1.world).1) ∧
        HandlerEvent.clientCompletion [⟨ascii "user", p⟩]
          (W.clientCompletion [⟨ascii "user", p⟩] st1.world).1 ∈ st3.trace := by
      rw [← hst3]
      exact ⟨((batchRun_frame W record prompts i b st2).2.1 hsb).trans h2.1,
        (batchRun_lengths W record prompts b st2).2.trans h2.2.1,
        ((batchRun_frame W record prompts i b st2).1 hcb).trans h2.2.2.1,
        (batchRun_frame W record prompts i b st2).2.2 _ h2.2.2.2⟩
    generalize hst4 : batchStep W record prompts st3 (BatchStep.store i) = st4
    have h4 : st4.responses[i]? =
          some (slotOf (W.clientCompletion [⟨ascii "user", p⟩] st1.world).1) ∧
        HandlerEvent.clientCompletion [⟨ascii "user", p⟩]
          (W.clientCompletion [⟨ascii "user", p⟩] st1.world).1 ∈ st4.trace := by
      rw [← hst4]
      refine ⟨?_, (batchStep_frame W record prompts st3 (BatchStep.store i) i).2.2 _ h3.2.2.2⟩
      simp only [batchStep, hp, List.getD_eq_getElem?_getD, h3.2.2.1, Option.getD_some]
      cases hr : (W.clientCompletion [⟨ascii "user", p⟩] st1.world).1 with
      | error err => simp only [slotOf]; exact h3.1
      | ok resp =>
        simp only [slotOf]
        rw [List.getElem?_set_self (by omega)]
    exact ⟨(batchRun_frame W record prompts i c st4).2.2 _ h4.2,
      ((batchRun_frame W record prompts i c st4).2.1 hsc).trans h4.1⟩

/-- C12, on the same prompt sent twice, the goroutines running out of order
and the client answering `A` to its first invocation and failing on the
second: goroutine 1 calls first, so slot 1 holds `A`, the reply to its own
invocation, and slot 0 is empty. -/
theorem handleQueryBatched_slots_witness :
    (handleQueryBatched (mockWorldError [ascii "A"] (ascii "boom")) replProxy.AddPendingCall
        (.ok ⟨[ascii "p", ascii "p"], none⟩)
        [BatchStep.call 1, BatchStep.call 0, BatchStep.store 0, BatchStep.store 1] 0
        (some testRepl)).reply =
      HttpReply.batchedQueryResponse [[], ascii "A"] := by
  have hs : CompleteSchedule [ascii "p", ascii "p"].length
      [BatchStep.call 1, BatchStep.call 0, BatchStep.store 0, BatchStep.store 1] := by
    intro i hi
    have hcases : i = 0 ∨ i = 1 := by
      simp only [List.length_cons, List.length_nil] at hi
      omega
    rcases hcases with rfl | rfl
    · exact ⟨[BatchStep.call 1], [], [BatchStep.store 1], rfl, by decide, by decide⟩
    · exact ⟨[], [BatchStep.call 0, BatchStep.store 0], [], rfl, by decide, by decide⟩
  obtain ⟨responses, h1, h2, h3⟩ :=
    handleQueryBatched_slots (mockWorldError [ascii "A"] (ascii "boom"))
      replProxy.AddPendingCall [ascii "p", ascii "p"] none
      [BatchStep.call 1, BatchStep.call 0, BatchStep.store 0, BatchStep.store 1] 0
      (some testRepl) hs
  have s0 := ((h3 0 (ascii "p") rfl).2 [BatchStep.call 1] [] [BatchStep.store 1] rfl
    (by decide) (by decide)).2
  have s1 := ((h3 1 (ascii "p") rfl).2 [] [BatchStep.call 0, BatchStep.store 0] [] rfl
    (by decide) (by decide)).2
  have e0 : slotOf (batchReply (mockWorldError [ascii "A"] (ascii "boom"))
      replProxy.AddPendingCall [ascii "p", ascii "p"] 0 (some testRepl) [BatchStep.call 1]
      (ascii "p")) = [] := by decide
  have e1 : slotOf (batchReply (mockWorldError [ascii "A"] (ascii "boom"))
      replProxy.AddPendingCall [ascii "p", ascii "p"] 0 (some testRepl) []
      (ascii "p")) = ascii "A" := by decide
  rw [e0] at s0
  rw [e1] at s1
  rw [h1]
  congr 1
  apply List.ext_getElem?
  intro n
  match n with
  | 0 => rw [s0]; rfl
  | 1 => rw [s1]; rfl
  | n + 2 =>
    rw [List.getElem?_eq_none (by rw [h2]; simp), List.getElem?_eq_none (by simp)]

/-! ## The literal that `%q` writes, read by Python -/

theorem hexVal_lowerhex (d : Nat) (h : d < 16) : hexVal (lowerhex d) = some d := by
  unfold hexVal lowerhex
  split_ifs <;> first | omega | (congr 1; omega)

theorem validRune_iff (r : Nat) : ValidRune r = true ↔ r < 0xD800 ∨ (0xDFFF < r ∧ r ≤ 0x10FFFF) := by
  simp [ValidRune, MaxRune]

theorem AppendRune_high (r : Nat) (h : 0x80 ≤ r) : ∀ b ∈ AppendRune r, 0x80 ≤ b := by
  intro b hb
  unfold AppendRune at hb
  split_ifs at hb <;> simp at hb <;> omega

theorem foldl_pyStep_raw (bs : GoString) :
    ∀ out : GoString, (∀ b ∈ bs, b ≠ 0x22 ∧ b ≠ 0x5C ∧ b ≠ 0x0A ∧ b ≠ 0x0D ∧ b ≠ 0) →
      bs.foldl pyStep (.body out) = .body (out ++ bs) := by
  induction bs with
  | nil => intro out _; simp
  | cons b bs ih =>
    intro out h
    obtain ⟨h1, h2, h3, h4, h5⟩ := h b (List.mem_cons_self _ _)
    have hstep : pyStep (.body out) b = .body (out ++ [b]) := by
      simp [pyStep, pyBodyStep, h1, h2, h3, h4, h5]
    rw [List.foldl_cons, hstep, ih _ (fun c hc => h c (List.mem_cons_of_mem _ hc))]
    simp

theorem pyStep_hex (out : GoString) (left acc d : Nat) (h : d < 16) :
    pyStep (.hex out left acc) (lowerhex d) =
      if left ≤ 1 then pyEmit out (16 * acc + d) else .hex out (left - 1) (16 * acc + d) := by
  simp only [pyStep, hexVal_lowerhex d h]

theorem AppendRune_ascii (r : Nat) (h : r ≤ 0x7F) : AppendRune r = [r] := by
  unfold AppendRune; rw [if_pos h]

theorem IsPrint_ascii (table : Nat → Bool) (r : Nat) (h : r ≤ 0x7F)
    (hp : IsPrint table r = true) : 0x20 ≤ r ∧ r ≤ 0x7E := by
  unfold IsPrint at hp
  rw [if_pos (by omega)] at hp
  by_contra hcon
  rw [if_neg hcon, if_neg (by omega)] at hp
  exact Bool.false_ne_true hp

theorem foldl_pyStep_named (out : GoString) (c v : Nat)
    (h : pyEscapeStep out c = .body (out ++ [v])) :
    [0x5C, c].foldl pyStep (.body out) = .body (out ++ [v]) := by
  simp only [List.foldl_cons, List.foldl_nil]
  exact h

theorem foldl_pyStep_escaped (table : Nat → Bool) (r : Nat) (hr : ValidRune r = true)
    (out : GoString) :
    (appendEscapedRune table r).foldl pyStep (.body out) = .body (out ++ AppendRune r) := by
  have hv := (validRune_iff r).1 hr
  unfold appendEscapedRune
  by_cases h1 : r = 0x22 ∨ r = 0x5C
  · rw [if_pos h1, AppendRune_ascii r (by omega)]
    rcases h1 with h1 | h1 <;> subst h1 <;> rfl
  rw [if_neg h1]
  by_cases h2 : IsPrint table r = true
  · rw [if_pos h2]
    by_cases hlow : r ≤ 0x7F
    · have hp := IsPrint_ascii table r hlow h2
      rw [AppendRune_ascii r hlow]
      refine foldl_pyStep_raw [r] out ?_
      intro b hb
      rw [List.mem_singleton] at hb
      omega
    · refine foldl_pyStep_raw _ out ?_
      intro b hb
      have := AppendRune_high r (by omega) b hb
      omega
  rw [if_neg h2]
  by_cases h3 : r = 7
  · subst h3; rfl
  rw [if_neg h3]
  by_cases h4 : r = 8
  · subst h4; rfl
  rw [if_neg h4]
  by_cases h5 : r = 12
  · subst h5; rfl
  rw [if_neg h5]
  by_cases h6 : r = 10
  · subst h6; rfl
  rw [if_neg h6]
  by_cases h7 : r = 13
  · subst h7; rfl
  rw [if_neg h7]
  by_cases h8 : r = 9
  · subst h8; rfl
  rw [if_neg h8]
  by_cases h9 : r = 11
  · subst h9; rfl
  rw [if_neg h9]
  have hx : ascii "\\x" = [0x5C, 0x78] := rfl
  have hu : ascii "\\u" = [0x5C, 0x75] := rfl
  have hU : ascii "\\U" = [0x5C, 0x55] := rfl
  by_cases h10 : r < 0x20 ∨ r = 0x7F
  · rw [if_pos h10, hx]
    simp only [List.cons_append, List.nil_append, List.foldl_cons, List.foldl_nil]
    have e1 : pyStep (.body out) 0x5C = .escape out := rfl
    have e2 : pyStep (.escape out) 0x78 = .hex out 2 0 := rfl
    rw [e1, e2, pyStep_hex _ _ _ _ (by omega), if_neg (by omega),
      pyStep_hex _ _ _ _ (by omega), if_pos (by omega)]
    have : 16 * (16 * 0 + r / 16) + r % 16 = r := by omega
    rw [this, pyEmit, if_pos hr]
  rw [if_neg h10]
  rw [if_neg (by simp [hr])]
  by_cases h11 : r < 0x10000
  · rw [if_pos h11, hu]
    simp only [List.cons_append, List.nil_append, List.foldl_cons, List.foldl_nil]
    have e1 : pyStep (.body out) 0x5C = .escape out := rfl
    have e2 : pyStep (.escape out) 0x75 = .hex out 4 0 := rfl
    rw [e1, e2, pyStep_hex _ _ _ _ (by omega), if_neg (by omega),
      pyStep_hex _ _ _ _ (by omega), if_neg (by omega),
      pyStep_hex _ _ _ _ (by omega), if_neg (by omega),
      pyStep_hex _ _ _ _ (by omega), if_pos (by omega)]
    have : 16 * (16 * (16 * (16 * 0 + r / 4096 % 16) + r / 256 % 16) + r / 16 % 16) + r % 16
        = r := by omega
    rw [this, pyEmit, if_pos hr]
  · rw [if_neg h11, hU]
    simp only [List.cons_append, List.nil_append, List.foldl_cons, List.foldl_nil]
    have e1 : pyStep (.body out) 0x5C = .escape out := rfl
    have e2 : pyStep (.escape out) 0x55 = .hex out 8 0 := rfl
    rw [e1, e2, pyStep_hex _ _ _ _ (by omega), if_neg (by omega),
      pyStep_hex _ _ _ _ (by omega), if_neg (by omega),
      pyStep_hex _ _ _ _ (by omega), if_neg (by omega),
      pyStep_hex _ _ _ _ (by omega), if_neg (by omega),
      pyStep_hex _ _ _ _ (by omega), if_neg (by omega),
      pyStep_hex _ _ _ _ (by omega), if_neg (by omega),
      pyStep_hex _ _ _ _ (by omega), if_neg (by omega),
      pyStep_hex _ _ _ _ (by omega), if_pos (by omega)]
    have : 16 * (16 * (16 * (16 * (16 * (16 * (16 * (16 * 0 + r / 268435456 % 16) +
        r / 16777216 % 16) + r / 1048576 % 16) + r / 65536 % 16) + r / 4096 % 16) +
        r / 256 % 16) + r / 16 % 16) + r % 16 = r := by omega
    rw [this, pyEmit, if_pos hr]

theorem foldl_pyStep_runes (table : Nat → Bool) (runes : List Nat) :
    ∀ out : GoString, (∀ r ∈ runes, ValidRune r = true) →
      (runes.flatMap (appendEscapedRune table)).foldl pyStep (.body out) =
        .body (out ++ runes.flatMap AppendRune) := by
  induction runes with
  | nil => intro out _; simp
  | cons r runes ih =>
    intro out h
    rw [List.flatMap_cons, List.foldl_append,
      foldl_pyStep_escaped table r (h r (List.mem_cons_self _ _)) out,
      ih _ (fun c hc => h c (List.mem_cons_of_mem _ hc)), List.flatMap_cons, List.append_assoc]

theorem DecodeRuneInString_two (b0 b1 : Nat) (t : GoString) (h0 : 0xC2 ≤ b0) (h0u : b0 < 0xE0)
    (h1 : 0x80 ≤ b1) (h1u : b1 ≤ 0xBF) :
    DecodeRuneInString (b0 :: b1 :: t) = (b0 % 32 * 64 + b1 % 64, 2) := by
  have f1 : ¬ b0 < 128 := by omega
  have f2 : ¬ (b0 < 194 ∨ 244 < b0) := by omega
  have f3 : ¬ b0 = 224 := by omega
  have f4 : ¬ b0 = 240 := by omega
  have f5 : ¬ b0 = 237 := by omega
  have f6 : ¬ b0 = 244 := by omega
  have f7 : ¬ (b1 < 128 ∨ 191 < b1) := by omega
  simp [DecodeRuneInString, f1, f2, f3, f4, f5, f6, f7, h0u]

theorem DecodeRuneInString_three (b0 b1 b2 : Nat) (t : GoString) (h0 : 0xE0 ≤ b0)
    (h0u : b0 < 0xF0) (h1 : 0x80 ≤ b1) (h1u : b1 ≤ 0xBF) (hlo : b0 = 0xE0 → 0xA0 ≤ b1)
    (hhi : b0 = 0xED → b1 ≤ 0x9F) (h2 : 0x80 ≤ b2) (h2u : b2 ≤ 0xBF) :
    DecodeRuneInString (b0 :: b1 :: b2 :: t) =
      (b0 % 16 * 4096 + b1 % 64 * 64 + b2 % 64, 3) := by
  have f1 : ¬ b0 < 128 := by omega
  have f2 : ¬ (b0 < 194 ∨ 244 < b0) := by omega
  have f3 : ¬ b0 < 224 := by omega
  have f4 : ¬ b0 = 240 := by omega
  have f6 : ¬ b0 = 244 := by omega
  have f7 : ¬ (b2 < 128 ∨ 191 < b2) := by omega
  have f8 : ¬ ((if b0 = 224 then 160 else 128) > b1 ∨ b1 > (if b0 = 237 then 159 else 191)) := by
    split_ifs <;> omega
  simp only [gt_iff_lt] at f8
  simp [DecodeRuneInString, f1, f2, f3, f4, f6, f7, f8, h0u]

theorem DecodeRuneInString_four (b0 b1 b2 b3 : Nat) (t : GoString) (h0 : 0xF0 ≤ b0)
    (h0u : b0 ≤ 0xF4) (h1 : 0x80 ≤ b1) (h1u : b1 ≤ 0xBF) (hlo : b0 = 0xF0 → 0x90 ≤ b1)
    (hhi : b0 = 0xF4 → b1 ≤ 0x8F) (h2 : 0x80 ≤ b2) (h2u : b2 ≤ 0xBF) (h3 : 0x80 ≤ b3)
    (h3u : b3 ≤ 0xBF) :
    DecodeRuneInString (b0 :: b1 :: b2 :: b3 :: t) =
      (b0 % 8 * 262144 + b1 % 64 * 4096 + b2 % 64 * 64 + b3 % 64, 4) := by
  have f1 : ¬ b0 < 128 := by omega
  have f2 : ¬ (b0 < 194 ∨ 244 < b0) := by omega
  have f3 : ¬ b0 < 224 := by omega
  have f3b : ¬ b0 < 240 := by omega
  have f4 : ¬ b0 = 224 := by omega
  have f6 : ¬ b0 = 237 := by omega
  have f7 : ¬ (b2 < 128 ∨ 191 < b2) := by omega
  have f9 : ¬ (b3 < 128 ∨ 191 < b3) := by omega
  have f8 : ¬ ((if b0 = 240 then 144 else 128) > b1 ∨ b1 > (if b0 = 244 then 143 else 191)) := by
    split_ifs <;> omega
  simp only [gt_iff_lt] at f8
  simp [DecodeRuneInString, f1, f2, f3, f3b, f4, f6, f7, f8, f9]

theorem DecodeRuneInString_AppendRune (r : Nat) (hr : ValidRune r = true) (h : 0x80 ≤ r)
    (t : GoString) :
    DecodeRuneInString (AppendRune r ++ t) = (r, (AppendRune r).length) := by
  have hv := (validRune_iff r).1 hr
  unfold AppendRune
  rw [if_neg (by omega)]
  by_cases h2 : r ≤ 0x7FF
  · rw [if_pos h2]
    simp only [List.cons_append, List.nil_append, List.length_cons, List.length_nil]
    rw [DecodeRuneInString_two _ _ _ (by omega) (by omega) (by omega) (by omega)]
    refine Prod.ext ?_ rfl
    simp only []
    omega
  rw [if_neg h2, if_neg (by simp only [MaxRune]; omega)]
  by_cases h3 : r ≤ 0xFFFF
  · rw [if_pos h3]
    simp only [List.cons_append, List.nil_append, List.length_cons, List.length_nil]
    rw [DecodeRuneInString_three _ _ _ _ (by omega) (by omega) (by omega) (by omega) (by omega)
      (by omega) (by omega) (by omega)]
    refine Prod.ext ?_ rfl
    simp only []
    omega
  · rw [if_neg h3]
    simp only [List.cons_append, List.nil_append, List.length_cons, List.length_nil]
    rw [DecodeRuneInString_four _ _ _ _ _ (by omega) (by omega) (by omega) (by omega) (by omega)
      (by omega) (by omega) (by omega) (by omega) (by omega)]
    refine Prod.ext ?_ rfl
    simp only []
    omega

theorem AppendRune_length_pos (r : Nat) : 1 ≤ (AppendRune r).length := by
  unfold AppendRune
  split_ifs <;> simp

theorem appendQuotedLoop_rune (table : Nat → Bool) (r : Nat) (hr : ValidRune r = true)
    (fuel : Nat) (t : GoString) :
    appendQuotedLoop table (fuel + 1) (AppendRune r ++ t) =
      appendEscapedRune table r ++ appendQuotedLoop table fuel t := by
  have hv := (validRune_iff r).1 hr
  by_cases hlow : r ≤ 0x7F
  · rw [AppendRune_ascii r hlow]
    have f1 : ¬ 128 ≤ r := by omega
    have f2 : ¬ r = 65533 := by omega
    simp only [List.cons_append, List.nil_append, appendQuotedLoop, RuneSelf, RuneError, f1,
      if_false, f2, and_false, List.drop_succ_cons, List.drop_zero]
  · have hd := DecodeRuneInString_AppendRune r hr (by omega) t
    have hlen := AppendRune_length_pos r
    have hhigh := AppendRune_high r (by omega)
    rcases hs : AppendRune r with _ | ⟨s0, rest⟩
    · rw [hs] at hlen; simp at hlen
    · have h0 : 0x80 ≤ s0 := hhigh s0 (by rw [hs]; exact List.mem_cons_self _ _)
      rw [hs] at hd
      simp only [List.cons_append, appendQuotedLoop, RuneSelf, RuneError]
      rw [if_pos h0]
      simp only [List.cons_append] at hd
      rw [hd]
      simp only []
      have hdrop : List.drop (s0 :: rest).length (s0 :: (rest ++ t)) = t := by
        rw [← List.cons_append, List.drop_left]
      rw [hdrop, if_neg]
      intro hcon
      have h1 : (s0 :: rest).length = 1 := hcon.1
      have h2 : r = 0xFFFD := hcon.2
      rw [← hs, h2] at h1
      revert h1
      decide

theorem appendQuotedLoop_runes (table : Nat → Bool) (runes : List Nat) :
    ∀ fuel : Nat, (∀ r ∈ runes, ValidRune r = true) →
      (runes.flatMap AppendRune).length ≤ fuel →
      appendQuotedLoop table fuel (runes.flatMap AppendRune) =
        runes.flatMap (appendEscapedRune table) := by
  induction runes with
  | nil =>
    intro fuel _ _
    cases fuel <;> rfl
  | cons r runes ih =>
    intro fuel h hfuel
    have hlen := AppendRune_length_pos r
    rw [List.flatMap_cons, List.length_append] at hfuel
    obtain ⟨fuel, rfl⟩ : ∃ k, fuel = k + 1 := ⟨fuel - 1, by omega⟩
    rw [List.flatMap_cons, appendQuotedLoop_rune table r (h r (List.mem_cons_self _ _)),
      ih fuel (fun c hc => h c (List.mem_cons_of_mem _ hc)) (by omega), List.flatMap_cons]

/-- On UTF-8 text, the Python value of the literal that `%q` writes is the
text itself. -/
theorem pyStringLiteral_Quote (table : Nat → Bool) (runes : List Nat)
    (h : ∀ r ∈ runes, ValidRune r = true) :
    pyStringLiteral (Quote table (runes.flatMap AppendRune)) = some (runes.flatMap AppendRune) := by
  unfold Quote pyStringLiteral
  simp only [if_true]
  rw [appendQuotedLoop_runes table runes _ h (Nat.le_refl _), List.foldl_append,
    foldl_pyStep_runes table runes [] h]
  rfl
/-- C20: context injection of `Completion`.  When setup succeeds and the
context value, which is the prompt when the caller gave none, serializes to
the UTF-8 text `J`, the first code executed in the sandbox is
`import json; context = json.loads(L)`, where `L` is what `%q` writes for `J`,
and the value of `L` read as a Python string literal is exactly `J`, whatever
quotes, backslashes or line ends `J` holds. -/
theorem Completion_context_injection {ω ε δ : Type} (W : World ω ε δ) (table : Nat → Bool)
    (r : RLM) (prompt : GoString) (contextData : Option δ) (w0 w1 w2 : ω)
    (addr J : GoString) (runes : List Nat)
    (hquote : W.quote = Quote table)
    (hstart : W.handlerStart w0 = (.ok addr, w1))
    (hrepl : W.newPythonREPL addr w1 = (none, w2))
    (hjson : marshalTarget W prompt contextData = .ok J)
    (hutf8 : J = runes.flatMap AppendRune) (hvalid : ∀ c ∈ runes, ValidRune c = true) :
    (contextData = none → W.jsonMarshalString prompt = .ok J) ∧
    ∃ rest : List GoString,
      executed (Completion W r prompt contextData w0).trace =
        (ascii "import json; context = json.loads(" ++ W.quote J ++ ascii ")") :: rest ∧
      pyStringLiteral (W.quote J) = some J := by
  refine ⟨?_, ?_⟩
  · intro hnone
    rw [hnone] at hjson
    exact hjson
  · simp only [Completion, hstart, hrepl, hjson]
    refine ⟨_, rfl, ?_⟩
    rw [hquote, hutf8]
    exact pyStringLiteral_Quote table runes hvalid

/-- C20 on the test double, for a prompt with single quotes, a triple-quote
sequence, a backslash and a line end, and no context value. -/
theorem Completion_context_injection_witness :
    ((none : Option Unit) = none →
      (mockWorldQuote testReplies).jsonMarshalString (ascii "it's \"\"\"x\"\"\" \\ \n") =
        .ok (ascii "\"it's \\\"\\\"\\\"x\\\"\\\"\\\" \\\\ \\n\"")) ∧
    ∃ rest : List GoString,
      executed (Completion (mockWorldQuote testReplies) ⟨5, []⟩
          (ascii "it's \"\"\"x\"\"\" \\ \n") none 0).trace =
        (ascii "import json; context = json.loads(" ++
          (mockWorldQuote testReplies).quote (ascii "\"it's \\\"\\\"\\\"x\\\"\\\"\\\" \\\\ \\n\"") ++
          ascii ")") :: rest ∧
      pyStringLiteral
          ((mockWorldQuote testReplies).quote (ascii "\"it's \\\"\\\"\\\"x\\\"\\\"\\\" \\\\ \\n\"")) =
        some (ascii "\"it's \\\"\\\"\\\"x\\\"\\\"\\\" \\\\ \\n\"") :=
  Completion_context_injection (mockWorldQuote testReplies) (fun _ => false) ⟨5, []⟩
    (ascii "it's \"\"\"x\"\"\" \\ \n") none 0 0 0 (ascii "127.0.0.1:0")
    (ascii "\"it's \\\"\\\"\\\"x\\\"\\\"\\\" \\\\ \\n\"")
    (ascii "\"it's \\\"\\\"\\\"x\\\"\\\"\\\" \\\\ \\n\"")
    rfl rfl rfl (congrArg Except.ok (by decide)) (by decide) (by decide)

/-! ## A final-answer marker inside a code block -/

theorem mem_occurrences (r s : GoString) (i : Nat) :
    i ∈ occurrences r s ↔ i ≤ s.length ∧ r <+: s.drop i := by
  simp [occurrences, List.mem_filter, List.mem_range, Nat.lt_succ_iff]

/-- A marker that occurs once in a text occurs at one offset only. -/
theorem occurrence_unique (r s : GoString) (hr : r ≠ [])
    (h : (occurrences r s).length = 1) (i j : Nat) (hi : r <+: s.drop i)
    (hj : r <+: s.drop j) : i = j := by
  have hle : ∀ k, r <+: s.drop k → k ≤ s.length := by
    intro k hk
    by_contra hc
    rw [List.drop_eq_nil_of_le (by omega)] at hk
    exact hr (List.prefix_nil.mp hk)
  obtain ⟨a, ha⟩ := List.length_eq_one.mp h
  have h1 : i ∈ occurrences r s := (mem_occurrences r s i).mpr ⟨hle i hi, hi⟩
  have h2 : j ∈ occurrences r s := (mem_occurrences r s j).mpr ⟨hle j hj, hj⟩
  rw [ha, List.mem_singleton] at h1 h2
  rw [h1, h2]

/-- Every block that `FindCodeBlocks` returns stands in the text between an
opening and a closing fence. -/
theorem FindCodeBlocks_mem_split (text b : GoString) (hb : b ∈ FindCodeBlocks text) :
    ∃ pre post, text = pre ++ ascii "```repl\n" ++ b ++ ascii "\n```" ++ post := by
  obtain ⟨mbs, hB⟩ := Blocks_total (ascii "```repl\n") (ascii "\n```") (by decide)
    text.length text 0 (Nat.le_refl _)
  rw [(FindCodeBlocks_of_blocks text mbs hB).2] at hb
  obtain ⟨mb, hmb, rfl⟩ := List.mem_map.mp hb
  obtain ⟨pre, post, h, -⟩ := Blocks_mem _ _ (by decide) 0 text mbs hB mb hmb
  exact ⟨pre, post, h⟩

/-- The final answer of a text is read at the first marker: the text up to
the first closing parenthesis after it. -/
theorem FindFinalAnswer_of_split (p x q : GoString)
    (hfirst : ∀ i, i < p.length →
      ¬ ascii "FINAL(" <+: (p ++ ascii "FINAL(" ++ x ++ ascii ")" ++ q).drop i)
    (hx : Char.toNat ')' ∉ x) :
    FindFinalAnswer (p ++ ascii "FINAL(" ++ x ++ ascii ")" ++ q) = TrimSpace x := by
  have hl : (ascii "FINAL(").length = 6 := rfl
  have hc : ascii ")" = [Char.toNat ')'] := rfl
  have hsplit : p ++ ascii "FINAL(" ++ x ++ ascii ")" ++ q =
      (p ++ ascii "FINAL(") ++ (x ++ (Char.toNat ')' :: q)) := by
    rw [hc]
    simp only [List.append_assoc, List.singleton_append]
  have hlen : (p ++ ascii "FINAL(").length = p.length + 6 := by
    rw [List.length_append, hl]
  have hspan : FinalSpan (p ++ ascii "FINAL(" ++ x ++ ascii ")" ++ q) p.length
      (p.length + 6 + x.length) := by
    refine ⟨?_, hfirst, by omega, ?_, ?_⟩
    · simp only [List.append_assoc, List.drop_left]
      exact List.prefix_append _ _
    · rw [hsplit, List.getElem?_append_right (by omega), hlen,
        List.getElem?_append_right (by omega),
        show p.length + 6 + x.length - (p.length + 6) - x.length = 0 by omega]
      exact List.getElem?_cons_zero
    · intro j hj1 hj2 hj3
      apply hx
      rw [hsplit, List.getElem?_append_right (by omega), hlen,
        List.getElem?_append_left (by omega)] at hj3
      exact List.mem_iff_getElem?.mpr ⟨_, hj3⟩
  rw [FindFinalAnswer_of_span _ _ _ hspan]
  congr 1
  rw [hsplit, slice, ← hlen, List.drop_left, hlen,
    show p.length + 6 + x.length - (p.length + 6) = x.length by omega, List.take_left]

theorem zipWith_executeCode_calls {ε : Type} :
    ∀ (codes : List GoString) (rs : List REPLResult), rs.length = codes.length →
      llmCalls (List.zipWith (Event.executeCode : GoString → REPLResult → Event ε) codes rs) = [] ∧
      executed (List.zipWith (Event.executeCode : GoString → REPLResult → Event ε) codes rs) =
        codes := by
  intro codes
  induction codes with
  | nil => intro rs _; simp [llmCalls, executed]
  | cons c codes ih =>
    intro rs hrs
    cases rs with
    | nil => simp at hrs
    | cons x rs =>
      have := ih rs (by simpa using hrs)
      simp [llmCalls, executed, this]

/-- After a reply of the run that carries a final answer, the trace holds
the executions of its blocks, the finalization and the deferred calls, and
`Completion` returns that answer. -/
theorem Completion_after_final_reply {ω ε δ : Type} (W : World ω ε δ) (r : RLM)
    (prompt : GoString) (contextData : Option δ) (w0 : ω) (pre post : List (Event ε))
    (msgs : List Message) (resp : GoString)
    (htrace : (Completion W r prompt contextData w0).trace =
      pre ++ Event.clientCompletion msgs (.ok resp) :: post)
    (hfinal : FindFinalAnswer resp ≠ []) :
    ∃ (results : List REPLResult) (n : Int) (w' : ω),
      results.length = (FindCodeBlocks resp).length ∧
      post = List.zipWith Event.executeCode (FindCodeBlocks resp) results ++
        [Event.observeIterations n, Event.modelName (W.modelName w'),
          Event.getUsageSummary (W.getUsageSummary w'),
          Event.cleanup, Event.handlerStop, Event.observeDuration] ∧
      (Completion W r prompt contextData w0).result =
        .ok (completionResult W prompt (FindFinalAnswer resp) w') := by
  rcases Completion_cases W r prompt contextData w0 with h | ⟨w3, sys, pre0, p1, -, hres, htr⟩
  · exfalso
    apply llmCalls_ne_nil_of_mem _ msgs (.ok resp) _ h
    rw [htrace]
    simp
  · rw [htr, List.append_assoc] at htrace
    obtain ⟨pre', -, hrest⟩ := split_at_llm pre post pre0 _ msgs (.ok resp) htrace.symm p1
    obtain ⟨post', hrun, hpost⟩ := split_at_llm_left pre' post _ _ msgs (.ok resp) hrest
      llmCalls_deferred
    obtain ⟨results, n, w', h1, h2, h3⟩ := mainLoop_blocks_then_final W r prompt
      r.maxIterations.toNat 0 w3 _ pre' post' msgs resp hrun hfinal
    refine ⟨results, n, w', h1, ?_, hres.trans h3⟩
    rw [hpost, h2, List.append_assoc]
    rfl

/-- C22: the final-answer check of the driver runs on the whole reply, the
bodies of its code blocks included.  When a reply of the run has the marker
`FINAL(` once only, inside the body `b` of one of its `repl` blocks, followed
in `b` by a `)` with a non-blank text `x` in between, then after that reply
the blocks of the reply are executed, `b` among them, the finalization of
that same iteration follows with no further LLM invocation, and `Completion`
returns the trimmed `x` as its `Response`. -/
theorem Completion_final_inside_block {ω ε δ : Type} (W : World ω ε δ) (r : RLM)
    (prompt : GoString) (contextData : Option δ) (w0 : ω) (pre post : List (Event ε))
    (msgs : List Message) (reply b u x v : GoString)
    (htrace : (Completion W r prompt contextData w0).trace =
      pre ++ Event.clientCompletion msgs (.ok reply) :: post)
    (hblock : b ∈ FindCodeBlocks reply)
    (hb : b = u ++ ascii "FINAL(" ++ x ++ ascii ")" ++ v)
    (honly : (occurrences (ascii "FINAL(") reply).length = 1)
    (hx : Char.toNat ')' ∉ x)
    (hbody : TrimSpace x ≠ []) :
    ∃ (results : List REPLResult) (n : Int) (name : GoString) (usage : UsageSummary),
      results.length = (FindCodeBlocks reply).length ∧
      post = List.zipWith Event.executeCode (FindCodeBlocks reply) results ++
        [Event.observeIterations n, Event.modelName name, Event.getUsageSummary usage,
          Event.cleanup, Event.handlerStop, Event.observeDuration] ∧
      b ∈ executed post ∧ llmCalls post = [] ∧
      ∃ res, (Completion W r prompt contextData w0).result = .ok res ∧
        res.Response = TrimSpace x := by
  obtain ⟨p0, q0, hsplit⟩ := FindCodeBlocks_mem_split reply b hblock
  obtain ⟨p, hp⟩ : ∃ p, p = p0 ++ ascii "```repl\n" ++ u := ⟨_, rfl⟩
  obtain ⟨q, hq⟩ : ∃ q, q = v ++ ascii "\n```" ++ q0 := ⟨_, rfl⟩
  have hreply : reply = p ++ ascii "FINAL(" ++ x ++ ascii ")" ++ q := by
    rw [hsplit, hb, hp, hq]
    simp only [List.append_assoc]
  have hocc : ascii "FINAL(" <+: reply.drop p.length := by
    rw [hreply]
    simp only [List.append_assoc, List.drop_left]
    exact List.prefix_append _ _
  have hanswer : FindFinalAnswer reply = TrimSpace x := by
    have hfirst : ∀ i, i < p.length → ¬ ascii "FINAL(" <+: reply.drop i := by
      intro i hi hpre
      have := occurrence_unique _ _ (by decide) honly _ _ hpre hocc
      omega
    rw [hreply] at hfirst ⊢
    exact FindFinalAnswer_of_split p x q hfirst hx
  obtain ⟨results, n, w', h1, h2, h3⟩ := Completion_after_final_reply W r prompt contextData w0
    pre post msgs reply htrace (by rw [hanswer]; exact hbody)
  have hz := zipWith_executeCode_calls (ε := ε) (FindCodeBlocks reply) results h1
  refine ⟨results, n, W.modelName w', W.getUsageSummary w', h1, h2, ?_, ?_, _, h3, hanswer⟩
  · rw [h2, executed_append, hz.2]
    exact List.mem_append_left _ hblock
  · rw [h2, llmCalls_append, hz.1]
    rfl

/-- C22, on a reply whose only marker `FINAL( done )` is inside its code
block: the block is executed and `Completion` returns `done` in that
iteration. -/
theorem Completion_final_inside_block_witness :
    executed (List.drop 4 (Completion (mockWorld testFinalInBlock) ⟨5, []⟩ (ascii "q")
        none 0).trace) = [ascii "print(1)\nFINAL( done )"] ∧
      ∃ res, (Completion (mockWorld testFinalInBlock) ⟨5, []⟩ (ascii "q") none 0).result =
          .ok res ∧ res.Response = ascii "done" := by
  obtain ⟨-, -, -, -, -, -, -, -, res, h5, h6⟩ :=
    Completion_final_inside_block (mockWorld testFinalInBlock) ⟨5, []⟩ (ascii "q") none 0
      (List.take 3 (Completion (mockWorld testFinalInBlock) ⟨5, []⟩ (ascii "q") none 0).trace)
      (List.drop 4 (Completion (mockWorld testFinalInBlock) ⟨5, []⟩ (ascii "q") none 0).trace)
      [⟨ascii "system", []⟩, ⟨ascii "user", ascii "Query: q"⟩]
      (ascii "Let me run it.\n```repl\nprint(1)\nFINAL( done )\n```\n")
      (ascii "print(1)\nFINAL( done )") (ascii "print(1)\n") (ascii " done ") []
      rfl (by decide) (by decide) (by decide) (by decide) (by decide)
  exact ⟨by decide, res, h5, h6.trans (by decide)⟩

/-! ## What a run does to the world, by its LLM invocations -/

theorem execBlocks_rel {ω ε δ : Type} (W : World ω ε δ) (R : ω → Nat → ω → Prop)
    (h0 : ∀ w, R w 0 w)
    (ht : ∀ a b c m n, R a m b → R b n c → R a (m + n) c)
    (hexec : ∀ code w, R w 0 (W.executeCode code w).2) (codes : List GoString) :
    ∀ (w : ω) (messages : List Message), R w 0 (execBlocks W codes w messages).2.1 := by
  induction codes with
  | nil => intro w messages; exact h0 w
  | cons code rest ih =>
    intro w messages
    simp only [execBlocks]
    exact ht _ _ _ 0 0 (hexec code w) (ih _ _)

theorem llmCalls_length_iteration {ε : Type} (messages : List Message)
    (reply : Except ε GoString) (evs rest : List (Event ε)) (h : llmCalls evs = []) :
    (llmCalls (Event.clientCompletion messages reply :: evs ++ rest)).length =
      1 + 0 + (llmCalls rest).length := by
  rw [llmCalls_append,
    show llmCalls (Event.clientCompletion messages reply :: evs) = messages :: llmCalls evs
      from rfl, h, List.length_append, List.length_singleton]

/-- A relation between worlds that the calls of the driver on its
collaborators keep, an LLM invocation counting for one, holds between the
worlds at the two ends of the main loop, with the number of its LLM
invocations. -/
theorem mainLoop_rel {ω ε δ : Type} (W : World ω ε δ) (R : ω → Nat → ω → Prop)
    (h0 : ∀ w, R w 0 w)
    (ht : ∀ a b c m n, R a m b → R b n c → R a (m + n) c)
    (hllm : ∀ msgs w, R w 1 (W.clientCompletion msgs w).2)
    (hexec : ∀ code w, R w 0 (W.executeCode code w).2) (r : RLM) (prompt : GoString) :
    ∀ (fuel i : Nat) (w : ω) (messages : List Message),
      R w (llmCalls (mainLoop W r prompt fuel i w messages).trace).length
        (mainLoop W r prompt fuel i w messages).world := by
  intro fuel
  induction fuel with
  | zero => intro i w messages; exact h0 w
  | succ fuel ih =>
    intro i w messages
    cases hctx : W.ctxErr w with
    | some err =>
      rw [mainLoop_cancelled W r prompt fuel i w messages err hctx]
      exact h0 w
    | none =>
      rcases hc : W.clientCompletion messages w with ⟨reply, w1⟩
      have h1 : R w 1 w1 := by
        have := hllm messages w
        rw [hc] at this
        exact this
      cases reply with
      | error err =>
        rw [mainLoop_client_error W r prompt fuel i w w1 messages err hctx hc]
        exact h1
      | ok resp =>
        have h2 := execBlocks_rel W R h0 ht hexec (FindCodeBlocks resp) w1
          (messages ++ [⟨ascii "assistant", resp⟩])
        have hl := execBlocks_llmCalls W (FindCodeBlocks resp) w1
          (messages ++ [⟨ascii "assistant", resp⟩])
        have h12 := ht _ _ _ 1 0 h1 h2
        by_cases hfinal : FindFinalAnswer resp = []
        · rw [mainLoop_continue W r prompt fuel i w w1 messages resp hctx hc hfinal]
          have h3 := ih (i + 1)
            (execBlocks W (FindCodeBlocks resp) w1 (messages ++ [⟨ascii "assistant", resp⟩])).2.1
            (if (FindCodeBlocks resp).length = 0 then
              (execBlocks W (FindCodeBlocks resp) w1
                (messages ++ [⟨ascii "assistant", resp⟩])).1 ++
                [⟨ascii "user", ascii "Please continue or provide a FINAL(answer)."⟩]
            else
              (execBlocks W (FindCodeBlocks resp) w1 (messages ++ [⟨ascii "assistant", resp⟩])).1)
          have h4 := ht _ _ _ _ _ h12 h3
          dsimp only
          rw [llmCalls_length_iteration _ _ _ _ hl]
          exact h4
        · rw [mainLoop_final W r prompt fuel i w w1 messages resp hctx hc hfinal]
          dsimp only
          rw [llmCalls_length_iteration _ _ _ _ hl]
          exact h12

theorem mainLoop_result_world {ω ε δ : Type} (W : World ω ε δ) (r : RLM) (prompt : GoString) :
    ∀ (fuel i : Nat) (w : ω) (messages : List Message) (res : RLMChatCompletion),
      (mainLoop W r prompt fuel i w messages).result = .ok res →
      res.UsageSummary = W.getUsageSummary (mainLoop W r prompt fuel i w messages).world := by
  intro fuel
  induction fuel with
  | zero =>
    intro i w messages res h
    simp only [mainLoop, Except.ok.injEq] at h
    rw [← h]
    rfl
  | succ fuel ih =>
    intro i w messages res h
    cases hctx : W.ctxErr w with
    | some err =>
      rw [mainLoop_cancelled W r prompt fuel i w messages err hctx] at h
      simp at h
    | none =>
      rcases hc : W.clientCompletion messages w with ⟨reply, w1⟩
      cases reply with
      | error err =>
        rw [mainLoop_client_error W r prompt fuel i w w1 messages err hctx hc] at h
        simp at h
      | ok resp =>
        by_cases hfinal : FindFinalAnswer resp = []
        · rw [mainLoop_continue W r prompt fuel i w w1 messages resp hctx hc hfinal] at h ⊢
          exact ih _ _ _ res h
        · rw [mainLoop_final W r prompt fuel i w w1 messages resp hctx hc hfinal] at h ⊢
          simp only [Except.ok.injEq] at h
          rw [← h]
          rfl

/-- A relation between worlds that every call of the driver on a
collaborator keeps, an LLM invocation counting for one, holds between the
world before `Completion` and the world at its return, with the number of LLM
invocations of the run; the usage summary of a result is read in the world at
the return of the main loop, before the deferred calls. -/
theorem Completion_rel {ω ε δ : Type} (W : World ω ε δ) (R : ω → Nat → ω → Prop)
    (h0 : ∀ w, R w 0 w)
    (ht : ∀ a b c m n, R a m b → R b n c → R a (m + n) c)
    (hllm : ∀ msgs w, R w 1 (W.clientCompletion msgs w).2)
    (hexec : ∀ code w, R w 0 (W.executeCode code w).2)
    (hstart : ∀ w, R w 0 (W.handlerStart w).2)
    (hnew : ∀ addr w, R w 0 (W.newPythonREPL addr w).2)
    (r : RLM) (prompt : GoString) (contextData : Option δ) (w0 : ω) :
    ∃ w' : ω, R w0 (llmCalls (Completion W r prompt contextData w0).trace).length w' ∧
      ((Completion W r prompt contextData w0).world = w' ∨
        (Completion W r prompt contextData w0).world = W.handlerStop w' ∨
        (Completion W r prompt contextData w0).world = W.handlerStop (W.cleanup w')) ∧
      ∀ res, (Completion W r prompt contextData w0).result = .ok res →
        res.UsageSummary = W.getUsageSummary w' := by
  rcases h1 : W.handlerStart w0 with ⟨started, w1⟩
  have hs : R w0 0 w1 := by
    have := hstart w0
    rw [h1] at this
    exact this
  cases started with
  | error err =>
    refine ⟨w1, ?_, Or.inl ?_, ?_⟩
    · simp only [Completion, h1]
      exact hs
    · simp only [Completion, h1]
    · intro res hres
      simp [Completion, h1] at hres
  | ok addr =>
    rcases h2 : W.newPythonREPL addr w1 with ⟨failed, w2⟩
    have hn : R w0 0 w2 := by
      have := hnew addr w1
      rw [h2] at this
      exact ht _ _ _ 0 0 hs this
    cases failed with
    | some err =>
      refine ⟨w2, ?_, Or.inr (Or.inl ?_), ?_⟩
      · simp only [Completion, h1, h2]
        exact hn
      · simp only [Completion, h1, h2]
      · intro res hres
        simp [Completion, h1, h2] at hres
    | none =>
      cases h3 : marshalTarget W prompt contextData with
      | error err =>
        refine ⟨w2, ?_, Or.inr (Or.inr ?_), ?_⟩
        · simp only [Completion, h1, h2, h3]
          exact hn
        · simp only [Completion, h1, h2, h3]
        · intro res hres
          simp [Completion, h1, h2, h3] at hres
      | ok jsonStr =>
        have hi := hexec (initCode W jsonStr) w2
        have hm := mainLoop_rel W R h0 ht hllm hexec r prompt r.maxIterations.toNat 0
          (W.executeCode (initCode W jsonStr) w2).2
          (initialMessages W r prompt contextData jsonStr)
        have hall := ht _ _ _ _ _ (ht _ _ _ 0 0 hn hi) hm
        simp only [Nat.zero_add] at hall
        have hc : Completion W r prompt contextData w0 =
            { result := (mainLoop W r prompt r.maxIterations.toNat 0
                (W.executeCode (initCode W jsonStr) w2).2
                (initialMessages W r prompt contextData jsonStr)).result
              world := W.handlerStop (W.cleanup (mainLoop W r prompt r.maxIterations.toNat 0
                (W.executeCode (initCode W jsonStr) w2).2
                (initialMessages W r prompt contextData jsonStr)).world)
              trace := [Event.handlerStart, Event.newPythonREPL addr,
                Event.executeCode (initCode W jsonStr)
                  (W.executeCode (initCode W jsonStr) w2).1] ++
                (mainLoop W r prompt r.maxIterations.toNat 0
                  (W.executeCode (initCode W jsonStr) w2).2
                  (initialMessages W r prompt contextData jsonStr)).trace ++
                [Event.cleanup, Event.handlerStop, Event.observeDuration] } := by
          simp only [Completion, h1, h2, h3]
          rfl
        rw [hc]
        refine ⟨_, ?_, Or.inr (Or.inr rfl), ?_⟩
        · dsimp only
          rw [llmCalls_append, llmCalls_append, llmCalls_deferred, List.append_nil,
            show llmCalls ([Event.handlerStart, Event.newPythonREPL addr,
              Event.executeCode (initCode W jsonStr)
                (W.executeCode (initCode W jsonStr) w2).1] : List (Event ε)) = [] from rfl,
            List.nil_append]
          exact hall
        · intro res hres
          exact mainLoop_result_world W r prompt _ _ _ _ res hres

/-! ## Characters and bytes of a captured output -/

theorem accents_length (n : Nat) : (accents n).length = 2 * n := by
  induction n with
  | zero => rfl
  | succ n ih => simp only [accents, List.length_cons, ih]; omega

theorem runeCountLoop_accents (n : Nat) :
    ∀ fuel, n ≤ fuel → runeCountLoop fuel (accents n) = n := by
  induction n with
  | zero =>
    intro fuel _
    cases fuel <;> rfl
  | succ n ih =>
    intro fuel hfuel
    obtain ⟨fuel, rfl⟩ : ∃ k, fuel = k + 1 := ⟨fuel - 1, by omega⟩
    simp only [accents, runeCountLoop]
    rw [DecodeRuneInString_two 0xC3 0xA9 (accents n) (by decide) (by decide) (by decide)
      (by decide)]
    simp only [List.drop_succ_cons, List.drop_zero]
    rw [ih fuel (by omega)]
    omega

theorem accents_take (n k : Nat) : (accents (n + k)).take (2 * n) = accents n := by
  induction n with
  | zero => simp [accents]
  | succ n ih =>
    rw [show n + 1 + k = (n + k) + 1 by omega, show 2 * (n + 1) = 2 * n + 1 + 1 by omega]
    simp only [accents, List.take_succ_cons, ih]

/-- C8 as stated fails: the capture of 1001 letters U+00E9 has 1001
characters, at most 2000, and 2002 bytes; it is cut to its first 2000 bytes,
followed by the marker, and so is not fed back byte-identical. -/
theorem feedbackStdout_cuts_bytes :
    RuneCountInString (accents 1001) = 1001 ∧ (accents 1001).length = 2002 ∧
      feedbackStdout (accents 1001) = accents 1000 ++ ascii "\n...[Output Truncated]..." ∧
      feedbackStdout (accents 1001) ≠ accents 1001 := by
  have hlen : (accents 1001).length = 2002 := accents_length 1001
  have hcut : feedbackStdout (accents 1001) =
      accents 1000 ++ ascii "\n...[Output Truncated]..." := by
    rw [feedbackStdout_eq, if_pos (by rw [hlen]; omega)]
    exact congrArg (· ++ ascii "\n...[Output Truncated]...") (accents_take 1000 1)
  refine ⟨?_, hlen, hcut, ?_⟩
  · unfold RuneCountInString
    rw [hlen]
    exact runeCountLoop_accents 1001 2002 (by omega)
  · intro h
    have := congrArg List.length h
    rw [hcut, List.length_append, accents_length, hlen] at this
    simp [ascii] at this

/-! ## The counters of the client -/

theorem goInt_add (a b : Int) : goInt (goInt a + b) = goInt (a + b) := by
  unfold goInt
  omega

theorem goInt_goInt (a : Int) : goInt (goInt a) = goInt a := by
  unfold goInt
  omega

theorem goInt_of_range (a : Int) (h1 : -2 ^ 63 ≤ a) (h2 : a < 2 ^ 63) : goInt a = a := by
  unfold goInt
  omega

theorem isGoInt_iff (a : Int) : IsGoInt a ↔ -2 ^ 63 ≤ a ∧ a < 2 ^ 63 := by
  unfold IsGoInt goInt
  omega

theorem countedCalls_append {ε : Type} (a b : List (Invocation ε)) :
    countedCalls (a ++ b) = countedCalls a + countedCalls b := by
  simp [countedCalls]

theorem callsOf_append {ε : Type} (origin : Origin) (a b : List (Invocation ε)) :
    callsOf origin (a ++ b) = callsOf origin a ++ callsOf origin b := by
  simp [callsOf]

theorem countedCalls_le {ε : Type} (log : List (Invocation ε)) :
    countedCalls log ≤ log.length :=
  List.length_filter_le _ _

theorem countedCalls_eq_length {ε : Type} (log : List (Invocation ε)) :
    countedCalls log = log.length ↔ ∀ e ∈ log, e.counted = true := by
  unfold countedCalls
  exact List.filter_length_eq_length

theorem callsOf_length {ε : Type} (log : List (Invocation ε)) :
    (callsOf Origin.driver log).length + (callsOf Origin.handler log).length = log.length := by
  induction log with
  | nil => rfl
  | cons e log ih =>
    rcases e with ⟨origin, resp⟩
    cases origin <;> simp [callsOf] at ih ⊢ <;> omega

theorem Accounts_refl {σ ρ ε : Type} (s : Runtime σ ρ ε) : Accounts s 0 s :=
  ⟨[], by simp, rfl, by simp [countedCalls], fun h => h⟩

/-- States with the same counters and the same log account alike. -/
theorem Accounts_congr {σ ρ ε : Type} (s t u : Runtime σ ρ ε) (n : Nat)
    (hc : u.client.usage = t.client.usage) (hl : u.log = t.log) (h : Accounts s n t) :
    Accounts s n u := by
  obtain ⟨new, h1, h2, h3, h4⟩ := h
  exact ⟨new, by rw [hl, h1], h2, by rw [hc, h3], by rw [hc]; exact h4⟩

theorem Accounts_trans {σ ρ ε : Type} (a b c : Runtime σ ρ ε) (m n : Nat)
    (hab : Accounts a m b) (hbc : Accounts b n c) : Accounts a (m + n) c := by
  obtain ⟨new1, h1, h2, h3, h4⟩ := hab
  obtain ⟨new2, k1, k2, k3, k4⟩ := hbc
  refine ⟨new1 ++ new2, by rw [k1, h1, List.append_assoc], ?_, ?_, fun h => k4 (h4 h)⟩
  · rw [callsOf_append, List.length_append, h2, k2]
  · rw [k3, ← goInt_add, h3, goInt_add, countedCalls_append]
    congr 1
    push_cast
    omega

/-- The counters after `Completion` of the client: those that the block
`// Track usage` leaves when the vendor returned a response, however the call
ends then, and the same as before when the vendor call failed. -/
theorem GeminiClient_Completion_usage {σ ε : Type}
    (generate : σ → GoString → List genai.Content → Option genai.Content →
      Except ε genai.GenerateContentResponse × σ)
    (errorf : GoString → ε) (c : GeminiClient σ) (messages : List Message) :
    (c.Completion generate errorf messages).2.usage =
      match (c.generateContent generate messages).1 with
      | .ok resp => trackUsage c.usage resp
      | .error _ => c.usage := by
  unfold GeminiClient.Completion
  rcases h : c.generateContent generate messages with ⟨reply, v⟩
  cases reply with
  | error err => rfl
  | ok resp => rfl

theorem trackUsage_calls (usage : UsageSummary) (resp : genai.GenerateContentResponse) :
    (trackUsage usage resp).TotalCalls =
      if resp.UsageMetadata.isSome then goInt (usage.TotalCalls + 1) else usage.TotalCalls := by
  unfold trackUsage
  cases resp.UsageMetadata <;> rfl

theorem Runtime_disturbed_accounts {σ ρ ε δ : Type} (E : Env σ ρ ε δ) (hq : Quiet E)
    (s : Runtime σ ρ ε) : Accounts s 0 (s.disturbed E) :=
  Accounts_congr s s _ 0 (hq s) rfl (Accounts_refl s)

theorem Runtime_called_accounts {σ ρ ε δ : Type} (E : Env σ ρ ε δ) (hq : Quiet E)
    (origin : Origin) (s : Runtime σ ρ ε) (reply : Except ε genai.GenerateContentResponse)
    (v : σ) :
    (s.called E origin reply v).log = s.log ++ [⟨origin, reply⟩] ∧
      (s.called E origin reply v).client.usage = s.client.usage :=
  ⟨rfl, (hq _).trans (hq s)⟩

/-- When the other goroutines leave the counters alone, one invocation of the
client adds its entry to the log, and one to the counter of calls when it is
counted. -/
theorem Runtime_invoke_accounts {σ ρ ε δ : Type} (E : Env σ ρ ε δ) (hq : Quiet E)
    (origin : Origin) (messages : List Message) (s : Runtime σ ρ ε) :
    Accounts s (if origin = Origin.driver then 1 else 0) (s.invoke E origin messages).2 := by
  unfold Runtime.invoke
  rcases hcall : (s.disturbed E).client.generateContent E.generate messages with ⟨reply, v⟩
  obtain ⟨hlog, husage⟩ := Runtime_called_accounts E hq origin s reply v
  have horigin : (callsOf Origin.driver [(⟨origin, reply⟩ : Invocation ε)]).length =
      if origin = Origin.driver then 1 else 0 := by
    cases origin <;> simp [callsOf]
  cases reply with
  | error err =>
    refine ⟨[⟨origin, .error err⟩], hlog, horigin, ?_, ?_⟩
    · simp only [husage, countedCalls, List.filter, Invocation.counted]
      simp
    · intro h
      simp only [husage]
      exact h
  | ok resp =>
    refine ⟨[⟨origin, .ok resp⟩], hlog, horigin, ?_, ?_⟩
    · simp only [GeminiClient.finish, husage, countedCalls, List.filter, Invocation.counted,
        trackUsage_calls]
      cases resp.UsageMetadata with
      | none => simp
      | some m => simp [goInt_goInt]
    · intro h
      simp only [GeminiClient.finish, husage, trackUsage_calls]
      cases resp.UsageMetadata with
      | none => exact h
      | some m => exact goInt_goInt _

/-- While a code string is executed, the log and the counter change by the
invocations of the handler only. -/
theorem runSubCalls_accounts {σ ρ ε δ : Type} (E : Env σ ρ ε δ) (hq : Quiet E)
    (calls : SubCalls ρ ε) : ∀ s : Runtime σ ρ ε, Accounts s 0 (runSubCalls E calls s).2 := by
  induction calls with
  | done res next =>
    intro s
    exact Accounts_congr s s _ 0 rfl rfl (Accounts_refl s)
  | invoke messages k ih =>
    intro s
    rw [runSubCalls]
    exact Accounts_trans _ _ _ 0 0 (Runtime_invoke_accounts E hq Origin.handler messages s)
      (ih _ _)

theorem UsageSummary_le_refl (a : UsageSummary) : a.le a :=
  ⟨Int.le_refl _, Int.le_refl _, Int.le_refl _⟩

theorem trackUsage_monotone (usage : UsageSummary) (resp : genai.GenerateContentResponse)
    (h : TracksInRange usage resp) : usage.le (trackUsage usage resp) := by
  rcases resp with ⟨candidates, metadata⟩
  cases metadata with
  | none => exact UsageSummary_le_refl usage
  | some m =>
    obtain ⟨h1, h2, h3, h4, h5⟩ := h
    unfold IsGoInt at h3 h4 h5
    refine ⟨?_, ?_, ?_⟩
    · show usage.TotalCalls ≤ goInt (usage.TotalCalls + 1)
      rw [h3]; omega
    · show usage.TotalInputTokens ≤ goInt (usage.TotalInputTokens + m.PromptTokenCount)
      rw [h4]; omega
    · show usage.TotalOutputTokens ≤ goInt (usage.TotalOutputTokens + m.CandidatesTokenCount)
      rw [h5]; omega

/-- A call of `Completion` on a client that nothing else uses meanwhile
lowers no counter, as long as the token counts of the vendor are not negative
and the counters stay values of a Go `int`. -/
theorem GeminiClient_Completion_monotone {σ ε : Type}
    (generate : σ → GoString → List genai.Content → Option genai.Content →
      Except ε genai.GenerateContentResponse × σ)
    (errorf : GoString → ε) (c : GeminiClient σ) (messages : List Message)
    (h : ∀ resp, (c.generateContent generate messages).1 = .ok resp →
      TracksInRange c.usage resp) :
    c.usage.le (c.Completion generate errorf messages).2.usage := by
  rw [GeminiClient_Completion_usage]
  cases hr : (c.generateContent generate messages).1 with
  | error err => exact UsageSummary_le_refl _
  | ok resp => exact trackUsage_monotone _ _ (h resp hr)

/-- The run of `Completion` on the Gemini client when the other goroutines
leave the counters alone: from its first state to the state at its return,
by the invocations it has added to the log. -/
theorem Completion_accounts {σ ρ ε δ : Type} (E : Env σ ρ ε δ) (hq : Quiet E) (r : RLM)
    (prompt : GoString) (contextData : Option δ) (s0 : Runtime σ ρ ε) :
    Accounts s0 (llmCalls (Completion (geminiWorld E) r prompt contextData s0).trace).length
        (Completion (geminiWorld E) r prompt contextData s0).world ∧
      ∀ res, (Completion (geminiWorld E) r prompt contextData s0).result = .ok res →
        res.UsageSummary =
          (Completion (geminiWorld E) r prompt contextData s0).world.client.usage := by
  obtain ⟨w, h1, h2, h3⟩ := Completion_rel (geminiWorld E) Accounts Accounts_refl Accounts_trans
    (fun msgs s => Runtime_invoke_accounts E hq Origin.driver msgs s)
    (fun code s => runSubCalls_accounts E hq (E.sandbox s code) s)
    (fun s => Accounts_congr s s _ 0 rfl rfl (Accounts_refl s))
    (fun addr s => Accounts_congr s s _ 0 rfl rfl (Accounts_refl s)) r prompt contextData s0
  have hw : (Completion (geminiWorld E) r prompt contextData s0).world.client.usage =
        w.client.usage ∧
      (Completion (geminiWorld E) r prompt contextData s0).world.log = w.log := by
    rcases h2 with h | h | h <;> rw [h] <;> exact ⟨rfl, rfl⟩
  refine ⟨Accounts_congr _ _ _ _ hw.1 hw.2 h1, ?_⟩
  intro res hres
  rw [h3 res hres, hw.1]
  exact hq w

theorem ok_of_toOption {ε α : Type} (e : Except ε α) (a : α) (h : e.toOption = some a) :
    e = .ok a := by
  cases e with
  | error err => simp [Except.toOption] at h
  | ok b =>
    simp only [Except.toOption, Option.some.injEq] at h
    rw [h]

/-- C21 as stated fails.  On the second completion of a process, which runs
on the client of the first after the first has returned, one iteration is
made, no sub-call, and its one LLM invocation succeeds, yet `total_calls` in
its result is 2, not 1: the counter is that of the client.  And on a new
client whose vendor returns the final answer without usage metadata, the one
invocation succeeds and `total_calls` is 0, below the one iteration. -/
theorem Completion_usage_counts_client :
    (testSecondRun.result.toOption.map (fun res => res.UsageSummary.TotalCalls) = some 2 ∧
      (llmCalls testSecondRun.trace).length = 1 ∧
      (testSecondRun.world.log.drop testFirstRun.world.log.length).map
        (fun e => (e.origin, e.succeeded)) = [(Origin.driver, true)]) ∧
    (testBareRun.result.toOption.map (fun res => res.UsageSummary.TotalCalls) = some 0 ∧
      (llmCalls testBareRun.trace).length = 1 ∧
      testBareRun.world.log.map (fun e => (e.origin, e.succeeded)) = [(Origin.driver, true)]) := by
  decide

/-- The counter is shared: when another request uses the client while a
completion runs, the growth of `total_calls` over the completion is not the
number of its own counted invocations.  Here the other goroutines add one call
at each of their turns, and a completion of one iteration returns 4. -/
theorem Completion_usage_shared_client :
    testSharedRun.result.toOption.map (fun res => res.UsageSummary.TotalCalls) = some 4 ∧
      (llmCalls testSharedRun.trace).length = 1 ∧ countedCalls testSharedRun.world.log = 1 := by
  decide

/-- C21, amended: the usage summary in the result of a completion is the
counter of the LLM client at the return, cumulative over the life of the
client.  When the other goroutines that share the client leave its counters
alone (the client is used by this completion only, one call at a time), its
`total_calls` is the value at the beginning of the completion plus the number
of LLM invocations of the completion, by the driver (one for each iteration)
or by the handler (the sub-calls), to which the vendor returned a response
with usage metadata; while the counter stays a Go `int`, its growth is at most
the driver iterations plus the sub-call invocations, with equality exactly
when every one of them is counted.  And a call on a client that nothing else
uses meanwhile lowers no counter, as long as token counts are not negative
and the counters stay in range. -/
theorem Completion_usage_summary {σ ρ ε δ : Type} (E : Env σ ρ ε δ) (r : RLM)
    (prompt : GoString) (contextData : Option δ) (s0 : Runtime σ ρ ε) (res : RLMChatCompletion)
    (hquiet : Quiet E)
    (hint : IsGoInt s0.client.usage.TotalCalls)
    (hres : (Completion (geminiWorld E) r prompt contextData s0).result = .ok res) :
    (∃ new : List (Invocation ε),
      (Completion (geminiWorld E) r prompt contextData s0).world.log = s0.log ++ new ∧
      (callsOf Origin.driver new).length =
        (llmCalls (Completion (geminiWorld E) r prompt contextData s0).trace).length ∧
      res.UsageSummary =
        (Completion (geminiWorld E) r prompt contextData s0).world.client.GetUsageSummary ∧
      res.UsageSummary.TotalCalls = goInt (s0.client.usage.TotalCalls + countedCalls new) ∧
      (s0.client.usage.TotalCalls + new.length < 2 ^ 63 →
        res.UsageSummary.TotalCalls = s0.client.usage.TotalCalls + countedCalls new ∧
        res.UsageSummary.TotalCalls - s0.client.usage.TotalCalls ≤
          (callsOf Origin.driver new).length + (callsOf Origin.handler new).length ∧
        (res.UsageSummary.TotalCalls - s0.client.usage.TotalCalls =
            (callsOf Origin.driver new).length + (callsOf Origin.handler new).length ↔
          ∀ e ∈ new, e.counted = true))) ∧
    ∀ (c : GeminiClient σ) (messages : List Message),
      (∀ resp, (c.generateContent E.generate messages).1 = .ok resp →
        TracksInRange c.usage resp) →
      c.usage.le (c.Completion E.generate E.errorf messages).2.GetUsageSummary := by
  refine ⟨?_, fun c messages h => GeminiClient_Completion_monotone _ _ c messages h⟩
  obtain ⟨⟨new, h1, h2, h3, h4⟩, h5⟩ := Completion_accounts E hquiet r prompt contextData s0
  have husage := h5 res hres
  have hcalls : res.UsageSummary.TotalCalls =
      goInt (s0.client.usage.TotalCalls + countedCalls new) := by
    rw [husage, ← h3]
    exact (h4 hint).symm
  refine ⟨new, h1, h2, husage, hcalls, ?_⟩
  intro hrange
  have hlow := ((isGoInt_iff _).mp hint).1
  have hle := countedCalls_le new
  have hlen := callsOf_length new
  have hsum : res.UsageSummary.TotalCalls = s0.client.usage.TotalCalls + countedCalls new := by
    rw [hcalls]
    apply goInt_of_range <;> omega
  refine ⟨hsum, by omega, ?_⟩
  rw [← countedCalls_eq_length]
  omega

/-- C21, amended, on a completion with two iterations and three sub-call
invocations on a new client that nothing else uses: the vendor fails on one
sub-call and returns no usage metadata to another, so three of the five
invocations are counted and `total_calls` is 3. -/
theorem Completion_usage_summary_witness :
    ∃ new : List (Invocation GoString),
      testSubCallRun.world.log = testRuntime.log ++ new ∧
      (callsOf Origin.driver new).length = (llmCalls testSubCallRun.trace).length ∧
      (3 : Int) = goInt (0 + countedCalls new) ∧
      (callsOf Origin.driver new).length = 2 ∧ (callsOf Origin.handler new).length = 3 ∧
      countedCalls new = 3 := by
  obtain ⟨⟨new, h1, h2, -, h4, -⟩, -⟩ :=
    Completion_usage_summary (testEnv testSubCallScript 0 askingSandbox) ⟨5, []⟩ (ascii "q") none
      testRuntime ⟨ascii "gemini-2.5-flash", ascii "q", ascii "b", ⟨3, 8, 3⟩⟩
      (fun s => by simp [testEnv]) (by decide) (ok_of_toOption _ _ (by decide))
  have hnew : testSubCallRun.world.log = new := h1
  subst hnew
  exact ⟨_, h1, h2, h4, rfl, rfl, rfl⟩

end RlmGo
